import Mathlib

/-!
Verification of the `managesieve` crate (RFC 5804 wire grammar):
a shallow embedding of `src/parser.rs` (nom streaming combinators over
`&str`) and `src/types.rs` (typed decode layer, command encoder), with
theorems checking the specification's claims about incremental decoding,
error classification, and wire formats.

Inputs are modelled as `List Char`, matching nom's `&str` parsers.
`bytes::streaming::take(count)` consumes `count` chars (`&str`'s
`InputIter`), while `multi::length_data` works in raw bytes: `&str`'s
`InputLength` is the byte length (`utf8Len` here) and its `take_split`
is `str::split_at` at a byte index, which panics off a char boundary
(`splitAtBytes` returning `none`).  Parse outcomes mirror
`nom::IResult` in streaming mode: success with an unconsumed remainder,
`Incomplete` (more bytes needed), a definite grammar error, or `crash`
for a panic inside the parser.  Rust panics at the typed layer
(`unwrap`, `unimplemented!`, or a propagated parser crash) are modelled
by an `Option` wrapper, with `none` standing for the panic.
-/

deriving instance DecidableEq for Except

set_option synthInstance.maxSize 512

namespace Managesieve

/-- Outcome of a nom streaming parser: success (with unconsumed rest),
`Incomplete` (ran out of input inside a recognized prefix), a definite
mismatch (`nom::Err::Error`), or a Rust panic (`crash`; the only panic
site in this grammar is `length_data`'s `str::split_at` on a byte index
inside a multi-byte char).  A panic unwinds through every combinator, so
all of them propagate `crash`. -/
inductive PR (α : Type) where
  | ok (rest : List Char) (val : α)
  | incomplete
  | err
  | crash
  deriving DecidableEq

/-- A parser over `&str`, modelled as a function on the char list. -/
abbrev Parser (α : Type) : Type := List Char → PR α

/-! ### Combinators (mirroring nom's semantics) -/

/-- nom `map`. -/
def pmap (f : α → β) (p : Parser α) : Parser β := fun s =>
  match p s with
  | .ok r v => .ok r (f v)
  | .incomplete => .incomplete
  | .err => .err
  | .crash => .crash

/-- nom `value`. -/
def pvalue (b : β) (p : Parser α) : Parser β := pmap (fun _ => b) p

/-- nom `map_res`: a failing conversion becomes `Err::Error`. -/
def pmapRes (p : Parser α) (f : α → Option β) : Parser β := fun s =>
  match p s with
  | .ok r v =>
    match f v with
    | some b => .ok r b
    | none => .err
  | .incomplete => .incomplete
  | .err => .err
  | .crash => .crash

/-- nom `opt`: recovers from `Err::Error` (consuming nothing), but
propagates `Incomplete`. -/
def popt (p : Parser α) : Parser (Option α) := fun s =>
  match p s with
  | .ok r v => .ok r (some v)
  | .incomplete => .incomplete
  | .err => .ok s none
  | .crash => .crash

/-- nom `alt`: tries the second branch only on `Err::Error`; `Incomplete`
short-circuits. -/
def palt (p q : Parser α) : Parser α := fun s =>
  match p s with
  | .err => q s
  | r => r

/-- nom `pair`/`tuple`: sequencing, propagating the first failure. -/
def ppair (p : Parser α) (q : Parser β) : Parser (α × β) := fun s =>
  match p s with
  | .ok r v =>
    match q r with
    | .ok r2 w => .ok r2 (v, w)
    | .incomplete => .incomplete
    | .err => .err
    | .crash => .crash
  | .incomplete => .incomplete
  | .err => .err
  | .crash => .crash

/-- nom `preceded`. -/
def ppreceded (p : Parser α) (q : Parser β) : Parser β := pmap Prod.snd (ppair p q)

/-- nom `terminated`. -/
def pterminated (p : Parser α) (q : Parser β) : Parser α := pmap Prod.fst (ppair p q)

/-- nom `delimited`. -/
def pdelimited (a : Parser α) (b : Parser β) (c : Parser γ) : Parser β :=
  pterminated (ppreceded a b) c

/-- nom `separated_pair`. -/
def psepPair (a : Parser α) (sep : Parser σ) (b : Parser β) : Parser (α × β) :=
  ppair (pterminated a sep) b

/-- nom streaming `tag`: full match consumes the tag, a proper prefix of
the tag at end of input is `Incomplete`, anything else is an error. -/
def tagP (t : List Char) : Parser (List Char) := fun s =>
  if t.isPrefixOf s then .ok (s.drop t.length) t
  else if s.isPrefixOf t then .incomplete
  else .err

/-- ASCII lowercase image of a char list (nom's caseless tag comparison;
the tags in this grammar are all ASCII). -/
def lowStr (s : List Char) : List Char := s.map Char.toLower

/-- nom streaming `tag_no_case`: like `tagP` but comparing lowercased
chars; the value is the matched input slice in its original case. -/
def tagNoCaseP (t : List Char) : Parser (List Char) := fun s =>
  if t.length ≤ s.length then
    if lowStr (s.take t.length) = lowStr t then .ok (s.drop t.length) (s.take t.length)
    else .err
  else
    if lowStr s = lowStr (t.take s.length) then .incomplete
    else .err

/-- nom streaming `take_while1`-style run (`digit1`, `space1`): consumes a
maximal nonempty run of chars satisfying `f`; an empty run is an error,
and reaching end of input with the run still open is `Incomplete`. -/
def runP (f : Char → Bool) : Parser (List Char) := fun s =>
  if (s.dropWhile f).isEmpty then .incomplete
  else if (s.takeWhile f).isEmpty then .err
  else .ok (s.dropWhile f) (s.takeWhile f)

/-- nom `character::streaming::space1` char class (space or tab). -/
def isSpc (c : Char) : Bool := c = ' ' || c = '\t'

def space1P : Parser (List Char) := runP isSpc

def digit1P : Parser (List Char) := runP Char.isDigit

/-- nom `bytes::streaming::take(n)` over `&str`: char-counting (via
`InputIter::slice_index`); in this grammar it appears only as the
`take(1)` inside `escaped_transform`. -/
def takeP (n : Nat) : Parser (List Char) := fun s =>
  if s.length < n then .incomplete else .ok (s.drop n) (s.take n)

/-- nom streaming `crlf` (it is `tag("\r\n")`). -/
def crlfP : Parser (List Char) := tagP ['\r', '\n']

/-- Prepend a char to the value of a parse outcome. -/
def prCons (c : Char) : PR (List Char) → PR (List Char)
  | .ok r v => .ok r (c :: v)
  | .incomplete => .incomplete
  | .err => .err
  | .crash => .crash

/-- nom streaming `escaped_transform(none_of "\\\"", backslash, take 1)`:
collects chars until an unescaped quote; a backslash takes the next char
verbatim (the `take(1)` transform); end of input anywhere inside is
`Incomplete`.  The unescaped-quote stop case is listed first; it is
disjoint from the backslash cases, so the order matches nom's
normal-then-control-then-stop flow. -/
def escTransP : List Char → PR (List Char)
  | [] => .incomplete
  | '"' :: rest => .ok ('"' :: rest) []
  | ['\\'] => .incomplete
  | '\\' :: d :: rest2 => prCons d (escTransP rest2)
  | c :: rest => prCons c (escTransP rest)

/-- nom `many0`, fuel-indexed: repeats `p` until it fails with
`Err::Error`, propagating `Incomplete`; a round that consumes nothing is
an error (nom's infinite-loop guard).  The fuel (always instantiated
above the input length, which suffices since every productive round
consumes at least one char) keeps the definition structurally recursive
and hence evaluable by `decide`. -/
def many0F (p : Parser α) : Nat → List Char → PR (List α)
  | 0, _ => .err
  | fuel + 1, s =>
    match p s with
    | .err => .ok s []
    | .incomplete => .incomplete
    | .crash => .crash
    | .ok r v =>
      if r.length = s.length then .err
      else
        match many0F p fuel r with
        | .ok r2 vs => .ok r2 (v :: vs)
        | .incomplete => .incomplete
        | .err => .err
        | .crash => .crash

/-- nom `many0`. -/
def many0P (p : Parser α) : Parser (List α) := fun s => many0F p (s.length + 1) s

/-- Byte length of a `&str` (Rust `str::len`, nom's `InputLength` for
`&str`): the sum of the UTF-8 sizes of its chars. -/
def utf8Len (s : List Char) : Nat := (s.map Char.utf8Size).sum

/-- Rust `str::split_at` at byte index `n` (nom's `InputTake::take_split`
for `&str`): `some (before, after)` when `n` lands on a char boundary,
`none` when `n` falls strictly inside a multi-byte char — there
`split_at` panics. -/
def splitAtBytes : Nat → List Char → Option (List Char × List Char)
  | 0, s => some ([], s)
  | _ + 1, [] => none
  | n + 1, c :: rest =>
    if c.utf8Size ≤ n + 1 then
      (splitAtBytes (n + 1 - c.utf8Size) rest).map fun p => (c :: p.1, p.2)
    else none

/-- nom `multi::length_data` over `&str`: its bounds are `InputLength`
(byte length) and `InputTake` (`str::split_at`), so the parsed length is
checked and consumed in octets, not chars: fewer than `n` bytes left is
`Incomplete` (the `checked_sub` branch), and otherwise the input is split
at byte index `n`, panicking (`crash`) when `n` falls inside a multi-byte
char. -/
def plengthData (f : Parser Nat) : Parser (List Char) := fun s =>
  match f s with
  | .ok r n =>
    if utf8Len r < n then .incomplete
    else
      match splitAtBytes n r with
      | some (data, rest) => .ok rest data
      | none => .crash
  | .incomplete => .incomplete
  | .err => .err
  | .crash => .crash

/-! ### Data model (`src/types.rs`) -/

/-- Status tag of a response line (`OkNoBye`). -/
inductive OkNoBye where
  | Ok
  | No
  | Bye
  deriving DecidableEq

/-- Variant of the QUOTA response code (`QuotaVariant`). -/
inductive QuotaVariant where
  | none
  | maxScripts
  | maxSize
  deriving DecidableEq

/-- Closed response-code vocabulary (`ResponseCode`); `Referral` carries a
`SieveUrl` (a string, empty as produced by the parser). -/
inductive ResponseCode where
  | authTooWeak
  | encryptNeeded
  | quota (v : QuotaVariant)
  | referral (url : List Char)
  | sasl
  | transitionNeeded
  | tryLater
  | active
  | nonexistent
  | alreadyExists
  | tag
  | warnings
  deriving DecidableEq

/-- A decoded response line (`Response`). -/
structure Response where
  tag : OkNoBye
  code : Option (ResponseCode × Option (List Char))
  human : Option (List Char)
  deriving DecidableEq

/-- Decode-layer error (`Error` in `types.rs`); `invalidInput` is what
`From<nom::Err>` produces for `Err::Error`/`Err::Failure`, and is also
used by command-construction name validation. -/
inductive Error where
  | incompleteResponse
  | invalidResponse
  | invalidInput
  deriving DecidableEq

/-- Typed capabilities (`Capability`), an open enumeration. -/
inductive Capability where
  | implementation (s : List Char)
  | sasl (l : List (List Char))
  | sieve (l : List (List Char))
  | startTls
  | maxRedirects (n : Nat)
  | notify (l : List (List Char))
  | language (s : List Char)
  | owner (s : List Char)
  | version (s : List Char)
  | unknown (name : List Char) (val : Option (List Char))
  deriving DecidableEq

/-! ### Grammar (`src/parser.rs`), namespace `P` for the parser module -/

namespace P

/-- `ok` in `parser.rs`. -/
def okT : Parser OkNoBye := pvalue .Ok (tagNoCaseP "OK".toList)

/-- `no` in `parser.rs`. -/
def noT : Parser OkNoBye := pvalue .No (tagNoCaseP "NO".toList)

/-- `bye` in `parser.rs`. -/
def byeT : Parser OkNoBye := pvalue .Bye (tagNoCaseP "BYE".toList)

/-- `nobye` in `parser.rs`. -/
def nobyeT : Parser OkNoBye := palt noT byeT

/-- The `atom` vocabulary in its `alt` order, fused with the `match` that
maps each matched tag to its `ResponseCode` (the mapping is per-tag, so
fusing `map` into each branch is semantics-preserving). -/
def vocab : List (List Char × ResponseCode) :=
  [("AUTH-TOO-WEAK".toList, .authTooWeak),
   ("ENCRYPT-NEEDED".toList, .encryptNeeded),
   ("QUOTA/MAXSCRIPTS".toList, .quota .maxScripts),
   ("QUOTA/MAXSIZE".toList, .quota .maxSize),
   ("QUOTA".toList, .quota .none),
   ("REFERRAL".toList, .referral []),
   ("SASL".toList, .sasl),
   ("TRANSITION-NEEDED".toList, .transitionNeeded),
   ("TRYLATER".toList, .tryLater),
   ("ACTIVE".toList, .active),
   ("NONEXISTENT".toList, .nonexistent),
   ("ALREADYEXISTS".toList, .alreadyExists),
   ("TAG".toList, .tag),
   ("WARNINGS".toList, .warnings)]

/-- The `alt` chain over a tag vocabulary. -/
def atomGo : List (List Char × ResponseCode) → Parser ResponseCode
  | [] => fun _ => .err
  | (w, rc) :: rest => palt (pvalue rc (tagP w)) (atomGo rest)

/-- `atom` in `parser.rs`. -/
def atomP : Parser ResponseCode := atomGo vocab

/-- Numeric value of a digit run. -/
def natOfDs (ds : List Char) : Nat := ds.foldl (fun a c => a * 10 + (c.toNat - 48)) 0

/-- Drop one leading `+` sign if present. -/
def stripPlus (s : List Char) : List Char :=
  if s.head? = some '+' then s.tail else s

/-- Rust `str::parse::<usize>` on a 64-bit target: optional leading `+`,
then one or more ASCII digits, rejecting empty input and overflow. -/
def parseUsize (s : List Char) : Option Nat :=
  if (stripPlus s).isEmpty then none
  else if (stripPlus s).all Char.isDigit then
    if natOfDs (stripPlus s) < 2 ^ 64 then some (natOfDs (stripPlus s)) else none
  else none

/-- `literal_s2c_len` in `parser.rs`. -/
def literal_s2c_len : Parser Nat :=
  pterminated
    (pdelimited (tagP ['{']) (pmapRes digit1P parseUsize) (tagP ['}']))
    crlfP

/-- `literal_s2c` in `parser.rs` (`length_data`). -/
def literal_s2c : Parser (List Char) := plengthData literal_s2c_len

/-- `quoted_string` in `parser.rs`. -/
def quoted_string : Parser (List Char) :=
  pdelimited (tagP ['"']) escTransP (tagP ['"'])

/-- `sievestring_s2c` in `parser.rs`. -/
def sievestring_s2c : Parser (List Char) := palt literal_s2c quoted_string

/-- `code` in `parser.rs`. -/
def codeP : Parser (ResponseCode × Option (List Char)) :=
  pdelimited (tagP ['('])
    (ppair atomP (popt (ppreceded space1P sievestring_s2c)))
    (tagP [')'])

/-- The shared shape of `response_ok`/`response_nobye`: a status word,
optional response code, optional quoted human string, CRLF. -/
def tagLine (tp : Parser OkNoBye) : Parser Response :=
  pterminated
    (pmap (fun p => ⟨p.1.1, p.1.2, p.2⟩)
      (ppair (ppair tp (popt (ppreceded space1P codeP)))
        (popt (ppreceded space1P quoted_string))))
    crlfP

/-- `response_ok` in `parser.rs`. -/
def response_ok : Parser Response := tagLine okT

/-- `response_nobye` in `parser.rs`. -/
def response_nobye : Parser Response := tagLine nobyeT

/-- `response` in `parser.rs`. -/
def response : Parser Response := palt response_ok response_nobye

/-- `response_getscript` in `parser.rs`. -/
def response_getscript : Parser (Option (List Char) × Response) :=
  palt
    (pmap (fun p => (some p.1, p.2)) (psepPair sievestring_s2c crlfP response_ok))
    (pmap (fun r => (none, r)) response_nobye)

/-- One LISTSCRIPTS entry: sieve-string, optional caseless ` ACTIVE`
marker, CRLF. -/
def lsEntry : Parser (List Char × Bool) :=
  pterminated
    (ppair sievestring_s2c
      (pmap Option.isSome (popt (ppair space1P (tagNoCaseP "ACTIVE".toList)))))
    crlfP

/-- `response_listscripts` in `parser.rs`. -/
def response_listscripts : Parser (List (List Char × Bool) × Response) :=
  ppair (many0P lsEntry) response

/-- `single_capability` in `parser.rs`. -/
def single_capability : Parser (List Char × Option (List Char)) :=
  pterminated
    (ppair sievestring_s2c (popt (ppreceded space1P sievestring_s2c)))
    crlfP

/-- `response_capability` in `parser.rs`. -/
def response_capability : Parser (List (List Char × Option (List Char)) × Response) :=
  ppair (many0P single_capability) response

/-- `response_starttls` in `parser.rs`. -/
def response_starttls : Parser (List (List Char × Option (List Char)) × Response) :=
  palt (ppreceded response_ok response_capability)
    (pmap (fun r => ([], r)) response_nobye)

/-- `response_authenticate_initial` in `parser.rs` (`Either` as `Sum`). -/
def response_authenticate_initial : Parser (Sum (List Char) Response) :=
  palt (pmap Sum.inl (pterminated sievestring_s2c crlfP))
    (pmap Sum.inr response_nobye)

/-- `response_authenticate_complete` in `parser.rs`. -/
def response_authenticate_complete :
    Parser (Option (List (List Char × Option (List Char))) × Response) :=
  palt
    (pmap (fun p =>
        match p.2 with
        | none => (none, p.1)
        | some (s, r) => (some s, r))
      (ppair response_ok (popt response_capability)))
    (pmap (fun r => (none, r)) response_nobye)

end P

/-! ### Typed decode layer (`src/types.rs`) -/

/-- `response_oknobye` in `types.rs` (the `From<nom::Err>` conversion maps
`Incomplete` to `IncompleteResponse` and `Error`/`Failure` to
`InvalidInput`).  The outer `Option` models a panic inside the parser
(`none`): a literal length that splits a multi-byte char. -/
def response_oknobye (s : List Char) : Option (Except Error (List Char × Response)) :=
  match P.response s with
  | .ok r v => some (.ok (r, v))
  | .incomplete => some (.error .incompleteResponse)
  | .err => some (.error .invalidInput)
  | .crash => none

/-- `response_authenticate` in `types.rs` is `unimplemented!()`: it panics
on every input (`none` models the panic). -/
def response_authenticate (_input : List Char) : Option (Except Error OkNoBye) := none

/-- `response_logout` in `types.rs`. -/
def response_logout (s : List Char) : Option (Except Error (List Char × Response)) :=
  response_oknobye s

/-- `response_getscript` in `types.rs`. -/
def response_getscript (s : List Char) :
    Option (Except Error (List Char × List Char × Response)) :=
  match P.response_getscript s with
  | .ok left (some str, resp) => some (.ok (left, str, resp))
  | .incomplete => some (.error .incompleteResponse)
  | .ok _ (none, _) => some (.error .invalidResponse)
  | .err => some (.error .invalidResponse)
  | .crash => none

/-- `response_setactive` in `types.rs`. -/
def response_setactive (s : List Char) : Option (Except Error (List Char × Response)) :=
  response_oknobye s

/-- Count of entries flagged active (`filter`/`count` in
`response_listscripts`). -/
def countActive (l : List (List Char × Bool)) : Nat :=
  (l.filter (fun e => e.2)).length

/-- `response_listscripts` in `types.rs`: downgrades a grammar success
with two or more active scripts to `InvalidResponse`. -/
def response_listscripts (s : List Char) :
    Option (Except Error (List Char × List (List Char × Bool) × Response)) :=
  match P.response_listscripts s with
  | .ok left (scripts, resp) =>
    if 1 < countActive scripts then some (.error .invalidResponse)
    else some (.ok (left, scripts, resp))
  | .incomplete => some (.error .incompleteResponse)
  | .err => some (.error .invalidResponse)
  | .crash => none

/-- `response_deletescript` in `types.rs`. -/
def response_deletescript (s : List Char) : Option (Except Error (List Char × Response)) :=
  response_oknobye s

/-- `response_putscript` in `types.rs`. -/
def response_putscript (s : List Char) : Option (Except Error (List Char × Response)) :=
  response_oknobye s

/-- `response_checkscript` in `types.rs`. -/
def response_checkscript (s : List Char) : Option (Except Error (List Char × Response)) :=
  response_oknobye s

/-- Rust `str::split(' ')`: split on single spaces, preserving empty
pieces (and producing one empty piece for the empty string). -/
def splitSp : List Char → List (List Char)
  | [] => [[]]
  | c :: rest =>
    if c = ' ' then [] :: splitSp rest
    else
      match splitSp rest with
      | h :: t => (c :: h) :: t
      | [] => [[c]]

/-- `Capability::try_from` in `types.rs` (`io::Error` as `Unit`); note the
source maps `"LANGUAGE"` to `Capability::Owner`. -/
def capabilityTryFrom (cap : List Char) (rest : Option (List Char)) :
    Except Unit Capability :=
  let unwrapRest : Except Unit (List Char) :=
    match rest with
    | some r => .ok r
    | none => .error ()
  let unwrapRestVec : Except Unit (List (List Char)) :=
    match rest with
    | some r => .ok (splitSp r)
    | none => .error ()
  if cap = "IMPLEMENTATION".toList then unwrapRest.map .implementation
  else if cap = "SASL".toList then unwrapRestVec.map .sasl
  else if cap = "SIEVE".toList then unwrapRestVec.map .sieve
  else if cap = "STARTTLS".toList then .ok .startTls
  else if cap = "MAXREDIRECTS".toList then
    match unwrapRest with
    | .ok r =>
      match P.parseUsize r with
      | some n => .ok (.maxRedirects n)
      | none => .error ()
    | .error e => .error e
  else if cap = "NOTIFY".toList then unwrapRestVec.map .notify
  else if cap = "LANGUAGE".toList then unwrapRest.map .owner
  else if cap = "OWNER".toList then unwrapRest.map .owner
  else if cap = "VERSION".toList then unwrapRest.map .version
  else .ok (.unknown cap rest)

/-- The `.unwrap()`-mapped conversion of a raw capability list: `none`
models the panic when any `try_from` fails. -/
def capsOfRaw (l : List (List Char × Option (List Char))) : Option (List Capability) :=
  l.mapM (fun p => (capabilityTryFrom p.1 p.2).toOption)

/-- `response_capability` in `types.rs`; the outer `Option` models the
possible `unwrap` panic on a failing `Capability::try_from`. -/
def response_capability (s : List Char) :
    Option (Except Error (List Char × List Capability × Response)) :=
  match P.response_capability s with
  | .ok left (raw, resp) =>
    match capsOfRaw raw with
    | some caps => some (.ok (left, caps, resp))
    | none => none
  | .incomplete => some (.error .incompleteResponse)
  | .err => some (.error .invalidResponse)
  | .crash => none

/-- `response_havespace` in `types.rs`. -/
def response_havespace (s : List Char) : Option (Except Error (List Char × Response)) :=
  response_oknobye s

/-- `response_starttls` in `types.rs`; the outer `Option` models the
possible `unwrap` panic on a failing `Capability::try_from`. -/
def response_starttls (s : List Char) :
    Option (Except Error (List Char × List Capability × Response)) :=
  match P.response_starttls s with
  | .ok left (raw, resp) =>
    match capsOfRaw raw with
    | some caps => some (.ok (left, caps, resp))
    | none => none
  | .incomplete => some (.error .incompleteResponse)
  | .err => some (.error .invalidResponse)
  | .crash => none

/-- `response_renamescript` in `types.rs`. -/
def response_renamescript (s : List Char) : Option (Except Error (List Char × Response)) :=
  response_oknobye s

/-- `response_noop` in `types.rs`: a grammar-valid non-OK tag becomes an
application-level `InvalidResponse`. -/
def response_noop (s : List Char) : Option (Except Error (List Char × Response)) :=
  match response_oknobye s with
  | some (.ok (left, r)) =>
    if r.tag = .Ok then some (.ok (left, r)) else some (.error .invalidResponse)
  | some (.error e) => some (.error e)
  | none => none

/-- `response_unauthenticate` in `types.rs`. -/
def response_unauthenticate (s : List Char) : Option (Except Error (List Char × Response)) :=
  response_oknobye s

/-! ### Command encoder (`src/types.rs`) -/

/-- `is_bad_sieve_name_char` in `parser.rs` (RFC 5804 §1.6). -/
def is_bad_sieve_name_char (c : Char) : Bool :=
  c.toNat ≤ 0x1f || (0x7f ≤ c.toNat && c.toNat ≤ 0x9f) ||
    c = Char.ofNat 0x2028 || c = Char.ofNat 0x2029

/-- `to_sieve_name` in `types.rs`. -/
def to_sieve_name (s : List Char) : Except Error (List Char) :=
  if s.any is_bad_sieve_name_char then .error .invalidInput else .ok s

/-- The `Command` enumeration in `types.rs` (13 variants). -/
inductive Command where
  | Authenticate
  | StartTls
  | Logout
  | Capability
  | HaveSpace (name : List Char) (size : Nat)
  | PutScript (name script : List Char)
  | ListScripts
  | SetActive (name : List Char)
  | DeleteScript (name : List Char)
  | RenameScript (name : List Char)
  | CheckScript (name : List Char)
  | Noop
  | UnAuthenticate
  deriving DecidableEq

/-- `to_qs` in `types.rs`: wrap in double quotes (no escaping). -/
def to_qs (s : List Char) : List Char := '"' :: (s ++ ['"'])

/-- Decimal rendering of a `Nat` (Rust's `Display` for `usize`). -/
def natStr (n : Nat) : List Char := (Nat.repr n).toList

/-- `to_lit_c2s` in `types.rs`: a synchronizing client-to-server literal,
with the length in bytes. -/
def to_lit_c2s (s : List Char) : List Char :=
  '{' :: (natStr (utf8Len s) ++ '+' :: '}' :: '\r' :: '\n' :: s)

/-- `Command::to_string` in `types.rs`. -/
def Command.to_string : Command → List Char
  | .Authenticate => "AUTHENTICATE\r\n".toList
  | .StartTls => "STARTTLS\r\n".toList
  | .Logout => "LOGOUT\r\n".toList
  | .Capability => "CAPABILITY\r\n".toList
  | .HaveSpace name size =>
    "HAVESPACE ".toList ++ to_qs name ++ ' ' :: (natStr size ++ "\r\n".toList)
  | .PutScript name script =>
    "PUTSCRIPT ".toList ++ to_qs name ++ ' ' :: (to_lit_c2s script ++ "\r\n".toList)
  | .ListScripts => "LISTSCRIPTS\r\n".toList
  | .SetActive name => "SETACTIVE ".toList ++ to_qs name ++ "\r\n".toList
  | .DeleteScript name => "DELETESCRIPT ".toList ++ to_qs name ++ "\r\n".toList
  | .RenameScript name => "RENAMESCRIPT ".toList ++ to_qs name ++ "\r\n".toList
  | .CheckScript name => "CHECKSCRIPT ".toList ++ to_qs name ++ "\r\n".toList
  | .Noop => "NOOP\r\n".toList
  | .UnAuthenticate => "UNAUTHENTICATE\r\n".toList

/-! ### Witness structures

Abstract descriptions of the texts each grammar production accepts,
together with `render` (the concrete accepted text) and `val` (the value
the parser produces on it).  Completeness lemmas below show every parser
success decomposes through a witness, and extension/truncation lemmas
show `render w ++ t` parses for every tail `t` while every strict prefix
of an accepted text yields `Incomplete`. -/

/-- One item of quoted-string content: a plain char (not backslash or
quote) or a backslash-escaped char. -/
inductive QI where
  | plain (c : Char)
  | esc (c : Char)
  deriving DecidableEq

/-- Wire text of a quoted-string item. -/
def QI.render : QI → List Char
  | .plain c => [c]
  | .esc c => ['\\', c]

/-- Decoded char of a quoted-string item. -/
def QI.val : QI → Char
  | .plain c => c
  | .esc c => c

/-- Well-formedness: a plain char may not be a backslash or quote. -/
def QIok : QI → Prop
  | .plain c => c ≠ '\\' ∧ c ≠ '"'
  | .esc _ => True

instance : DecidablePred QIok := fun i =>
  match i with
  | .plain c => inferInstanceAs (Decidable (c ≠ '\\' ∧ c ≠ '"'))
  | .esc _ => inferInstanceAs (Decidable True)

/-- Content text between the quotes. -/
def qRender (items : List QI) : List Char := (items.map QI.render).flatten

/-- Decoded quoted-string content. -/
def qVal (items : List QI) : List Char := items.map QI.val

/-- Well-formed item list. -/
def QsOk (items : List QI) : Prop := ∀ i ∈ items, QIok i

instance : DecidablePred QsOk := fun items =>
  inferInstanceAs (Decidable (∀ i ∈ items, QIok i))

/-- Full wire text of a quoted string. -/
def qsRender (items : List QI) : List Char := '"' :: (qRender items ++ ['"'])

/-- Well-formed literal header digits: nonempty, all ASCII digits, value
within `usize`. -/
def DsOk (ds : List Char) : Prop :=
  ds ≠ [] ∧ (∀ c ∈ ds, c.isDigit) ∧ P.natOfDs ds < 2 ^ 64

instance : DecidablePred DsOk := fun ds =>
  inferInstanceAs (Decidable (ds ≠ [] ∧ (∀ c ∈ ds, c.isDigit) ∧ P.natOfDs ds < 2 ^ 64))

/-- Wire text of a server-to-client literal header. -/
def litLenRender (ds : List Char) : List Char := '{' :: (ds ++ '}' :: '\r' :: ['\n'])

/-- A sieve-string, in either of its two framings. -/
inductive SvW where
  | lit (ds content : List Char)
  | qs (items : List QI)
  deriving DecidableEq

/-- Wire text of a sieve-string. -/
def SvW.render : SvW → List Char
  | .lit ds content => litLenRender ds ++ content
  | .qs items => qsRender items

/-- Decoded sieve-string value. -/
def SvW.val : SvW → List Char
  | .lit _ content => content
  | .qs items => qVal items

/-- Well-formedness of a sieve-string witness. -/
def SvOk : SvW → Prop
  | .lit ds content => DsOk ds ∧ utf8Len content = P.natOfDs ds
  | .qs items => QsOk items

instance : DecidablePred SvOk := fun w =>
  match w with
  | .lit ds content => inferInstanceAs (Decidable (DsOk ds ∧ utf8Len content = P.natOfDs ds))
  | .qs items => inferInstanceAs (Decidable (QsOk items))

/-- A nonempty run of spaces/tabs. -/
def SpOk (sp : List Char) : Prop := sp ≠ [] ∧ ∀ c ∈ sp, isSpc c

instance : DecidablePred SpOk := fun sp =>
  inferInstanceAs (Decidable (sp ≠ [] ∧ ∀ c ∈ sp, isSpc c))

/-- A parenthesized response code: vocabulary word plus optional
space-separated sieve-string argument. -/
structure CodeW where
  w : List Char
  rc : ResponseCode
  arg : Option (List Char × SvW)
  deriving DecidableEq

/-- Wire text of a response code. -/
def CodeW.render (cw : CodeW) : List Char :=
  '(' :: (cw.w ++ (match cw.arg with
    | none => []
    | some (sp, sv) => sp ++ sv.render) ++ [')'])

/-- Decoded response-code value. -/
def CodeW.val (cw : CodeW) : ResponseCode × Option (List Char) :=
  (cw.rc, cw.arg.map (fun a => a.2.val))

/-- Well-formedness of a response-code witness. -/
def CodeOk (cw : CodeW) : Prop :=
  (cw.w, cw.rc) ∈ P.vocab ∧
    match cw.arg with
    | none => True
    | some (sp, sv) => SpOk sp ∧ SvOk sv

instance : DecidablePred CodeOk := fun cw =>
  match cw with
  | ⟨w, rc, none⟩ => inferInstanceAs (Decidable ((w, rc) ∈ P.vocab ∧ True))
  | ⟨w, rc, some (sp, sv)⟩ =>
    inferInstanceAs (Decidable ((w, rc) ∈ P.vocab ∧ (SpOk sp ∧ SvOk sv)))

/-- Canonical (uppercase) text of a status tag. -/
def canonTag : OkNoBye → List Char
  | .Ok => "OK".toList
  | .No => "NO".toList
  | .Bye => "BYE".toList

/-- A full tag line: status word text, optional response code, optional
human string, CRLF. -/
structure LineW where
  text : List Char
  codeArg : Option (List Char × CodeW)
  humanArg : Option (List Char × List QI)
  deriving DecidableEq

/-- Render an optional space-separated part. -/
def optPart (o : Option (List Char × α)) (f : α → List Char) : List Char :=
  match o with
  | none => []
  | some (sp, a) => sp ++ f a

/-- Wire text of a tag line. -/
def LineW.render (lw : LineW) : List Char :=
  lw.text ++ (optPart lw.codeArg CodeW.render ++
    (optPart lw.humanArg qsRender ++ ['\r', '\n']))

/-- Decoded tag-line value, given the status. -/
def LineW.val (lw : LineW) (t : OkNoBye) : Response :=
  ⟨t, lw.codeArg.map (fun a => a.2.val), lw.humanArg.map (fun a => qVal a.2)⟩

/-- Well-formedness of the optional parts of a tag line. -/
def LineOk (lw : LineW) : Prop :=
  (match lw.codeArg with
    | none => True
    | some (sp, cw) => SpOk sp ∧ CodeOk cw) ∧
  (match lw.humanArg with
    | none => True
    | some (sp, items) => SpOk sp ∧ QsOk items)

instance : Decidable (LineOk lw) :=
  match lw with
  | ⟨_, none, none⟩ => inferInstanceAs (Decidable (True ∧ True))
  | ⟨_, none, some (sp2, its)⟩ =>
    inferInstanceAs (Decidable (True ∧ (SpOk sp2 ∧ QsOk its)))
  | ⟨_, some (sp, cw), none⟩ =>
    inferInstanceAs (Decidable ((SpOk sp ∧ CodeOk cw) ∧ True))
  | ⟨_, some (sp, cw), some (sp2, its)⟩ =>
    inferInstanceAs (Decidable ((SpOk sp ∧ CodeOk cw) ∧ (SpOk sp2 ∧ QsOk its)))

/-- A response witness: a tag line plus which status word it carries. -/
structure RespW where
  line : LineW
  tag : OkNoBye
  deriving DecidableEq

/-- Wire text of a response. -/
def RespW.render (rw : RespW) : List Char := rw.line.render

/-- Decoded response value. -/
def RespW.val (rw : RespW) : Response := rw.line.val rw.tag

/-- Well-formedness: parts well-formed and the status text a caseless
variant of the status word. -/
def RespOk (rw : RespW) : Prop :=
  LineOk rw.line ∧ lowStr rw.line.text = lowStr (canonTag rw.tag)

instance : Decidable (RespOk rw) :=
  inferInstanceAs (Decidable (_ ∧ _))

/-- One LISTSCRIPTS entry: sieve-string with an optional caseless
` ACTIVE` marker. -/
structure LsEntryW where
  sv : SvW
  act : Option (List Char × List Char)
  deriving DecidableEq

/-- Wire text of a LISTSCRIPTS entry. -/
def LsEntryW.render (w : LsEntryW) : List Char :=
  w.sv.render ++ (optPart w.act id ++ ['\r', '\n'])

/-- Decoded LISTSCRIPTS entry. -/
def LsEntryW.val (w : LsEntryW) : List Char × Bool := (w.sv.val, w.act.isSome)

/-- Well-formedness of a LISTSCRIPTS entry witness. -/
def LsEntryOk (w : LsEntryW) : Prop :=
  SvOk w.sv ∧
    match w.act with
    | none => True
    | some (sp, a) => SpOk sp ∧ lowStr a = lowStr "ACTIVE".toList

/-- One CAPABILITY entry: sieve-string with optional sieve-string value. -/
structure CapEW where
  sv : SvW
  arg : Option (List Char × SvW)
  deriving DecidableEq

/-- Wire text of a CAPABILITY entry. -/
def CapEW.render (w : CapEW) : List Char :=
  w.sv.render ++ (optPart w.arg SvW.render ++ ['\r', '\n'])

/-- Decoded CAPABILITY entry. -/
def CapEW.val (w : CapEW) : List Char × Option (List Char) :=
  (w.sv.val, w.arg.map (fun a => a.2.val))

/-- Well-formedness of a CAPABILITY entry witness. -/
def CapEOk (w : CapEW) : Prop :=
  SvOk w.sv ∧
    match w.arg with
    | none => True
    | some (sp, sv2) => SpOk sp ∧ SvOk sv2

/-- Concatenated renders of an entry list. -/
def catRen (f : α → List Char) (ws : List α) : List Char := (ws.map f).flatten

/-! ### Combinator equations -/

theorem pmap_ok {p : Parser α} {s r v} (f : α → β) (h : p s = .ok r v) :
    pmap f p s = .ok r (f v) := by simp [pmap, h]

theorem pmap_inc {p : Parser α} {s} (f : α → β) (h : p s = .incomplete) :
    pmap f p s = .incomplete := by simp [pmap, h]

theorem pmap_err {p : Parser α} {s} (f : α → β) (h : p s = .err) :
    pmap f p s = .err := by simp [pmap, h]

theorem pmap_inv {p : Parser α} {f : α → β} {s r w} (h : pmap f p s = .ok r w) :
    ∃ v, p s = .ok r v ∧ w = f v := by
  unfold pmap at h
  split at h <;> cases h
  next hp => exact ⟨_, hp, rfl⟩

theorem pmap_inv_inc {p : Parser α} {f : α → β} {s} (h : pmap f p s = .incomplete) :
    p s = .incomplete := by
  unfold pmap at h
  split at h <;> simp_all

theorem pmap_inv_err {p : Parser α} {f : α → β} {s} (h : pmap f p s = .err) :
    p s = .err := by
  unfold pmap at h
  split at h <;> simp_all

theorem pvalue_ok {p : Parser α} {s r v} (b : β) (h : p s = .ok r v) :
    pvalue b p s = .ok r b := pmap_ok _ h

theorem pvalue_inc {p : Parser α} {s} (b : β) (h : p s = .incomplete) :
    pvalue b p s = .incomplete := pmap_inc _ h

theorem pvalue_err {p : Parser α} {s} (b : β) (h : p s = .err) :
    pvalue b p s = .err := pmap_err _ h

theorem pvalue_inv {p : Parser α} {b : β} {s r w} (h : pvalue b p s = .ok r w) :
    (∃ v, p s = .ok r v) ∧ w = b := by
  obtain ⟨v, hv, rfl⟩ := pmap_inv h
  exact ⟨⟨v, hv⟩, rfl⟩

theorem ppair_ok {p : Parser α} {q : Parser β} {s m r v w}
    (h1 : p s = .ok m v) (h2 : q m = .ok r w) : ppair p q s = .ok r (v, w) := by
  simp [ppair, h1, h2]

theorem ppair_inc_l {p : Parser α} {q : Parser β} {s} (h : p s = .incomplete) :
    ppair p q s = .incomplete := by simp [ppair, h]

theorem ppair_err_l {p : Parser α} {q : Parser β} {s} (h : p s = .err) :
    ppair p q s = .err := by simp [ppair, h]

theorem ppair_inc_r {p : Parser α} {q : Parser β} {s m v}
    (h1 : p s = .ok m v) (h2 : q m = .incomplete) : ppair p q s = .incomplete := by
  simp [ppair, h1, h2]

theorem ppair_err_r {p : Parser α} {q : Parser β} {s m v}
    (h1 : p s = .ok m v) (h2 : q m = .err) : ppair p q s = .err := by
  simp [ppair, h1, h2]

theorem ppair_inv {p : Parser α} {q : Parser β} {s r v w}
    (h : ppair p q s = .ok r (v, w)) : ∃ m, p s = .ok m v ∧ q m = .ok r w := by
  unfold ppair at h
  split at h
  · next m v' hp =>
      split at h <;> cases h
      next hq => exact ⟨m, hp, hq⟩
  · cases h
  · cases h
  · cases h

theorem popt_ok {p : Parser α} {s r v} (h : p s = .ok r v) :
    popt p s = .ok r (some v) := by simp [popt, h]

theorem popt_none {p : Parser α} {s} (h : p s = .err) :
    popt p s = .ok s none := by simp [popt, h]

theorem popt_inc {p : Parser α} {s} (h : p s = .incomplete) :
    popt p s = .incomplete := by simp [popt, h]

theorem popt_inv {p : Parser α} {s r o} (h : popt p s = .ok r o) :
    (o = none ∧ r = s ∧ p s = .err) ∨ ∃ v, o = some v ∧ p s = .ok r v := by
  unfold popt at h
  split at h <;> cases h
  · next hp => exact .inr ⟨_, rfl, hp⟩
  · next hp => exact .inl ⟨rfl, rfl, hp⟩

theorem palt_ok_l {p q : Parser α} {s r v} (h : p s = .ok r v) :
    palt p q s = .ok r v := by simp [palt, h]

theorem palt_inc_l {p q : Parser α} {s} (h : p s = .incomplete) :
    palt p q s = .incomplete := by simp [palt, h]

theorem palt_err_l {p q : Parser α} {s} (h : p s = .err) :
    palt p q s = q s := by simp [palt, h]

theorem palt_crash_l {p q : Parser α} {s} (h : p s = .crash) :
    palt p q s = .crash := by simp [palt, h]

theorem palt_inv {p q : Parser α} {s r v} (h : palt p q s = .ok r v) :
    p s = .ok r v ∨ (p s = .err ∧ q s = .ok r v) := by
  rcases hp : p s with m | _ | _ | _
  · exact .inl ((palt_ok_l hp).symm.trans h)
  · rw [palt_inc_l hp] at h
    cases h
  · exact .inr ⟨rfl, (palt_err_l hp).symm.trans h⟩
  · rw [palt_crash_l hp] at h
    cases h

theorem pmapRes_ok {p : Parser α} {f : α → Option β} {s r v b}
    (h1 : p s = .ok r v) (h2 : f v = some b) : pmapRes p f s = .ok r b := by
  simp [pmapRes, h1, h2]

theorem pmapRes_inc {p : Parser α} {f : α → Option β} {s} (h : p s = .incomplete) :
    pmapRes p f s = .incomplete := by simp [pmapRes, h]

theorem pmapRes_err {p : Parser α} {f : α → Option β} {s} (h : p s = .err) :
    pmapRes p f s = .err := by simp [pmapRes, h]

theorem pmapRes_inv {p : Parser α} {f : α → Option β} {s r b}
    (h : pmapRes p f s = .ok r b) : ∃ v, p s = .ok r v ∧ f v = some b := by
  unfold pmapRes at h
  split at h
  · next v hp =>
      split at h <;> cases h
      next hf => exact ⟨v, hp, hf⟩
  · cases h
  · cases h
  · cases h

theorem ppreceded_ok {p : Parser α} {q : Parser β} {s m r v w}
    (h1 : p s = .ok m v) (h2 : q m = .ok r w) : ppreceded p q s = .ok r w :=
  pmap_ok _ (ppair_ok h1 h2)

theorem pterminated_ok {p : Parser α} {q : Parser β} {s m r v w}
    (h1 : p s = .ok m v) (h2 : q m = .ok r w) : pterminated p q s = .ok r v :=
  pmap_ok _ (ppair_ok h1 h2)

/-! ### Infrastructure on prefixes -/

/-- Split a prefix of a concatenation at the boundary. -/
theorem prefix_split {q a b : List Char} (h : q <+: a ++ b) :
    q <+: a ∨ ∃ q', q = a ++ q' ∧ q' <+: b := by
  obtain ⟨t, ht⟩ := h
  rcases List.append_eq_append_iff.mp ht with ⟨a', ha, _⟩ | ⟨c', hq, hb⟩
  · exact .inl ⟨a', ha.symm⟩
  · exact .inr ⟨c', hq, ⟨t, hb.symm⟩⟩

theorem prefix_take {q l : List Char} (h : q <+: l) : q = l.take q.length := by
  obtain ⟨t, rfl⟩ := h
  simp

/-! ### Primitive parser characterizations -/

theorem tagP_exact (t r : List Char) : tagP t (t ++ r) = .ok r t := by
  have hp : t.isPrefixOf (t ++ r) = true :=
    List.isPrefixOf_iff_prefix.mpr ⟨r, rfl⟩
  simp [tagP, hp]

theorem prefix_antisymm {a b : List Char} (h1 : a <+: b) (h2 : b <+: a) : a = b := by
  have hl : a.length = b.length := Nat.le_antisymm h1.length_le h2.length_le
  obtain ⟨u, hu⟩ := h1
  have hu0 : u = [] := by
    have hlen := congrArg List.length hu
    rw [← hl] at hlen
    simp at hlen
    exact hlen
  rw [hu0] at hu
  simpa using hu

theorem tagP_pref {t q : List Char} (h : q <+: t) (hne : q ≠ t) :
    tagP t q = .incomplete := by
  have h1 : t.isPrefixOf q = false := by
    rw [Bool.eq_false_iff]
    intro hc
    exact hne (prefix_antisymm h (List.isPrefixOf_iff_prefix.mp hc))
  have h2 : q.isPrefixOf t = true := List.isPrefixOf_iff_prefix.mpr h
  simp [tagP, h1, h2]

theorem tagP_nil {t : List Char} (h : t ≠ []) : tagP t [] = .incomplete :=
  tagP_pref (List.nil_prefix) (Ne.symm h)

theorem tagP_inv {t s r v} (h : tagP t s = .ok r v) : s = t ++ r ∧ v = t := by
  unfold tagP at h
  by_cases h1 : t.isPrefixOf s
  · rw [if_pos h1] at h
    obtain ⟨u, hu⟩ := List.isPrefixOf_iff_prefix.mp h1
    cases h
    refine ⟨?_, rfl⟩
    rw [← hu]
    simp
  · rw [if_neg h1] at h
    split at h <;> cases h

/-- A mismatch within the zipped region: some position where the two
lists disagree. -/
def clash (a b : List Char) : Bool := (a.zip b).any fun p => decide (p.1 ≠ p.2)

theorem clash_append {a s u : List Char} (h : clash a s = true) :
    clash a (s ++ u) = true := by
  induction a generalizing s with
  | nil => simp [clash] at h
  | cons x xs ih =>
    cases s with
    | nil => simp [clash] at h
    | cons y ys =>
      rw [List.cons_append]
      simp only [clash, List.zip_cons_cons, List.any_cons, Bool.or_eq_true,
        decide_eq_true_eq] at h ⊢
      rcases h with h | h
      · exact Or.inl h
      · exact Or.inr (ih h)

theorem not_prefix_of_clash {a s : List Char} (h : clash a s = true) :
    ¬ a <+: s ∧ ¬ s <+: a := by
  induction a generalizing s with
  | nil => simp [clash] at h
  | cons x xs ih =>
    cases s with
    | nil => simp [clash] at h
    | cons y ys =>
      simp only [clash, List.zip_cons_cons, List.any_cons, Bool.or_eq_true,
        decide_eq_true_eq] at h
      refine ⟨fun hc => ?_, fun hc => ?_⟩
      · obtain ⟨t, ht⟩ := hc
        rw [List.cons_append] at ht
        injection ht with h1 h2
        rcases h with h | h
        · exact h h1
        · exact (ih h).1 ⟨t, h2⟩
      · obtain ⟨t, ht⟩ := hc
        rw [List.cons_append] at ht
        injection ht with h1 h2
        rcases h with h | h
        · exact h h1.symm
        · exact (ih h).2 ⟨t, h2⟩

theorem tagP_err_of_clash {t s : List Char} (h : clash t s = true) :
    tagP t s = .err := by
  obtain ⟨h1, h2⟩ := not_prefix_of_clash h
  have e1 : t.isPrefixOf s = false := by
    rw [Bool.eq_false_iff]
    intro hc
    exact h1 (List.isPrefixOf_iff_prefix.mp hc)
  have e2 : s.isPrefixOf t = false := by
    rw [Bool.eq_false_iff]
    intro hc
    exact h2 (List.isPrefixOf_iff_prefix.mp hc)
  simp [tagP, e1, e2]

theorem strictPrefix_length_lt {q l : List Char} (h : q <+: l) (hne : q ≠ l) :
    q.length < l.length := by
  rcases Nat.lt_or_ge q.length l.length with hlt | hge
  · exact hlt
  · obtain ⟨u, hu⟩ := h
    exfalso
    apply hne
    have hlen := congrArg List.length hu
    simp at hlen
    have hu0 : u = [] := by
      have : u.length = 0 := by omega
      simpa using this
    rw [hu0] at hu
    simpa using hu

theorem lowStr_length (s : List Char) : (lowStr s).length = s.length := by
  simp [lowStr]

theorem tagNoCaseP_ext {t m : List Char} (hlow : lowStr m = lowStr t) (r : List Char) :
    tagNoCaseP t (m ++ r) = .ok r m := by
  have hlen : m.length = t.length := by
    have := congrArg List.length hlow
    simpa [lowStr] using this
  unfold tagNoCaseP
  rw [if_pos (by rw [List.length_append, ← hlen]; omega)]
  rw [← hlen, List.take_left, List.drop_left, if_pos hlow]

theorem tagNoCaseP_pref {t m q : List Char} (hlow : lowStr m = lowStr t)
    (h : q <+: m) (hne : q ≠ m) : tagNoCaseP t q = .incomplete := by
  have hlen : m.length = t.length := by
    have := congrArg List.length hlow
    simpa [lowStr] using this
  have hql : q.length < t.length := hlen ▸ strictPrefix_length_lt h hne
  have hcond : lowStr q = lowStr (t.take q.length) := by
    conv_lhs => rw [prefix_take h]
    calc lowStr (m.take q.length) = (lowStr m).take q.length := by
          simp [lowStr, List.map_take]
      _ = (lowStr t).take q.length := by rw [hlow]
      _ = lowStr (t.take q.length) := by simp [lowStr, List.map_take]
  unfold tagNoCaseP
  rw [if_neg (by omega), if_pos hcond]

theorem tagNoCaseP_inv {t s r v} (h : tagNoCaseP t s = .ok r v) :
    ∃ m, lowStr m = lowStr t ∧ s = m ++ r ∧ v = m := by
  unfold tagNoCaseP at h
  by_cases h1 : t.length ≤ s.length
  · rw [if_pos h1] at h
    by_cases h2 : lowStr (s.take t.length) = lowStr t
    · rw [if_pos h2] at h
      cases h
      exact ⟨s.take t.length, h2, (List.take_append_drop t.length s).symm, rfl⟩
    · rw [if_neg h2] at h
      cases h
  · rw [if_neg h1] at h
    split at h <;> cases h

theorem tagNoCaseP_err_head {a c : Char} {t' s : List Char}
    (h : c.toLower ≠ a.toLower) : tagNoCaseP (a :: t') (c :: s) = .err := by
  unfold tagNoCaseP
  by_cases h1 : (a :: t').length ≤ (c :: s).length
  · rw [if_pos h1, if_neg ?_]
    simp [lowStr]
    intro hc
    exact absurd hc h
  · rw [if_neg h1, if_neg ?_]
    simp [lowStr, List.take_cons]
    intro hc
    exact absurd hc h

theorem takeWhile_run {f : Char → Bool} {run : List Char} {c : Char} {t : List Char}
    (hrun : ∀ x ∈ run, f x) (hc : f c = false) :
    (run ++ c :: t).takeWhile f = run ∧ (run ++ c :: t).dropWhile f = c :: t := by
  induction run with
  | nil => simp [List.takeWhile_cons, List.dropWhile_cons, hc]
  | cons x xs ih =>
    have hx : f x := hrun x (by simp)
    have hxs : ∀ y ∈ xs, f y := fun y hy => hrun y (by simp [hy])
    obtain ⟨h1, h2⟩ := ih hxs
    simp [List.takeWhile_cons, List.dropWhile_cons, hx, h1, h2]

theorem runP_ext (f : Char → Bool) (u : List Char) {c : Char} (t : List Char)
    (hrun : ∀ x ∈ u, f x) (hne : u ≠ []) (hc : f c = false) :
    runP f (u ++ c :: t) = .ok (c :: t) u := by
  obtain ⟨h1, h2⟩ := takeWhile_run (t := t) hrun hc
  simp only [runP, h1, h2]
  simp [List.isEmpty_iff, hne]

theorem runP_all {f : Char → Bool} {s : List Char} (h : ∀ x ∈ s, f x) :
    runP f s = .incomplete := by
  have : s.dropWhile f = [] := by
    induction s with
    | nil => simp
    | cons x xs ih =>
      simp [List.dropWhile_cons, h x (by simp), ih (fun y hy => h y (by simp [hy]))]
  simp [runP, this]

theorem runP_err_head {f : Char → Bool} {c : Char} {s : List Char} (h : f c = false) :
    runP f (c :: s) = .err := by
  simp [runP, List.takeWhile_cons, List.dropWhile_cons, h]

theorem dropWhile_head_false {f : Char → Bool} {s : List Char} {c : Char}
    {t : List Char} (h : s.dropWhile f = c :: t) : f c = false := by
  induction s with
  | nil => simp at h
  | cons x xs ih =>
    rw [List.dropWhile_cons] at h
    by_cases hx : f x
    · rw [if_pos hx] at h
      exact ih h
    · rw [if_neg hx] at h
      injection h with h1 h2
      subst h1
      simpa using hx

theorem runP_inv {f : Char → Bool} {s r v} (h : runP f s = .ok r v) :
    ∃ run c t, s = run ++ c :: t ∧ r = c :: t ∧ v = run ∧ run ≠ [] ∧
      (∀ x ∈ run, f x) ∧ f c = false := by
  unfold runP at h
  by_cases h1 : (s.dropWhile f).isEmpty
  · rw [if_pos h1] at h
    cases h
  · rw [if_neg h1] at h
    by_cases h2 : (s.takeWhile f).isEmpty
    · rw [if_pos h2] at h
      cases h
    · rw [if_neg h2] at h
      cases h
      rcases hd : s.dropWhile f with _ | ⟨c, t⟩
      · rw [hd] at h1
        simp at h1
      · refine ⟨s.takeWhile f, c, t, ?_, rfl, rfl, ?_, ?_, dropWhile_head_false hd⟩
        · conv_lhs => rw [← List.takeWhile_append_dropWhile (p := f) (l := s)]
          rw [hd]
        · simpa using h2
        · exact fun x hx => List.mem_takeWhile_imp hx

theorem takeP_exact {n : Nat} {c : List Char} (r : List Char) (h : c.length = n) :
    takeP n (c ++ r) = .ok r c := by
  subst h
  have hlen : ¬ (c ++ r).length < c.length := by simp
  simp [takeP, hlen, List.take_left, List.drop_left]

theorem takeP_short {n : Nat} {s : List Char} (h : s.length < n) :
    takeP n s = .incomplete := by
  simp [takeP, h]

theorem takeP_inv {n : Nat} {s r v} (h : takeP n s = .ok r v) :
    v.length = n ∧ s = v ++ r := by
  unfold takeP at h
  by_cases h1 : s.length < n
  · rw [if_pos h1] at h
    cases h
  · rw [if_neg h1] at h
    cases h
    constructor
    · rw [List.length_take]
      omega
    · exact (List.take_append_drop n s).symm

/-! ### Quoted-string characterization -/

theorem escTrans_quote (t : List Char) : escTransP ('"' :: t) = .ok ('"' :: t) [] :=
  escTransP.eq_2 t

theorem escTrans_plain {c : Char} (hb : c ≠ '\\') (hq : c ≠ '"') (rest : List Char) :
    escTransP (c :: rest) = prCons c (escTransP rest) :=
  escTransP.eq_5 c rest (fun h => hq h) (fun h _ => hb h) (fun _ _ h _ => hb h)

theorem escTrans_esc (c : Char) (rest : List Char) :
    escTransP ('\\' :: c :: rest) = prCons c (escTransP rest) :=
  escTransP.eq_4 c rest

theorem prCons_ok {c : Char} {x : PR (List Char)} {r v} (h : x = .ok r v) :
    prCons c x = .ok r (c :: v) := by
  rw [h]
  rfl

theorem prCons_inc {c : Char} {x : PR (List Char)} (h : x = .incomplete) :
    prCons c x = .incomplete := by
  rw [h]
  rfl

theorem qRender_plain (c : Char) (is : List QI) :
    qRender (QI.plain c :: is) = c :: qRender is := by
  simp [qRender, QI.render]

theorem qRender_esc (c : Char) (is : List QI) :
    qRender (QI.esc c :: is) = '\\' :: c :: qRender is := by
  simp [qRender, QI.render]

theorem qVal_cons (i : QI) (is : List QI) : qVal (i :: is) = i.val :: qVal is := rfl

theorem escTrans_ext (items : List QI) (hok : QsOk items) (t : List Char) :
    escTransP (qRender items ++ '"' :: t) = .ok ('"' :: t) (qVal items) := by
  induction items with
  | nil =>
    simp only [qRender, List.map_nil, List.flatten_nil, List.nil_append, qVal]
    exact escTrans_quote t
  | cons i is ih =>
    have his : QsOk is := fun x hx => hok x (by simp [hx])
    have ihs := ih his
    cases i with
    | plain c =>
      obtain ⟨hb, hq⟩ : c ≠ '\\' ∧ c ≠ '"' := hok (.plain c) (by simp)
      rw [qRender_plain, List.cons_append, escTrans_plain hb hq, prCons_ok ihs, qVal_cons]
      rfl
    | esc c =>
      rw [qRender_esc, List.cons_append, List.cons_append, escTrans_esc,
        prCons_ok ihs, qVal_cons]
      rfl

theorem escTrans_pref (items : List QI) (hok : QsOk items) {q : List Char}
    (h : q <+: qRender items) : escTransP q = .incomplete := by
  induction items generalizing q with
  | nil =>
    simp [qRender] at h
    rw [h]
    exact escTransP.eq_1
  | cons i is ih =>
    have his : QsOk is := fun x hx => hok x (by simp [hx])
    cases i with
    | plain c =>
      obtain ⟨hb, hq⟩ : c ≠ '\\' ∧ c ≠ '"' := hok (.plain c) (by simp)
      rw [qRender_plain] at h
      cases q with
      | nil => exact escTransP.eq_1
      | cons c' q' =>
        obtain ⟨u, hu⟩ := h
        rw [List.cons_append] at hu
        injection hu with h1 h2
        subst h1
        rw [escTrans_plain hb hq, prCons_inc (ih his ⟨u, h2⟩)]
    | esc c =>
      rw [qRender_esc] at h
      cases q with
      | nil => exact escTransP.eq_1
      | cons c' q' =>
        obtain ⟨u, hu⟩ := h
        rw [List.cons_append] at hu
        injection hu with h1 h2
        subst h1
        cases q' with
        | nil => exact escTransP.eq_3
        | cons c'' q'' =>
          rw [List.cons_append] at h2
          injection h2 with h3 h4
          subst h3
          rw [escTrans_esc, prCons_inc (ih his ⟨u, h4⟩)]

theorem escTrans_inv {s r v} (h : escTransP s = .ok r v) :
    ∃ items t, QsOk items ∧ s = qRender items ++ '"' :: t ∧
      r = '"' :: t ∧ v = qVal items := by
  induction s using escTransP.induct generalizing r v with
  | case1 =>
    rw [escTransP.eq_1] at h
    cases h
  | case2 rest =>
    rw [escTrans_quote] at h
    cases h
    exact ⟨[], rest, fun x hx => by simp at hx, by simp [qRender], rfl, by simp [qVal]⟩
  | case3 =>
    rw [escTransP.eq_3] at h
    cases h
  | case4 d rest2 ih =>
    rw [escTrans_esc] at h
    rcases he : escTransP rest2 with ⟨r', v'⟩ | _ | _ <;> rw [he] at h <;>
      simp [prCons] at h
    obtain ⟨hr', hv'⟩ := h
    obtain ⟨items, t, hok, hs, hrr, hvv⟩ := ih he
    refine ⟨.esc d :: items, t, ?_, ?_, ?_, ?_⟩
    · intro x hx
      rcases List.mem_cons.mp hx with rfl | hx'
      · trivial
      · exact hok x hx'
    · rw [qRender_esc, hs]
      simp
    · rw [← hr', hrr]
    · rw [← hv', qVal_cons, hvv]
      rfl
  | case5 c rest g1 g2 g3 ih =>
    have hq : c ≠ '"' := fun hh => g1 hh
    have hb : c ≠ '\\' := by
      intro hcontr
      cases rest with
      | nil => exact g2 hcontr rfl
      | cons a b => exact g3 a b hcontr rfl
    rw [escTrans_plain hb hq] at h
    rcases he : escTransP rest with ⟨r', v'⟩ | _ | _ <;> rw [he] at h <;>
      simp [prCons] at h
    obtain ⟨hr', hv'⟩ := h
    obtain ⟨items, t, hok, hs, hrr, hvv⟩ := ih he
    refine ⟨.plain c :: items, t, ?_, ?_, ?_, ?_⟩
    · intro x hx
      rcases List.mem_cons.mp hx with rfl | hx'
      · exact ⟨hb, hq⟩
      · exact hok x hx'
    · rw [qRender_plain, hs]
      simp
    · rw [← hr', hrr]
    · rw [← hv', qVal_cons, hvv]
      rfl

/-! ### Quoted-string and literal characterizations -/

theorem tagP_err_head {a c : Char} {ta s : List Char} (h : c ≠ a) :
    tagP (a :: ta) (c :: s) = .err := by
  apply tagP_err_of_clash
  simp only [clash, List.zip_cons_cons, List.any_cons, Bool.or_eq_true, decide_eq_true_eq]
  exact Or.inl (Ne.symm h)

theorem prefix_cases1 {a : Char} {q : List Char} (h : q <+: [a]) (hne : q ≠ [a]) :
    q = [] := by
  rcases q with _ | ⟨x1, q2⟩
  · rfl
  · obtain ⟨u, hu⟩ := h
    rw [List.cons_append] at hu
    injection hu with e1 hu2
    subst e1
    obtain ⟨h20, -⟩ := List.append_eq_nil.mp hu2
    subst h20
    exact absurd rfl hne

theorem prefix_cases2 {a b : Char} {q : List Char} (h : q <+: [a, b]) (hne : q ≠ [a, b]) :
    q = [] ∨ q = [a] := by
  rcases q with _ | ⟨x1, q2⟩
  · exact .inl rfl
  · obtain ⟨u, hu⟩ := h
    rw [List.cons_append] at hu
    injection hu with e1 hu2
    subst e1
    have h2 : q2 <+: [b] := ⟨u, hu2⟩
    have hne2 : q2 ≠ [b] := by
      rintro rfl
      exact hne rfl
    rw [prefix_cases1 h2 hne2]
    exact .inr rfl

theorem prefix_cases3 {a b c : Char} {q : List Char} (h : q <+: [a, b, c])
    (hne : q ≠ [a, b, c]) : q = [] ∨ q = [a] ∨ q = [a, b] := by
  rcases q with _ | ⟨x1, q2⟩
  · exact .inl rfl
  · obtain ⟨u, hu⟩ := h
    rw [List.cons_append] at hu
    injection hu with e1 hu2
    subst e1
    have h2 : q2 <+: [b, c] := ⟨u, hu2⟩
    have hne2 : q2 ≠ [b, c] := by
      rintro rfl
      exact hne rfl
    rcases prefix_cases2 h2 hne2 with rfl | rfl
    · exact .inr (.inl rfl)
    · exact .inr (.inr rfl)

theorem quoted_string_ext (items : List QI) (hok : QsOk items) (t : List Char) :
    P.quoted_string (qsRender items ++ t) = .ok t (qVal items) := by
  have hsplit : qsRender items ++ t = ['"'] ++ (qRender items ++ '"' :: t) := by
    simp [qsRender]
  rw [hsplit]
  unfold P.quoted_string pdelimited
  exact pterminated_ok (ppreceded_ok (tagP_exact ['"'] _) (escTrans_ext items hok t))
    (tagP_exact ['"'] t)

theorem quoted_string_pref (items : List QI) (hok : QsOk items) {q : List Char}
    (hpre : q <+: qsRender items) (hne : q ≠ qsRender items) :
    P.quoted_string q = .incomplete := by
  unfold P.quoted_string pdelimited
  cases q with
  | nil =>
    exact pmap_inc _ (ppair_inc_l (pmap_inc _ (ppair_inc_l (tagP_nil (by decide)))))
  | cons c1 q1 =>
    obtain ⟨u, hu⟩ := hpre
    rw [show qsRender items = '"' :: (qRender items ++ ['"']) from by simp [qsRender],
      List.cons_append] at hu
    injection hu with h1 h2
    subst h1
    have htag : tagP ['"'] ('"' :: q1) = .ok q1 ['"'] := tagP_exact ['"'] q1
    have hq1 : q1 <+: qRender items ++ ['"'] := ⟨u, h2⟩
    rcases prefix_split hq1 with hcase | ⟨q2, rfl, hq2⟩
    · have hesc : escTransP q1 = .incomplete := escTrans_pref items hok hcase
      exact pmap_inc _ (ppair_inc_l (pmap_inc _ (ppair_inc_r htag hesc)))
    · have hq2ne : q2 ≠ ['"'] := by
        rintro rfl
        exact hne (by simp [qsRender])
      have hq20 : q2 = [] := prefix_cases1 hq2 hq2ne
      subst hq20
      rw [List.append_nil] at htag ⊢
      have hesc : escTransP (qRender items) = .incomplete :=
        escTrans_pref items hok (List.prefix_refl _)
      exact pmap_inc _ (ppair_inc_l (pmap_inc _ (ppair_inc_r htag hesc)))

theorem quoted_string_inv {s r v} (h : P.quoted_string s = .ok r v) :
    ∃ items, QsOk items ∧ s = qsRender items ++ r ∧ v = qVal items := by
  unfold P.quoted_string pdelimited at h
  obtain ⟨p1, hp1, hv1⟩ := pmap_inv h
  rcases p1 with ⟨v1, v2⟩
  obtain ⟨m, h1, h2⟩ := ppair_inv hp1
  obtain ⟨p2, hp2, hv2⟩ := pmap_inv h1
  rcases p2 with ⟨w1, w2⟩
  obtain ⟨m2, h3, h4⟩ := ppair_inv hp2
  obtain ⟨hs3, -⟩ := tagP_inv h3
  obtain ⟨items, t2, hok, hm2, hm, hw2⟩ := escTrans_inv h4
  obtain ⟨hmr, -⟩ := tagP_inv h2
  rw [hm] at hmr
  injection hmr with hdq ht2
  refine ⟨items, hok, ?_, ?_⟩
  · rw [hs3, hm2, ht2]
    simp [qsRender]
  · exact hv1.trans (hv2.trans hw2)

theorem quoted_string_err_head {c : Char} {s : List Char} (h : c ≠ '"') :
    P.quoted_string (c :: s) = .err := by
  unfold P.quoted_string pdelimited
  exact pmap_err _ (ppair_err_l (pmap_err _ (ppair_err_l (tagP_err_head h))))

theorem quoted_string_nil : P.quoted_string [] = .incomplete := by decide

theorem stripPlus_of_digits {ds : List Char} (hne : ds ≠ [])
    (hdig : ∀ c ∈ ds, c.isDigit) : P.stripPlus ds = ds := by
  unfold P.stripPlus
  cases ds with
  | nil => simp
  | cons d t =>
    have hd : d.isDigit := hdig d (by simp)
    have hdp : d ≠ '+' := by
      intro hc
      subst hc
      simp [Char.isDigit] at hd
    simp [hdp]

theorem parseUsize_digits {ds : List Char} (h : DsOk ds) :
    P.parseUsize ds = some (P.natOfDs ds) := by
  obtain ⟨hne, hdig, hlt⟩ := h
  unfold P.parseUsize
  rw [stripPlus_of_digits hne hdig]
  rw [if_neg (by simpa [List.isEmpty_iff] using hne)]
  rw [if_pos (by rw [List.all_eq_true]; exact fun c hc => hdig c hc), if_pos hlt]

theorem parseUsize_digits_inv {ds : List Char} {n : Nat} (hne : ds ≠ [])
    (hdig : ∀ c ∈ ds, c.isDigit) (h : P.parseUsize ds = some n) :
    n = P.natOfDs ds ∧ P.natOfDs ds < 2 ^ 64 := by
  unfold P.parseUsize at h
  rw [stripPlus_of_digits hne hdig] at h
  rw [if_neg (by simpa [List.isEmpty_iff] using hne)] at h
  rw [if_pos (by rw [List.all_eq_true]; exact fun c hc => hdig c hc)] at h
  by_cases hlt : P.natOfDs ds < 2 ^ 64
  · rw [if_pos hlt] at h
    cases h
    exact ⟨rfl, hlt⟩
  · rw [if_neg hlt] at h
    cases h

theorem plengthData_short {f : Parser Nat} {s m : List Char} {n : Nat}
    (h : f s = .ok m n) (hlt : utf8Len m < n) : plengthData f s = .incomplete := by
  unfold plengthData
  rw [h]
  exact if_pos hlt

theorem plengthData_take {f : Parser Nat} {s m a b : List Char} {n : Nat}
    (h : f s = .ok m n) (hge : ¬ utf8Len m < n)
    (hsp : splitAtBytes n m = some (a, b)) : plengthData f s = .ok b a := by
  unfold plengthData
  rw [h]
  show (if utf8Len m < n then PR.incomplete
      else match splitAtBytes n m with
        | some (data, rest) => PR.ok rest data
        | none => PR.crash) = PR.ok b a
  rw [if_neg hge, hsp]

theorem plengthData_inc {f : Parser Nat} {s : List Char} (h : f s = .incomplete) :
    plengthData f s = .incomplete := by
  unfold plengthData
  rw [h]

theorem plengthData_err {f : Parser Nat} {s : List Char} (h : f s = .err) :
    plengthData f s = .err := by
  unfold plengthData
  rw [h]

theorem plengthData_inv {f : Parser Nat} {s r v} (h : plengthData f s = .ok r v) :
    ∃ m n, f s = .ok m n ∧ ¬ utf8Len m < n ∧ splitAtBytes n m = some (v, r) := by
  unfold plengthData at h
  split at h
  · next m n hf =>
    by_cases hlt : utf8Len m < n
    · rw [if_pos hlt] at h
      cases h
    · rw [if_neg hlt] at h
      split at h
      · next a b hsp =>
        cases h
        exact ⟨m, n, hf, hlt, hsp⟩
      · cases h
  · cases h
  · cases h
  · cases h

theorem utf8Len_nil : utf8Len [] = 0 := rfl

theorem utf8Len_cons (c : Char) (t : List Char) :
    utf8Len (c :: t) = c.utf8Size + utf8Len t := by
  simp [utf8Len]

theorem utf8Len_append (a b : List Char) :
    utf8Len (a ++ b) = utf8Len a + utf8Len b := by
  simp [utf8Len]

theorem utf8Len_pos {a : List Char} (h : a ≠ []) : 0 < utf8Len a := by
  rcases a with _ | ⟨c, t⟩
  · exact absurd rfl h
  · rw [utf8Len_cons]
    have := Char.utf8Size_pos c
    omega

theorem splitAtBytes_exact {a : List Char} {n : Nat} (h : utf8Len a = n)
    (b : List Char) : splitAtBytes n (a ++ b) = some (a, b) := by
  induction a generalizing n with
  | nil =>
    have h0 : n = 0 := by rw [← h]; rfl
    subst h0
    rw [List.nil_append]
    cases b <;> rfl
  | cons c t ih =>
    have hsz := Char.utf8Size_pos c
    rw [utf8Len_cons] at h
    rcases n with _ | n1
    · omega
    rw [List.cons_append,
      show splitAtBytes (n1 + 1) (c :: (t ++ b))
        = if c.utf8Size ≤ n1 + 1 then
            (splitAtBytes (n1 + 1 - c.utf8Size) (t ++ b)).map (fun p => (c :: p.1, p.2))
          else none from rfl,
      if_pos (by omega), show n1 + 1 - c.utf8Size = utf8Len t from by omega, ih rfl]
    rfl

theorem splitAtBytes_inv {n : Nat} {s a b : List Char}
    (h : splitAtBytes n s = some (a, b)) : s = a ++ b ∧ utf8Len a = n := by
  induction s generalizing n a b with
  | nil =>
    rcases n with _ | n1
    · rw [show splitAtBytes 0 ([] : List Char) = some ([], []) from rfl] at h
      injection h with h1
      injection h1 with h2 h3
      rw [← h2, ← h3]
      exact ⟨rfl, rfl⟩
    · rw [show splitAtBytes (n1 + 1) ([] : List Char) = none from rfl] at h
      cases h
  | cons c t ih =>
    rcases n with _ | n1
    · rw [show splitAtBytes 0 (c :: t) = some ([], c :: t) from rfl] at h
      injection h with h1
      injection h1 with h2 h3
      rw [← h2, ← h3]
      exact ⟨rfl, rfl⟩
    · rw [show splitAtBytes (n1 + 1) (c :: t)
          = if c.utf8Size ≤ n1 + 1 then
              (splitAtBytes (n1 + 1 - c.utf8Size) t).map (fun p => (c :: p.1, p.2))
            else none from rfl] at h
      by_cases hc : c.utf8Size ≤ n1 + 1
      · rw [if_pos hc] at h
        rcases hsp : splitAtBytes (n1 + 1 - c.utf8Size) t with _ | ⟨a1, b1⟩ <;>
          rw [hsp] at h
        · cases h
        · injection h with h1
          injection h1 with h2 h3
          obtain ⟨hs, hl⟩ := ih hsp
          rw [← h2, ← h3]
          constructor
          · rw [hs, List.cons_append]
          · rw [utf8Len_cons, hl]
            omega
      · rw [if_neg hc] at h
        cases h

theorem strictPrefix_utf8Len_lt {q l : List Char} (h : q <+: l) (hne : q ≠ l) :
    utf8Len q < utf8Len l := by
  obtain ⟨u, hu⟩ := h
  rcases u with _ | ⟨c, u1⟩
  · exact absurd (by rw [← hu, List.append_nil]) hne
  · rw [← hu, utf8Len_append, utf8Len_cons]
    have := Char.utf8Size_pos c
    omega

theorem litLen_ext {ds : List Char} (h : DsOk ds) (t : List Char) :
    P.literal_s2c_len (litLenRender ds ++ t) = .ok t (P.natOfDs ds) := by
  obtain ⟨hne, hdig, hlt⟩ := h
  have hsplit : litLenRender ds ++ t = ['{'] ++ (ds ++ '}' :: '\r' :: '\n' :: t) := by
    simp [litLenRender]
  rw [hsplit]
  unfold P.literal_s2c_len pdelimited
  have hd : digit1P (ds ++ '}' :: '\r' :: '\n' :: t) = .ok ('}' :: '\r' :: '\n' :: t) ds :=
    runP_ext Char.isDigit ds _ (fun x hx => hdig x hx) hne (by decide)
  have hmr : pmapRes digit1P P.parseUsize (ds ++ '}' :: '\r' :: '\n' :: t)
      = .ok ('}' :: '\r' :: '\n' :: t) (P.natOfDs ds) :=
    pmapRes_ok hd (parseUsize_digits ⟨hne, hdig, hlt⟩)
  exact pterminated_ok (pterminated_ok (ppreceded_ok (tagP_exact ['{'] _) hmr)
    (tagP_exact ['}'] ('\r' :: '\n' :: t))) (tagP_exact ['\r', '\n'] t)

theorem litLen_pref {ds : List Char} (h : DsOk ds) {q : List Char}
    (hpre : q <+: litLenRender ds) (hne : q ≠ litLenRender ds) :
    P.literal_s2c_len q = .incomplete := by
  obtain ⟨hdne, hdig, hlt⟩ := h
  unfold P.literal_s2c_len pdelimited
  cases q with
  | nil =>
    exact pmap_inc _ (ppair_inc_l (pmap_inc _ (ppair_inc_l
      (pmap_inc _ (ppair_inc_l (tagP_nil (by decide)))))))
  | cons c1 q1 =>
    obtain ⟨u, hu⟩ := hpre
    rw [show litLenRender ds = '{' :: (ds ++ ['}', '\r', '\n']) from by simp [litLenRender],
      List.cons_append] at hu
    injection hu with h1 h2
    subst h1
    have htag : tagP ['{'] ('{' :: q1) = .ok q1 ['{'] := tagP_exact ['{'] q1
    have hq1 : q1 <+: ds ++ ['}', '\r', '\n'] := ⟨u, h2⟩
    rcases prefix_split hq1 with hcase | ⟨q2, rfl, hq2⟩
    · have hall : ∀ x ∈ q1, x.isDigit := by
        intro x hx
        obtain ⟨w, hw⟩ := hcase
        exact hdig x (by rw [← hw]; exact List.mem_append_left w hx)
      have hdp : digit1P q1 = .incomplete := runP_all hall
      exact pmap_inc _ (ppair_inc_l (pmap_inc _ (ppair_inc_l
        (pmap_inc _ (ppair_inc_r htag (pmapRes_inc hdp))))))
    · have hne2 : q2 ≠ ['}', '\r', '\n'] := by
        rintro rfl
        exact hne (by simp [litLenRender])
      rcases prefix_cases3 hq2 hne2 with rfl | rfl | rfl
      · rw [List.append_nil] at htag ⊢
        have hdp : digit1P ds = .incomplete := runP_all hdig
        exact pmap_inc _ (ppair_inc_l (pmap_inc _ (ppair_inc_l
          (pmap_inc _ (ppair_inc_r htag (pmapRes_inc hdp))))))
      · have hd : digit1P (ds ++ ['}']) = .ok ['}'] ds := by
          have := runP_ext Char.isDigit ds (c := '}') []
            (fun x hx => hdig x hx) hdne (by decide)
          simpa using this
        have hmr := pmapRes_ok hd (parseUsize_digits ⟨hdne, hdig, hlt⟩)
        have hbr : tagP ['}'] ['}'] = .ok [] ['}'] := by
          have := tagP_exact ['}'] ([] : List Char)
          simpa using this
        exact pmap_inc _ (ppair_inc_r
          (pterminated_ok (ppreceded_ok htag hmr) hbr) (tagP_nil (by decide)))
      · have hd : digit1P (ds ++ ['}', '\r']) = .ok ['}', '\r'] ds := by
          have := runP_ext Char.isDigit ds (c := '}') ['\r']
            (fun x hx => hdig x hx) hdne (by decide)
          simpa using this
        have hmr := pmapRes_ok hd (parseUsize_digits ⟨hdne, hdig, hlt⟩)
        have hbr : tagP ['}'] ['}', '\r'] = .ok ['\r'] ['}'] := by
          have := tagP_exact ['}'] ['\r']
          simpa using this
        have hcr : tagP ['\r', '\n'] ['\r'] = .incomplete :=
          tagP_pref ⟨['\n'], rfl⟩ (by decide)
        exact pmap_inc _ (ppair_inc_r
          (pterminated_ok (ppreceded_ok htag hmr) hbr) hcr)

theorem litLen_inv {s r : List Char} {n : Nat} (h : P.literal_s2c_len s = .ok r n) :
    ∃ ds, DsOk ds ∧ s = litLenRender ds ++ r ∧ n = P.natOfDs ds := by
  unfold P.literal_s2c_len pdelimited at h
  obtain ⟨p1, hp1, hn1⟩ := pmap_inv h
  rcases p1 with ⟨n1, v2⟩
  obtain ⟨m1, h1, h2⟩ := ppair_inv hp1
  obtain ⟨p2, hp2, hn2⟩ := pmap_inv h1
  rcases p2 with ⟨w1, w2⟩
  obtain ⟨m2, h3, h4⟩ := ppair_inv hp2
  obtain ⟨p3, hp3, hn3⟩ := pmap_inv h3
  rcases p3 with ⟨x1, x2⟩
  obtain ⟨m3, h5, h6⟩ := ppair_inv hp3
  obtain ⟨hs5, -⟩ := tagP_inv h5
  obtain ⟨ds, hd6, hps⟩ := pmapRes_inv h6
  obtain ⟨run, cstop, tstop, hm3, hrm, hvds, hrunne, hrundig, hstop⟩ := runP_inv hd6
  obtain ⟨hm2, -⟩ := tagP_inv h4
  obtain ⟨hm1, -⟩ := tagP_inv h2
  subst hvds
  obtain ⟨hn, hlt⟩ := parseUsize_digits_inv hrunne hrundig hps
  rw [hrm] at hm2
  injection hm2 with hc ht
  refine ⟨ds, ⟨hrunne, hrundig, hlt⟩, ?_, ?_⟩
  · rw [hs5, hm3, hc, ht, hm1]
    simp [litLenRender]
  · exact hn1.trans (hn2.trans (hn3.trans hn))

theorem litLen_err_head {c : Char} {s : List Char} (h : c ≠ '{') :
    P.literal_s2c_len (c :: s) = .err := by
  unfold P.literal_s2c_len pdelimited
  exact pmap_err _ (ppair_err_l (pmap_err _ (ppair_err_l
    (pmap_err _ (ppair_err_l (tagP_err_head h))))))

theorem literal_s2c_ext {ds content : List Char} (hds : DsOk ds)
    (hlen : utf8Len content = P.natOfDs ds) (t : List Char) :
    P.literal_s2c ((litLenRender ds ++ content) ++ t) = .ok t content := by
  unfold P.literal_s2c
  rw [List.append_assoc]
  exact plengthData_take (litLen_ext hds (content ++ t))
    (by rw [utf8Len_append, hlen]; omega)
    (splitAtBytes_exact hlen t)

theorem literal_s2c_pref {ds content : List Char} (hds : DsOk ds)
    (hlen : utf8Len content = P.natOfDs ds) {q : List Char}
    (hpre : q <+: litLenRender ds ++ content) (hne : q ≠ litLenRender ds ++ content) :
    P.literal_s2c q = .incomplete := by
  unfold P.literal_s2c
  rcases prefix_split hpre with hcase | ⟨q2, rfl, hq2⟩
  · by_cases hfull : q = litLenRender ds
    · subst hfull
      apply plengthData_short (by simpa using litLen_ext hds [])
      rw [utf8Len_nil, ← hlen]
      apply utf8Len_pos
      rintro rfl
      exact hne (by simp)
    · rw [plengthData_inc (litLen_pref hds hcase hfull)]
  · by_cases hfull : q2 = content
    · exact absurd (by rw [hfull]) hne
    · apply plengthData_short (litLen_ext hds q2)
      rw [← hlen]
      exact strictPrefix_utf8Len_lt hq2 hfull

theorem literal_s2c_inv {s r v} (h : P.literal_s2c s = .ok r v) :
    ∃ ds, DsOk ds ∧ utf8Len v = P.natOfDs ds ∧ s = (litLenRender ds ++ v) ++ r := by
  unfold P.literal_s2c at h
  obtain ⟨m, n, hlen, hge, hsp⟩ := plengthData_inv h
  obtain ⟨ds, hds, hsm, hn⟩ := litLen_inv hlen
  obtain ⟨hm, hvl⟩ := splitAtBytes_inv hsp
  refine ⟨ds, hds, by rw [hvl, hn], ?_⟩
  rw [hsm, hm]
  simp

theorem literal_s2c_err_head {c : Char} {s : List Char} (h : c ≠ '{') :
    P.literal_s2c (c :: s) = .err := by
  unfold P.literal_s2c
  exact plengthData_err (litLen_err_head h)

theorem literal_s2c_nil : P.literal_s2c [] = .incomplete := by decide

/-! ### Sieve-string characterization -/

theorem svRender_lit (ds content : List Char) :
    SvW.render (.lit ds content) = litLenRender ds ++ content := rfl

theorem svRender_qs (items : List QI) : SvW.render (.qs items) = qsRender items := rfl

theorem sv_ext {w : SvW} (h : SvOk w) (t : List Char) :
    P.sievestring_s2c (SvW.render w ++ t) = .ok t (SvW.val w) := by
  unfold P.sievestring_s2c
  cases w with
  | lit ds content =>
    obtain ⟨hds, hlen⟩ := h
    exact palt_ok_l (literal_s2c_ext hds hlen t)
  | qs items =>
    have hlit : P.literal_s2c (qsRender items ++ t) = .err := by
      rw [show qsRender items ++ t = '"' :: (qRender items ++ ['"'] ++ t) from by
        simp [qsRender]]
      exact literal_s2c_err_head (by decide)
    rw [svRender_qs, palt_err_l hlit]
    exact quoted_string_ext items h t

theorem sv_pref {w : SvW} (h : SvOk w) {q : List Char}
    (hpre : q <+: SvW.render w) (hne : q ≠ SvW.render w) :
    P.sievestring_s2c q = .incomplete := by
  unfold P.sievestring_s2c
  cases w with
  | lit ds content =>
    obtain ⟨hds, hlen⟩ := h
    exact palt_inc_l (literal_s2c_pref hds hlen hpre hne)
  | qs items =>
    cases q with
    | nil => exact palt_inc_l literal_s2c_nil
    | cons c1 q1 =>
      rw [svRender_qs] at hpre hne
      obtain ⟨u, hu⟩ := hpre
      rw [show qsRender items = '"' :: (qRender items ++ ['"']) from by simp [qsRender],
        List.cons_append] at hu
      injection hu with h1 h2
      subst h1
      rw [palt_err_l (literal_s2c_err_head (by decide))]
      exact quoted_string_pref items h
        (by rw [show qsRender items = '"' :: (qRender items ++ ['"']) from by
              simp [qsRender]]
            exact ⟨u, by rw [List.cons_append, h2]⟩)
        hne

theorem sv_inv {s r v} (h : P.sievestring_s2c s = .ok r v) :
    ∃ w, SvOk w ∧ s = SvW.render w ++ r ∧ v = SvW.val w := by
  unfold P.sievestring_s2c at h
  rcases palt_inv h with hlit | ⟨-, hqs⟩
  · obtain ⟨ds, hds, hlen, hs⟩ := literal_s2c_inv hlit
    exact ⟨.lit ds v, ⟨hds, hlen⟩, by rw [hs]; simp [SvW.render], rfl⟩
  · obtain ⟨items, hok, hs, hv⟩ := quoted_string_inv hqs
    exact ⟨.qs items, hok, by rw [hs]; rfl, hv⟩

theorem sv_err_head {c : Char} {s : List Char} (h1 : c ≠ '{') (h2 : c ≠ '"') :
    P.sievestring_s2c (c :: s) = .err := by
  unfold P.sievestring_s2c
  rw [palt_err_l (literal_s2c_err_head h1)]
  exact quoted_string_err_head h2

theorem sv_nil : P.sievestring_s2c [] = .incomplete := by decide

theorem svRender_ne_nil (w : SvW) : SvW.render w ≠ [] := by
  cases w <;> simp [SvW.render, litLenRender, qsRender]

theorem svRender_head {w : SvW} {c : Char} {t : List Char}
    (h : SvW.render w = c :: t) : c = '{' ∨ c = '"' := by
  cases w with
  | lit ds content =>
    rw [svRender_lit] at h
    rw [show litLenRender ds ++ content = '{' :: (ds ++ ['}', '\r', '\n'] ++ content) from by
      simp [litLenRender]] at h
    injection h with h1 h2
    exact .inl h1.symm
  | qs items =>
    rw [svRender_qs] at h
    rw [show qsRender items = '"' :: (qRender items ++ ['"']) from by simp [qsRender]] at h
    injection h with h1 h2
    exact .inr h1.symm

/-! ### Atom (response-code vocabulary) characterization -/

theorem atomGo_cons (w : List Char) (rc : ResponseCode)
    (rest : List (List Char × ResponseCode)) :
    P.atomGo ((w, rc) :: rest) = palt (pvalue rc (tagP w)) (P.atomGo rest) :=
  P.atomGo.eq_2 w rc rest

theorem atomGo_err_step {w1 : List Char} {rc1 : ResponseCode}
    {rest : List (List Char × ResponseCode)} {s : List Char} (h : tagP w1 s = .err) :
    P.atomGo ((w1, rc1) :: rest) s = P.atomGo rest s := by
  rw [atomGo_cons]
  exact palt_err_l (pvalue_err _ h)

theorem clash_quota_scripts {c : Char} (hc : c ≠ '/') (t : List Char) :
    clash "QUOTA/MAXSCRIPTS".toList ("QUOTA".toList ++ c :: t) = true := by
  show clash ('Q' :: 'U' :: 'O' :: 'T' :: 'A' :: '/' :: 'M' :: 'A' :: 'X' :: 'S' :: 'C' :: 'R' :: 'I' :: 'P' :: 'T' :: 'S' ::[])
    ('Q' :: 'U' :: 'O' :: 'T' :: 'A' :: c :: t) = true
  simp only [clash, List.zip_cons_cons, List.any_cons, Bool.or_eq_true, decide_eq_true_eq]
  exact Or.inr (Or.inr (Or.inr (Or.inr (Or.inr (Or.inl (Ne.symm hc))))))

theorem clash_quota_size {c : Char} (hc : c ≠ '/') (t : List Char) :
    clash "QUOTA/MAXSIZE".toList ("QUOTA".toList ++ c :: t) = true := by
  show clash ('Q' :: 'U' :: 'O' :: 'T' :: 'A' :: '/' :: 'M' :: 'A' :: 'X' :: 'S' :: 'I' :: 'Z' :: 'E' ::[])
    ('Q' :: 'U' :: 'O' :: 'T' :: 'A' :: c :: t) = true
  simp only [clash, List.zip_cons_cons, List.any_cons, Bool.or_eq_true, decide_eq_true_eq]
  exact Or.inr (Or.inr (Or.inr (Or.inr (Or.inr (Or.inl (Ne.symm hc))))))

theorem atom_pref_aux {w q : List Char}
    (hd : ∀ n, n < w.length → P.atomP (w.take n) = .incomplete)
    (hpre : q <+: w) (hne : q ≠ w) : P.atomP q = .incomplete := by
  rw [prefix_take hpre]
  exact hd q.length (strictPrefix_length_lt hpre hne)

theorem atom_ext {w : List Char} {rc : ResponseCode} {c : Char} (t : List Char)
    (hmem : (w, rc) ∈ P.vocab) (hc : c ≠ '/') :
    P.atomP (w ++ c :: t) = .ok (c :: t) rc := by
  simp only [P.vocab, List.mem_cons, Prod.mk.injEq, List.not_mem_nil, or_false] at hmem
  unfold P.atomP P.vocab
  rcases hmem with hx | hx | hx | hx | hx | hx | hx | hx | hx | hx | hx | hx | hx | hx <;> obtain ⟨rfl, rfl⟩ := hx
  · -- AUTH-TOO-WEAK
    rw [atomGo_cons]
    exact palt_ok_l (pvalue_ok _ (tagP_exact "AUTH-TOO-WEAK".toList (c :: t)))
  · -- ENCRYPT-NEEDED
    rw [atomGo_err_step (tagP_err_of_clash (clash_append (a := "AUTH-TOO-WEAK".toList) (s := "ENCRYPT-NEEDED".toList) (by decide)))]
    rw [atomGo_cons]
    exact palt_ok_l (pvalue_ok _ (tagP_exact "ENCRYPT-NEEDED".toList (c :: t)))
  · -- QUOTA/MAXSCRIPTS
    rw [atomGo_err_step (tagP_err_of_clash (clash_append (a := "AUTH-TOO-WEAK".toList) (s := "QUOTA/MAXSCRIPTS".toList) (by decide)))]
    rw [atomGo_err_step (tagP_err_of_clash (clash_append (a := "ENCRYPT-NEEDED".toList) (s := "QUOTA/MAXSCRIPTS".toList) (by decide)))]
    rw [atomGo_cons]
    exact palt_ok_l (pvalue_ok _ (tagP_exact "QUOTA/MAXSCRIPTS".toList (c :: t)))
  · -- QUOTA/MAXSIZE
    rw [atomGo_err_step (tagP_err_of_clash (clash_append (a := "AUTH-TOO-WEAK".toList) (s := "QUOTA/MAXSIZE".toList) (by decide)))]
    rw [atomGo_err_step (tagP_err_of_clash (clash_append (a := "ENCRYPT-NEEDED".toList) (s := "QUOTA/MAXSIZE".toList) (by decide)))]
    rw [atomGo_err_step (tagP_err_of_clash (clash_append (a := "QUOTA/MAXSCRIPTS".toList) (s := "QUOTA/MAXSIZE".toList) (by decide)))]
    rw [atomGo_cons]
    exact palt_ok_l (pvalue_ok _ (tagP_exact "QUOTA/MAXSIZE".toList (c :: t)))
  · -- QUOTA
    rw [atomGo_err_step (tagP_err_of_clash (clash_append (a := "AUTH-TOO-WEAK".toList) (s := "QUOTA".toList) (by decide)))]
    rw [atomGo_err_step (tagP_err_of_clash (clash_append (a := "ENCRYPT-NEEDED".toList) (s := "QUOTA".toList) (by decide)))]
    rw [atomGo_err_step (tagP_err_of_clash (clash_quota_scripts hc t))]
    rw [atomGo_err_step (tagP_err_of_clash (clash_quota_size hc t))]
    rw [atomGo_cons]
    exact palt_ok_l (pvalue_ok _ (tagP_exact "QUOTA".toList (c :: t)))
  · -- REFERRAL
    rw [atomGo_err_step (tagP_err_of_clash (clash_append (a := "AUTH-TOO-WEAK".toList) (s := "REFERRAL".toList) (by decide)))]
    rw [atomGo_err_step (tagP_err_of_clash (clash_append (a := "ENCRYPT-NEEDED".toList) (s := "REFERRAL".toList) (by decide)))]
    rw [atomGo_err_step (tagP_err_of_clash (clash_append (a := "QUOTA/MAXSCRIPTS".toList) (s := "REFERRAL".toList) (by decide)))]
    rw [atomGo_err_step (tagP_err_of_clash (clash_append (a := "QUOTA/MAXSIZE".toList) (s := "REFERRAL".toList) (by decide)))]
    rw [atomGo_err_step (tagP_err_of_clash (clash_append (a := "QUOTA".toList) (s := "REFERRAL".toList) (by decide)))]
    rw [atomGo_cons]
    exact palt_ok_l (pvalue_ok _ (tagP_exact "REFERRAL".toList (c :: t)))
  · -- SASL
    rw [atomGo_err_step (tagP_err_of_clash (clash_append (a := "AUTH-TOO-WEAK".toList) (s := "SASL".toList) (by decide)))]
    rw [atomGo_err_step (tagP_err_of_clash (clash_append (a := "ENCRYPT-NEEDED".toList) (s := "SASL".toList) (by decide)))]
    rw [atomGo_err_step (tagP_err_of_clash (clash_append (a := "QUOTA/MAXSCRIPTS".toList) (s := "SASL".toList) (by decide)))]
    rw [atomGo_err_step (tagP_err_of_clash (clash_append (a := "QUOTA/MAXSIZE".toList) (s := "SASL".toList) (by decide)))]
    rw [atomGo_err_step (tagP_err_of_clash (clash_append (a := "QUOTA".toList) (s := "SASL".toList) (by decide)))]
    rw [atomGo_err_step (tagP_err_of_clash (clash_append (a := "REFERRAL".toList) (s := "SASL".toList) (by decide)))]
    rw [atomGo_cons]
    exact palt_ok_l (pvalue_ok _ (tagP_exact "SASL".toList (c :: t)))
  · -- TRANSITION-NEEDED
    rw [atomGo_err_step (tagP_err_of_clash (clash_append (a := "AUTH-TOO-WEAK".toList) (s := "TRANSITION-NEEDED".toList) (by decide)))]
    rw [atomGo_err_step (tagP_err_of_clash (clash_append (a := "ENCRYPT-NEEDED".toList) (s := "TRANSITION-NEEDED".toList) (by decide)))]
    rw [atomGo_err_step (tagP_err_of_clash (clash_append (a := "QUOTA/MAXSCRIPTS".toList) (s := "TRANSITION-NEEDED".toList) (by decide)))]
    rw [atomGo_err_step (tagP_err_of_clash (clash_append (a := "QUOTA/MAXSIZE".toList) (s := "TRANSITION-NEEDED".toList) (by decide)))]
    rw [atomGo_err_step (tagP_err_of_clash (clash_append (a := "QUOTA".toList) (s := "TRANSITION-NEEDED".toList) (by decide)))]
    rw [atomGo_err_step (tagP_err_of_clash (clash_append (a := "REFERRAL".toList) (s := "TRANSITION-NEEDED".toList) (by decide)))]
    rw [atomGo_err_step (tagP_err_of_clash (clash_append (a := "SASL".toList) (s := "TRANSITION-NEEDED".toList) (by decide)))]
    rw [atomGo_cons]
    exact palt_ok_l (pvalue_ok _ (tagP_exact "TRANSITION-NEEDED".toList (c :: t)))
  · -- TRYLATER
    rw [atomGo_err_step (tagP_err_of_clash (clash_append (a := "AUTH-TOO-WEAK".toList) (s := "TRYLATER".toList) (by decide)))]
    rw [atomGo_err_step (tagP_err_of_clash (clash_append (a := "ENCRYPT-NEEDED".toList) (s := "TRYLATER".toList) (by decide)))]
    rw [atomGo_err_step (tagP_err_of_clash (clash_append (a := "QUOTA/MAXSCRIPTS".toList) (s := "TRYLATER".toList) (by decide)))]
    rw [atomGo_err_step (tagP_err_of_clash (clash_append (a := "QUOTA/MAXSIZE".toList) (s := "TRYLATER".toList) (by decide)))]
    rw [atomGo_err_step (tagP_err_of_clash (clash_append (a := "QUOTA".toList) (s := "TRYLATER".toList) (by decide)))]
    rw [atomGo_err_step (tagP_err_of_clash (clash_append (a := "REFERRAL".toList) (s := "TRYLATER".toList) (by decide)))]
    rw [atomGo_err_step (tagP_err_of_clash (clash_append (a := "SASL".toList) (s := "TRYLATER".toList) (by decide)))]
    rw [atomGo_err_step (tagP_err_of_clash (clash_append (a := "TRANSITION-NEEDED".toList) (s := "TRYLATER".toList) (by decide)))]
    rw [atomGo_cons]
    exact palt_ok_l (pvalue_ok _ (tagP_exact "TRYLATER".toList (c :: t)))
  · -- ACTIVE
    rw [atomGo_err_step (tagP_err_of_clash (clash_append (a := "AUTH-TOO-WEAK".toList) (s := "ACTIVE".toList) (by decide)))]
    rw [atomGo_err_step (tagP_err_of_clash (clash_append (a := "ENCRYPT-NEEDED".toList) (s := "ACTIVE".toList) (by decide)))]
    rw [atomGo_err_step (tagP_err_of_clash (clash_append (a := "QUOTA/MAXSCRIPTS".toList) (s := "ACTIVE".toList) (by decide)))]
    rw [atomGo_err_step (tagP_err_of_clash (clash_append (a := "QUOTA/MAXSIZE".toList) (s := "ACTIVE".toList) (by decide)))]
    rw [atomGo_err_step (tagP_err_of_clash (clash_append (a := "QUOTA".toList) (s := "ACTIVE".toList) (by decide)))]
    rw [atomGo_err_step (tagP_err_of_clash (clash_append (a := "REFERRAL".toList) (s := "ACTIVE".toList) (by decide)))]
    rw [atomGo_err_step (tagP_err_of_clash (clash_append (a := "SASL".toList) (s := "ACTIVE".toList) (by decide)))]
    rw [atomGo_err_step (tagP_err_of_clash (clash_append (a := "TRANSITION-NEEDED".toList) (s := "ACTIVE".toList) (by decide)))]
    rw [atomGo_err_step (tagP_err_of_clash (clash_append (a := "TRYLATER".toList) (s := "ACTIVE".toList) (by decide)))]
    rw [atomGo_cons]
    exact palt_ok_l (pvalue_ok _ (tagP_exact "ACTIVE".toList (c :: t)))
  · -- NONEXISTENT
    rw [atomGo_err_step (tagP_err_of_clash (clash_append (a := "AUTH-TOO-WEAK".toList) (s := "NONEXISTENT".toList) (by decide)))]
    rw [atomGo_err_step (tagP_err_of_clash (clash_append (a := "ENCRYPT-NEEDED".toList) (s := "NONEXISTENT".toList) (by decide)))]
    rw [atomGo_err_step (tagP_err_of_clash (clash_append (a := "QUOTA/MAXSCRIPTS".toList) (s := "NONEXISTENT".toList) (by decide)))]
    rw [atomGo_err_step (tagP_err_of_clash (clash_append (a := "QUOTA/MAXSIZE".toList) (s := "NONEXISTENT".toList) (by decide)))]
    rw [atomGo_err_step (tagP_err_of_clash (clash_append (a := "QUOTA".toList) (s := "NONEXISTENT".toList) (by decide)))]
    rw [atomGo_err_step (tagP_err_of_clash (clash_append (a := "REFERRAL".toList) (s := "NONEXISTENT".toList) (by decide)))]
    rw [atomGo_err_step (tagP_err_of_clash (clash_append (a := "SASL".toList) (s := "NONEXISTENT".toList) (by decide)))]
    rw [atomGo_err_step (tagP_err_of_clash (clash_append (a := "TRANSITION-NEEDED".toList) (s := "NONEXISTENT".toList) (by decide)))]
    rw [atomGo_err_step (tagP_err_of_clash (clash_append (a := "TRYLATER".toList) (s := "NONEXISTENT".toList) (by decide)))]
    rw [atomGo_err_step (tagP_err_of_clash (clash_append (a := "ACTIVE".toList) (s := "NONEXISTENT".toList) (by decide)))]
    rw [atomGo_cons]
    exact palt_ok_l (pvalue_ok _ (tagP_exact "NONEXISTENT".toList (c :: t)))
  · -- ALREADYEXISTS
    rw [atomGo_err_step (tagP_err_of_clash (clash_append (a := "AUTH-TOO-WEAK".toList) (s := "ALREADYEXISTS".toList) (by decide)))]
    rw [atomGo_err_step (tagP_err_of_clash (clash_append (a := "ENCRYPT-NEEDED".toList) (s := "ALREADYEXISTS".toList) (by decide)))]
    rw [atomGo_err_step (tagP_err_of_clash (clash_append (a := "QUOTA/MAXSCRIPTS".toList) (s := "ALREADYEXISTS".toList) (by decide)))]
    rw [atomGo_err_step (tagP_err_of_clash (clash_append (a := "QUOTA/MAXSIZE".toList) (s := "ALREADYEXISTS".toList) (by decide)))]
    rw [atomGo_err_step (tagP_err_of_clash (clash_append (a := "QUOTA".toList) (s := "ALREADYEXISTS".toList) (by decide)))]
    rw [atomGo_err_step (tagP_err_of_clash (clash_append (a := "REFERRAL".toList) (s := "ALREADYEXISTS".toList) (by decide)))]
    rw [atomGo_err_step (tagP_err_of_clash (clash_append (a := "SASL".toList) (s := "ALREADYEXISTS".toList) (by decide)))]
    rw [atomGo_err_step (tagP_err_of_clash (clash_append (a := "TRANSITION-NEEDED".toList) (s := "ALREADYEXISTS".toList) (by decide)))]
    rw [atomGo_err_step (tagP_err_of_clash (clash_append (a := "TRYLATER".toList) (s := "ALREADYEXISTS".toList) (by decide)))]
    rw [atomGo_err_step (tagP_err_of_clash (clash_append (a := "ACTIVE".toList) (s := "ALREADYEXISTS".toList) (by decide)))]
    rw [atomGo_err_step (tagP_err_of_clash (clash_append (a := "NONEXISTENT".toList) (s := "ALREADYEXISTS".toList) (by decide)))]
    rw [atomGo_cons]
    exact palt_ok_l (pvalue_ok _ (tagP_exact "ALREADYEXISTS".toList (c :: t)))
  · -- TAG
    rw [atomGo_err_step (tagP_err_of_clash (clash_append (a := "AUTH-TOO-WEAK".toList) (s := "TAG".toList) (by decide)))]
    rw [atomGo_err_step (tagP_err_of_clash (clash_append (a := "ENCRYPT-NEEDED".toList) (s := "TAG".toList) (by decide)))]
    rw [atomGo_err_step (tagP_err_of_clash (clash_append (a := "QUOTA/MAXSCRIPTS".toList) (s := "TAG".toList) (by decide)))]
    rw [atomGo_err_step (tagP_err_of_clash (clash_append (a := "QUOTA/MAXSIZE".toList) (s := "TAG".toList) (by decide)))]
    rw [atomGo_err_step (tagP_err_of_clash (clash_append (a := "QUOTA".toList) (s := "TAG".toList) (by decide)))]
    rw [atomGo_err_step (tagP_err_of_clash (clash_append (a := "REFERRAL".toList) (s := "TAG".toList) (by decide)))]
    rw [atomGo_err_step (tagP_err_of_clash (clash_append (a := "SASL".toList) (s := "TAG".toList) (by decide)))]
    rw [atomGo_err_step (tagP_err_of_clash (clash_append (a := "TRANSITION-NEEDED".toList) (s := "TAG".toList) (by decide)))]
    rw [atomGo_err_step (tagP_err_of_clash (clash_append (a := "TRYLATER".toList) (s := "TAG".toList) (by decide)))]
    rw [atomGo_err_step (tagP_err_of_clash (clash_append (a := "ACTIVE".toList) (s := "TAG".toList) (by decide)))]
    rw [atomGo_err_step (tagP_err_of_clash (clash_append (a := "NONEXISTENT".toList) (s := "TAG".toList) (by decide)))]
    rw [atomGo_err_step (tagP_err_of_clash (clash_append (a := "ALREADYEXISTS".toList) (s := "TAG".toList) (by decide)))]
    rw [atomGo_cons]
    exact palt_ok_l (pvalue_ok _ (tagP_exact "TAG".toList (c :: t)))
  · -- WARNINGS
    rw [atomGo_err_step (tagP_err_of_clash (clash_append (a := "AUTH-TOO-WEAK".toList) (s := "WARNINGS".toList) (by decide)))]
    rw [atomGo_err_step (tagP_err_of_clash (clash_append (a := "ENCRYPT-NEEDED".toList) (s := "WARNINGS".toList) (by decide)))]
    rw [atomGo_err_step (tagP_err_of_clash (clash_append (a := "QUOTA/MAXSCRIPTS".toList) (s := "WARNINGS".toList) (by decide)))]
    rw [atomGo_err_step (tagP_err_of_clash (clash_append (a := "QUOTA/MAXSIZE".toList) (s := "WARNINGS".toList) (by decide)))]
    rw [atomGo_err_step (tagP_err_of_clash (clash_append (a := "QUOTA".toList) (s := "WARNINGS".toList) (by decide)))]
    rw [atomGo_err_step (tagP_err_of_clash (clash_append (a := "REFERRAL".toList) (s := "WARNINGS".toList) (by decide)))]
    rw [atomGo_err_step (tagP_err_of_clash (clash_append (a := "SASL".toList) (s := "WARNINGS".toList) (by decide)))]
    rw [atomGo_err_step (tagP_err_of_clash (clash_append (a := "TRANSITION-NEEDED".toList) (s := "WARNINGS".toList) (by decide)))]
    rw [atomGo_err_step (tagP_err_of_clash (clash_append (a := "TRYLATER".toList) (s := "WARNINGS".toList) (by decide)))]
    rw [atomGo_err_step (tagP_err_of_clash (clash_append (a := "ACTIVE".toList) (s := "WARNINGS".toList) (by decide)))]
    rw [atomGo_err_step (tagP_err_of_clash (clash_append (a := "NONEXISTENT".toList) (s := "WARNINGS".toList) (by decide)))]
    rw [atomGo_err_step (tagP_err_of_clash (clash_append (a := "ALREADYEXISTS".toList) (s := "WARNINGS".toList) (by decide)))]
    rw [atomGo_err_step (tagP_err_of_clash (clash_append (a := "TAG".toList) (s := "WARNINGS".toList) (by decide)))]
    rw [atomGo_cons]
    exact palt_ok_l (pvalue_ok _ (tagP_exact "WARNINGS".toList (c :: t)))

theorem atom_pref {w : List Char} {rc : ResponseCode} {q : List Char}
    (hmem : (w, rc) ∈ P.vocab) (hpre : q <+: w) (hne : q ≠ w) :
    P.atomP q = .incomplete := by
  have hall : ∀ p ∈ P.vocab, ∀ n, n < p.1.length → P.atomP (p.1.take n) = .incomplete := by
    decide
  exact atom_pref_aux (hall (w, rc) hmem) hpre hne

theorem atom_exact {w : List Char} {rc : ResponseCode} (hmem : (w, rc) ∈ P.vocab) :
    P.atomP w = .ok [] rc ∨ P.atomP w = .incomplete := by
  have hall : ∀ p ∈ P.vocab, P.atomP p.1 = .ok [] p.2 ∨ P.atomP p.1 = .incomplete := by
    decide
  exact hall (w, rc) hmem

theorem atomGo_inv {L : List (List Char × ResponseCode)} {s r : List Char}
    {v : ResponseCode} (h : P.atomGo L s = .ok r v) :
    ∃ w, (w, v) ∈ L ∧ s = w ++ r := by
  induction L with
  | nil =>
    rw [P.atomGo.eq_1] at h
    simp at h
  | cons p rest ih =>
    rcases p with ⟨w1, rc1⟩
    rw [atomGo_cons] at h
    rcases palt_inv h with hok | ⟨herr, hrest⟩
    · obtain ⟨⟨u, hu⟩, rfl⟩ := pvalue_inv hok
      obtain ⟨hs, hv⟩ := tagP_inv hu
      exact ⟨w1, by simp, hs⟩
    · obtain ⟨w, hmem, hs⟩ := ih hrest
      exact ⟨w, by simp [hmem], hs⟩

theorem atom_inv {s r : List Char} {v : ResponseCode} (h : P.atomP s = .ok r v) :
    ∃ w, (w, v) ∈ P.vocab ∧ s = w ++ r :=
  atomGo_inv h

/-! ### Response-code (`code`) characterization -/

theorem isSpc_ne_slash {c : Char} (h : isSpc c = true) : c ≠ '/' := by
  rcases (by simpa [isSpc] using h : c = ' ' ∨ c = '\t') with rfl | rfl <;> decide

theorem not_isSpc_of_svHead {w : SvW} {c : Char} {t : List Char}
    (h : SvW.render w = c :: t) : isSpc c = false := by
  rcases svRender_head h with rfl | rfl <;> decide

theorem code_err_head {c : Char} {s : List Char} (h : c ≠ '(') :
    P.codeP (c :: s) = .err := by
  unfold P.codeP pdelimited
  exact pmap_err _ (ppair_err_l (pmap_err _ (ppair_err_l (tagP_err_head h))))

theorem code_nil : P.codeP [] = .incomplete := by decide

theorem code_ext {cw : CodeW} (h : CodeOk cw) (t : List Char) :
    P.codeP (CodeW.render cw ++ t) = .ok t (CodeW.val cw) := by
  obtain ⟨hmem, harg⟩ := h
  rcases cw with ⟨w, rc, _ | ⟨sp, sv⟩⟩
  · have hshape : CodeW.render ⟨w, rc, none⟩ ++ t = ['('] ++ (w ++ ')' :: t) := by
      simp [CodeW.render]
    rw [hshape]
    unfold P.codeP pdelimited
    have hatom : P.atomP (w ++ ')' :: t) = .ok (')' :: t) rc :=
      atom_ext t hmem (by decide)
    have hopt : popt (ppreceded space1P P.sievestring_s2c) (')' :: t)
        = .ok (')' :: t) none :=
      popt_none (pmap_err _ (ppair_err_l (runP_err_head (by decide))))
    exact pterminated_ok (ppreceded_ok (tagP_exact ['('] _) (ppair_ok hatom hopt))
      (tagP_exact [')'] t)
  · obtain ⟨⟨hspne, hsp⟩, hsv⟩ := harg
    rcases hsphd : sp with _ | ⟨c0, sp1⟩
    · exact absurd hsphd hspne
    subst hsphd
    rcases hsvr : SvW.render sv with _ | ⟨ch, svrest⟩
    · exact absurd hsvr (svRender_ne_nil sv)
    have hc0 : isSpc c0 := hsp c0 (by simp)
    have hshape : CodeW.render ⟨w, rc, some (c0 :: sp1, sv)⟩ ++ t
        = ['('] ++ (w ++ c0 :: (sp1 ++ (ch :: (svrest ++ ')' :: t)))) := by
      simp [CodeW.render, hsvr]
    rw [hshape]
    unfold P.codeP pdelimited
    have hatom : P.atomP (w ++ c0 :: (sp1 ++ (ch :: (svrest ++ ')' :: t))))
        = .ok (c0 :: (sp1 ++ (ch :: (svrest ++ ')' :: t)))) rc :=
      atom_ext _ hmem (isSpc_ne_slash hc0)
    have hsp1 : space1P ((c0 :: sp1) ++ ch :: (svrest ++ ')' :: t))
        = .ok (ch :: (svrest ++ ')' :: t)) (c0 :: sp1) :=
      runP_ext isSpc (c0 :: sp1) _ (fun x hx => hsp x hx) (by simp)
        (not_isSpc_of_svHead hsvr)
    have hsv2 : P.sievestring_s2c (SvW.render sv ++ ')' :: t) = .ok (')' :: t) (SvW.val sv) :=
      sv_ext hsv (')' :: t)
    rw [hsvr] at hsv2
    have hopt : popt (ppreceded space1P P.sievestring_s2c)
        (c0 :: (sp1 ++ (ch :: (svrest ++ ')' :: t))))
        = .ok (')' :: t) (some (SvW.val sv)) :=
      popt_ok (ppreceded_ok hsp1 (by simpa using hsv2))
    exact pterminated_ok (ppreceded_ok (tagP_exact ['('] _) (ppair_ok hatom hopt))
      (tagP_exact [')'] t)

theorem ppair_inv' {p : Parser α} {q : Parser β} {s r : List Char} {vw : α × β}
    (h : ppair p q s = .ok r vw) : ∃ m, p s = .ok m vw.1 ∧ q m = .ok r vw.2 := by
  rcases vw with ⟨v, w⟩
  exact ppair_inv h

/-- The body of `code` between the parentheses. -/
def codeBody : Parser (ResponseCode × Option (List Char)) :=
  ppair P.atomP (popt (ppreceded space1P P.sievestring_s2c))

theorem codeP_eq : P.codeP = pdelimited (tagP ['(']) codeBody (tagP [')']) := rfl

theorem codeP_inc_of_body_inc {s2 : List Char} (h : codeBody s2 = .incomplete) :
    P.codeP ('(' :: s2) = .incomplete := by
  rw [codeP_eq]
  unfold pdelimited
  exact pmap_inc _ (ppair_inc_l (pmap_inc _ (ppair_inc_r (tagP_exact ['('] s2) h)))

theorem codeP_inc_of_no_rparen {s2 : List Char} {v : ResponseCode × Option (List Char)}
    (h : codeBody s2 = .ok [] v) : P.codeP ('(' :: s2) = .incomplete := by
  rw [codeP_eq]
  unfold pdelimited
  exact pmap_inc _ (ppair_inc_r
    (ppreceded_ok (tagP_exact ['('] s2) h) (tagP_nil (by decide)))

/-- After a complete vocabulary word with nothing following, the optional
argument is still open (`space1` at end of input). -/
theorem codeBody_exact_word {w : List Char} {rc : ResponseCode}
    (hmem : (w, rc) ∈ P.vocab) : codeBody w = .incomplete := by
  rcases atom_exact hmem with hok | hinc
  · exact ppair_inc_r hok
      (popt_inc (pmap_inc _ (ppair_inc_l (runP_all (by simp)))))
  · exact ppair_inc_l hinc

theorem code_pref {cw : CodeW} (h : CodeOk cw) {q : List Char}
    (hpre : q <+: CodeW.render cw) (hne : q ≠ CodeW.render cw) :
    P.codeP q = .incomplete := by
  obtain ⟨hmem, harg⟩ := h
  rcases cw with ⟨w, rc, arg⟩
  cases q with
  | nil => exact code_nil
  | cons c1 q1 =>
    obtain ⟨u, hu⟩ := hpre
    rw [show CodeW.render ⟨w, rc, arg⟩
        = '(' :: (w ++ (optPart arg SvW.render ++ [')'])) from by
      rcases arg with _ | ⟨sp, sv⟩ <;> simp [CodeW.render, optPart],
      List.cons_append] at hu
    injection hu with h1 h2
    subst h1
    have hq1 : q1 <+: w ++ (optPart arg SvW.render ++ [')']) := ⟨u, h2⟩
    rcases prefix_split hq1 with hw | ⟨q2, rfl, hq2⟩
    · by_cases hfull : q1 = w
      · subst hfull
        exact codeP_inc_of_body_inc (codeBody_exact_word hmem)
      · exact codeP_inc_of_body_inc (ppair_inc_l (atom_pref hmem hw hfull))
    · rcases arg with _ | ⟨sp, sv⟩
      · -- no argument: q2 is a strict prefix of [')']
        simp only [optPart, List.nil_append] at hq2
        have hq2ne : q2 ≠ [')'] := by
          rintro rfl
          exact hne (by simp [CodeW.render, optPart])
        have hq20 : q2 = [] := prefix_cases1 hq2 hq2ne
        subst hq20
        rw [List.append_nil]
        exact codeP_inc_of_body_inc (codeBody_exact_word hmem)
      · -- argument present
        obtain ⟨⟨hspne, hsp⟩, hsv⟩ := harg
        rw [show optPart (some (sp, sv)) SvW.render ++ [')']
            = sp ++ (SvW.render sv ++ [')']) from by simp [optPart]] at hq2
        rcases prefix_split hq2 with hsp2 | ⟨q3, rfl, hq3⟩
        · -- inside the spaces
          have hall : ∀ x ∈ q2, isSpc x := by
            intro x hx
            obtain ⟨w2, hw2⟩ := hsp2
            exact hsp x (by rw [← hw2]; exact List.mem_append_left w2 hx)
          cases q2 with
          | nil =>
            rw [List.append_nil]
            exact codeP_inc_of_body_inc (codeBody_exact_word hmem)
          | cons c0 q2t =>
            have hatom : P.atomP (w ++ c0 :: q2t) = .ok (c0 :: q2t) rc :=
              atom_ext _ hmem (isSpc_ne_slash (hall c0 (by simp)))
            exact codeP_inc_of_body_inc (ppair_inc_r hatom
              (popt_inc (pmap_inc _ (ppair_inc_l (runP_all hall)))))
        · -- spaces complete; inside (or at the end of) the sieve-string
          rcases sp with _ | ⟨c0, sp1⟩
          · exact absurd rfl hspne
          have hc0 : isSpc c0 := hsp c0 (by simp)
          rcases prefix_split hq3 with hsv3 | ⟨q4, rfl, hq4⟩
          · cases q3 with
            | nil =>
              rw [List.append_nil]
              have hatom : P.atomP (w ++ c0 :: sp1) = .ok (c0 :: sp1) rc := by
                have := atom_ext sp1 hmem (isSpc_ne_slash hc0)
                simpa using this
              exact codeP_inc_of_body_inc (ppair_inc_r hatom
                (popt_inc (pmap_inc _ (ppair_inc_l
                  (runP_all (fun x hx => hsp x hx))))))
            | cons ch q3t =>
              have hch : isSpc ch = false := by
                obtain ⟨w3, hw3⟩ := hsv3
                rcases hsvr : SvW.render sv with _ | ⟨ch2, svrest⟩
                · exact absurd hsvr (svRender_ne_nil sv)
                rw [hsvr, List.cons_append] at hw3
                injection hw3 with he1 he2
                subst he1
                exact not_isSpc_of_svHead hsvr
              have hatom : P.atomP (w ++ (c0 :: sp1) ++ ch :: q3t)
                  = .ok (sp1 ++ ch :: q3t |> fun l => c0 :: l) rc := by
                have := atom_ext (sp1 ++ ch :: q3t) hmem (isSpc_ne_slash hc0)
                simpa using this
              have hspr : space1P ((c0 :: sp1) ++ ch :: q3t)
                  = .ok (ch :: q3t) (c0 :: sp1) :=
                runP_ext isSpc (c0 :: sp1) _ (fun x hx => hsp x hx) (by simp) hch
              by_cases hfull3 : ch :: q3t = SvW.render sv
              · have hsvok : P.sievestring_s2c (ch :: q3t) = .ok [] (SvW.val sv) := by
                  rw [hfull3]
                  have := sv_ext hsv []
                  rwa [List.append_nil] at this
                apply codeP_inc_of_no_rparen (v := (rc, some (SvW.val sv)))
                show ppair P.atomP (popt (ppreceded space1P P.sievestring_s2c)) _ = _
                exact ppair_ok (by simpa using hatom)
                  (popt_ok (ppreceded_ok hspr hsvok))
              · have hsvinc : P.sievestring_s2c (ch :: q3t) = .incomplete :=
                  sv_pref hsv hsv3 hfull3
                exact codeP_inc_of_body_inc (ppair_inc_r (by simpa using hatom)
                  (popt_inc (pmap_inc _ (ppair_inc_r hspr hsvinc))))
          · -- sieve-string complete; q4 is a strict prefix of [')']
            have hq4ne : q4 ≠ [')'] := by
              rintro rfl
              exact hne (by simp [CodeW.render, optPart])
            have hq40 : q4 = [] := prefix_cases1 hq4 hq4ne
            subst hq40
            rw [List.append_nil]
            have hatom : P.atomP (w ++ c0 :: (sp1 ++ SvW.render sv))
                = .ok (c0 :: (sp1 ++ SvW.render sv)) rc :=
              atom_ext (sp1 ++ SvW.render sv) hmem (isSpc_ne_slash hc0)
            have hspr : space1P ((c0 :: sp1) ++ SvW.render sv)
                = .ok (SvW.render sv) (c0 :: sp1) := by
              rcases hsvr : SvW.render sv with _ | ⟨ch, svrest⟩
              · exact absurd hsvr (svRender_ne_nil sv)
              · exact runP_ext isSpc (c0 :: sp1) _ (fun x hx => hsp x hx) (by simp)
                  (not_isSpc_of_svHead hsvr)
            have hsvok : P.sievestring_s2c (SvW.render sv) = .ok [] (SvW.val sv) := by
              have := sv_ext hsv []
              rwa [List.append_nil] at this
            apply codeP_inc_of_no_rparen (v := (rc, some (SvW.val sv)))
            show ppair P.atomP (popt (ppreceded space1P P.sievestring_s2c)) _ = _
            exact ppair_ok hatom (popt_ok (ppreceded_ok hspr hsvok))

theorem code_inv {s r : List Char} {v : ResponseCode × Option (List Char)}
    (h : P.codeP s = .ok r v) :
    ∃ cw, CodeOk cw ∧ s = CodeW.render cw ++ r ∧ v = CodeW.val cw := by
  rw [codeP_eq] at h
  unfold pdelimited at h
  obtain ⟨p1, hp1, hv1⟩ := pmap_inv h
  obtain ⟨m1, h1, h2⟩ := ppair_inv' hp1
  obtain ⟨p2, hp2, hv2⟩ := pmap_inv h1
  obtain ⟨m2, h3, h4⟩ := ppair_inv' hp2
  obtain ⟨hs3, hvtag⟩ := tagP_inv h3
  obtain ⟨m3, h5, h6⟩ := ppair_inv' h4
  obtain ⟨w, hwmem, hm2⟩ := atom_inv h5
  obtain ⟨hm1r, hvrp⟩ := tagP_inv h2
  rcases popt_inv h6 with ⟨hnone, hmeq, hperr⟩ | ⟨argv, hsome, hargp⟩
  · refine ⟨⟨w, p2.2.1, none⟩, ⟨hwmem, trivial⟩, ?_, ?_⟩
    · rw [hs3, hm2, ← hmeq, hm1r]
      simp [CodeW.render, optPart]
    · rw [hv1, hv2, show p2.2 = (p2.2.1, p2.2.2) from rfl, hnone]
      rfl
  · obtain ⟨p4, hp4, hv4⟩ := pmap_inv hargp
    obtain ⟨m4, h7, h8⟩ := ppair_inv' hp4
    obtain ⟨sp, cst, tr, hm3s, hm4, hvsp, hspne, hspall, hcst⟩ := runP_inv h7
    obtain ⟨svw, hsvok, hm4s, hvsv⟩ := sv_inv h8
    refine ⟨⟨w, p2.2.1, some (sp, svw)⟩, ⟨hwmem, ⟨hspne, hspall⟩, hsvok⟩, ?_, ?_⟩
    · rw [hs3, hm2, hm3s, show cst :: tr = SvW.render svw ++ m1 from hm4 ▸ hm4s, hm1r]
      simp [CodeW.render, optPart]
    · rw [hv1, hv2, show p2.2 = (p2.2.1, p2.2.2) from rfl, hsome, hv4, hvsv]
      rfl


/-! ### Tag-line characterization -/

/-- The optional response-code part of a tag line. -/
def opt1P : Parser (Option (ResponseCode × Option (List Char))) :=
  popt (ppreceded space1P P.codeP)

/-- The optional human-readable part of a tag line. -/
def opt2P : Parser (Option (List Char)) :=
  popt (ppreceded space1P P.quoted_string)

theorem tagLine_eq (tp : Parser OkNoBye) :
    P.tagLine tp
      = pterminated (pmap (fun p => ⟨p.1.1, p.1.2, p.2⟩)
          (ppair (ppair tp opt1P) opt2P)) crlfP := rfl

theorem tagLine_ok_parts {tp : Parser OkNoBye} {s m1 m2 r t : List Char} {tg o1 o2 u}
    (h1 : tp s = .ok m1 tg) (h2 : opt1P m1 = .ok m2 o1) (h3 : opt2P m2 = .ok r o2)
    (h4 : crlfP r = .ok t u) : P.tagLine tp s = .ok t ⟨tg, o1, o2⟩ := by
  rw [tagLine_eq]
  exact pterminated_ok (pmap_ok _ (ppair_ok (ppair_ok h1 h2) h3)) h4

theorem tagLine_inc_tp {tp : Parser OkNoBye} {s : List Char}
    (h : tp s = .incomplete) : P.tagLine tp s = .incomplete := by
  rw [tagLine_eq]
  exact pmap_inc _ (ppair_inc_l (pmap_inc _ (ppair_inc_l (ppair_inc_l h))))

theorem tagLine_err_tp {tp : Parser OkNoBye} {s : List Char}
    (h : tp s = .err) : P.tagLine tp s = .err := by
  rw [tagLine_eq]
  exact pmap_err _ (ppair_err_l (pmap_err _ (ppair_err_l (ppair_err_l h))))

theorem tagLine_inc_opt1 {tp : Parser OkNoBye} {s m1 : List Char} {tg}
    (h1 : tp s = .ok m1 tg) (h2 : opt1P m1 = .incomplete) :
    P.tagLine tp s = .incomplete := by
  rw [tagLine_eq]
  exact pmap_inc _ (ppair_inc_l (pmap_inc _ (ppair_inc_l (ppair_inc_r h1 h2))))

theorem tagLine_inc_opt2 {tp : Parser OkNoBye} {s m1 m2 : List Char} {tg o1}
    (h1 : tp s = .ok m1 tg) (h2 : opt1P m1 = .ok m2 o1) (h3 : opt2P m2 = .incomplete) :
    P.tagLine tp s = .incomplete := by
  rw [tagLine_eq]
  exact pmap_inc _ (ppair_inc_l (pmap_inc _ (ppair_inc_r (ppair_ok h1 h2) h3)))

theorem tagLine_inc_crlf {tp : Parser OkNoBye} {s m1 m2 r : List Char} {tg o1 o2}
    (h1 : tp s = .ok m1 tg) (h2 : opt1P m1 = .ok m2 o1) (h3 : opt2P m2 = .ok r o2)
    (h4 : crlfP r = .incomplete) : P.tagLine tp s = .incomplete := by
  rw [tagLine_eq]
  exact pmap_inc _ (ppair_inc_r (pmap_ok _ (ppair_ok (ppair_ok h1 h2) h3)) h4)

theorem opt1_spaces_inc {q : List Char} (h : ∀ x ∈ q, isSpc x) :
    opt1P q = .incomplete :=
  popt_inc (pmap_inc _ (ppair_inc_l (runP_all h)))

theorem opt2_spaces_inc {q : List Char} (h : ∀ x ∈ q, isSpc x) :
    opt2P q = .incomplete :=
  popt_inc (pmap_inc _ (ppair_inc_l (runP_all h)))

theorem opt1_nil : opt1P [] = .incomplete := opt1_spaces_inc (by simp)

theorem opt2_nil : opt2P [] = .incomplete := opt2_spaces_inc (by simp)

theorem opt1_cr (t : List Char) : opt1P ('\r' :: t) = .ok ('\r' :: t) none :=
  popt_none (pmap_err _ (ppair_err_l (runP_err_head (by decide))))

theorem opt2_cr (t : List Char) : opt2P ('\r' :: t) = .ok ('\r' :: t) none :=
  popt_none (pmap_err _ (ppair_err_l (runP_err_head (by decide))))

theorem opt1_code {sp : List Char} {cw : CodeW} (hspne : sp ≠ [])
    (hsp : ∀ c ∈ sp, isSpc c) (hcw : CodeOk cw) (t : List Char) :
    opt1P (sp ++ (CodeW.render cw ++ t)) = .ok t (some (CodeW.val cw)) := by
  rcases sp with _ | ⟨c0, sp1⟩
  · exact absurd rfl hspne
  have hrb : CodeW.render cw ++ t = '(' :: ((cw.w ++ (match cw.arg with
      | none => []
      | some (sp2, sv) => sp2 ++ sv.render) ++ [')']) ++ t) := by
    simp [CodeW.render]
  have hspr : space1P ((c0 :: sp1) ++ (CodeW.render cw ++ t))
      = .ok (CodeW.render cw ++ t) (c0 :: sp1) := by
    rw [hrb]
    exact runP_ext isSpc (c0 :: sp1) _ (fun x hx => hsp x hx) (by simp) (by decide)
  exact popt_ok (ppreceded_ok hspr (code_ext hcw t))

theorem opt1_quote {sp rest : List Char} (hspne : sp ≠ [])
    (hsp : ∀ c ∈ sp, isSpc c) :
    opt1P (sp ++ '"' :: rest) = .ok (sp ++ '"' :: rest) none := by
  rcases sp with _ | ⟨c0, sp1⟩
  · exact absurd rfl hspne
  have hspr : space1P ((c0 :: sp1) ++ '"' :: rest) = .ok ('"' :: rest) (c0 :: sp1) :=
    runP_ext isSpc (c0 :: sp1) _ (fun x hx => hsp x hx) (by simp) (by decide)
  exact popt_none (pmap_err _ (ppair_err_r hspr (code_err_head (by decide))))

theorem opt2_human {sp : List Char} {items : List QI} (hspne : sp ≠ [])
    (hsp : ∀ c ∈ sp, isSpc c) (hok : QsOk items) (t : List Char) :
    opt2P (sp ++ (qsRender items ++ t)) = .ok t (some (qVal items)) := by
  rcases sp with _ | ⟨c0, sp1⟩
  · exact absurd rfl hspne
  have hq : qsRender items ++ t = '"' :: ((qRender items ++ ['"']) ++ t) := by
    simp [qsRender]
  have hspr : space1P ((c0 :: sp1) ++ (qsRender items ++ t))
      = .ok (qsRender items ++ t) (c0 :: sp1) := by
    rw [hq]
    exact runP_ext isSpc (c0 :: sp1) _ (fun x hx => hsp x hx) (by simp) (by decide)
  exact popt_ok (ppreceded_ok hspr (quoted_string_ext items hok t))

theorem opt1_code_pref {sp q2 : List Char} {cw : CodeW} (hspne : sp ≠ [])
    (hsp : ∀ c ∈ sp, isSpc c) (hcw : CodeOk cw)
    (hpre : q2 <+: CodeW.render cw) (hq2ne : q2 ≠ CodeW.render cw) (hne : q2 ≠ []) :
    opt1P (sp ++ q2) = .incomplete := by
  rcases sp with _ | ⟨c0, sp1⟩
  · exact absurd rfl hspne
  rcases q2 with _ | ⟨c2, q2t⟩
  · exact absurd rfl hne
  have hc2 : c2 = '(' := by
    obtain ⟨u, hu⟩ := hpre
    rw [show CodeW.render cw = '(' :: (cw.w ++ (match cw.arg with
        | none => []
        | some (sp2, sv) => sp2 ++ sv.render) ++ [')']) from by simp [CodeW.render],
      List.cons_append] at hu
    exact (List.cons_eq_cons.mp hu).1
  have hspr : space1P ((c0 :: sp1) ++ c2 :: q2t) = .ok (c2 :: q2t) (c0 :: sp1) :=
    runP_ext isSpc (c0 :: sp1) _ (fun x hx => hsp x hx) (by simp) (by rw [hc2]; decide)
  exact popt_inc (pmap_inc _ (ppair_inc_r hspr (code_pref hcw hpre hq2ne)))

theorem opt2_quote_pref {sp q2 : List Char} {items : List QI} (hspne : sp ≠ [])
    (hsp : ∀ c ∈ sp, isSpc c) (hok : QsOk items)
    (hpre : q2 <+: qsRender items) (hq2ne : q2 ≠ qsRender items) (hne : q2 ≠ []) :
    opt2P (sp ++ q2) = .incomplete := by
  rcases sp with _ | ⟨c0, sp1⟩
  · exact absurd rfl hspne
  rcases q2 with _ | ⟨c2, q2t⟩
  · exact absurd rfl hne
  have hc2 : c2 = '"' := by
    obtain ⟨u, hu⟩ := hpre
    rw [show qsRender items = '"' :: (qRender items ++ ['"']) from by simp [qsRender],
      List.cons_append] at hu
    exact (List.cons_eq_cons.mp hu).1
  have hspr : space1P ((c0 :: sp1) ++ c2 :: q2t) = .ok (c2 :: q2t) (c0 :: sp1) :=
    runP_ext isSpc (c0 :: sp1) _ (fun x hx => hsp x hx) (by simp) (by rw [hc2]; decide)
  exact popt_inc (pmap_inc _ (ppair_inc_r hspr (quoted_string_pref items hok hpre hq2ne)))


theorem text_of_low2 {a b : Char} {m : List Char}
    (h : lowStr m = lowStr [a, b]) :
    ∃ c0 c1, m = [c0, c1] ∧ c0.toLower = a.toLower ∧ c1.toLower = b.toLower := by
  rcases m with _ | ⟨c0, _ | ⟨c1, _ | ⟨c2, mt⟩⟩⟩ <;> simp [lowStr] at h
  exact ⟨c0, c1, rfl, h.1, h.2⟩

theorem text_of_low3 {a b c : Char} {m : List Char}
    (h : lowStr m = lowStr [a, b, c]) :
    ∃ c0 c1 c2, m = [c0, c1, c2] ∧ c0.toLower = a.toLower ∧ c1.toLower = b.toLower ∧
      c2.toLower = c.toLower := by
  rcases m with _ | ⟨c0, _ | ⟨c1, _ | ⟨c2, _ | ⟨c3, mt⟩⟩⟩⟩ <;> simp [lowStr] at h
  exact ⟨c0, c1, c2, rfl, h.1, h.2.1, h.2.2⟩

/-- The texts `ok` accepts (any caseless variant of OK), with the status
it produces. -/
def OkTP (text : List Char) (v : OkNoBye) : Prop :=
  lowStr text = lowStr "OK".toList ∧ v = .Ok

/-- The texts `nobye` accepts (caseless NO or BYE), with the status. -/
def NobyeTP (text : List Char) (v : OkNoBye) : Prop :=
  (lowStr text = lowStr "NO".toList ∧ v = .No) ∨
    (lowStr text = lowStr "BYE".toList ∧ v = .Bye)

theorem okT_ext (text : List Char) (v : OkNoBye) (h : OkTP text v) (t : List Char) :
    P.okT (text ++ t) = .ok t v := by
  obtain ⟨hlow, rfl⟩ := h
  exact pvalue_ok _ (tagNoCaseP_ext hlow t)

theorem okT_pref (text : List Char) (v : OkNoBye) (q : List Char) (h : OkTP text v)
    (hpre : q <+: text) (hne : q ≠ text) : P.okT q = .incomplete :=
  pvalue_inc _ (tagNoCaseP_pref h.1 hpre hne)

theorem okT_inv (s r : List Char) (v : OkNoBye) (h : P.okT s = .ok r v) :
    ∃ text, OkTP text v ∧ s = text ++ r := by
  obtain ⟨⟨m', hp⟩, hv⟩ := pvalue_inv h
  obtain ⟨m, hlow, hs, -⟩ := tagNoCaseP_inv hp
  exact ⟨m, ⟨hlow, hv⟩, hs⟩

theorem noT_err_of_b {c0 : Char} {s : List Char} (h0 : c0.toLower = 'b') :
    P.noT (c0 :: s) = .err := by
  refine pvalue_err _ ?_
  rw [show ("NO".toList : List Char) = 'N' :: "O".toList from rfl]
  exact tagNoCaseP_err_head (by rw [h0]; decide)

theorem nobyeT_ext (text : List Char) (v : OkNoBye) (h : NobyeTP text v)
    (t : List Char) : P.nobyeT (text ++ t) = .ok t v := by
  rcases h with ⟨hlow, rfl⟩ | ⟨hlow, rfl⟩
  · exact palt_ok_l (pvalue_ok _ (tagNoCaseP_ext hlow t))
  · obtain ⟨c0, c1, c2, rfl, h0, h1, h2⟩ := text_of_low3 hlow
    rw [show P.nobyeT = palt P.noT P.byeT from rfl, List.cons_append,
      palt_err_l (noT_err_of_b (s := [c1, c2] ++ t) h0)]
    exact pvalue_ok _ (tagNoCaseP_ext hlow t)

theorem nobyeT_pref (text : List Char) (v : OkNoBye) (q : List Char)
    (h : NobyeTP text v) (hpre : q <+: text) (hne : q ≠ text) :
    P.nobyeT q = .incomplete := by
  rcases h with ⟨hlow, -⟩ | ⟨hlow, -⟩
  · exact palt_inc_l (pvalue_inc _ (tagNoCaseP_pref hlow hpre hne))
  · obtain ⟨c0, c1, c2, rfl, h0, h1, h2⟩ := text_of_low3 hlow
    rcases q with _ | ⟨q0, qt⟩
    · exact palt_inc_l (pvalue_inc _ (by decide))
    · have hq0 : q0 = c0 := by
        obtain ⟨u, hu⟩ := hpre
        rw [List.cons_append] at hu
        exact (List.cons_eq_cons.mp hu).1
      subst hq0
      rw [show P.nobyeT = palt P.noT P.byeT from rfl,
        palt_err_l (noT_err_of_b (s := qt) h0)]
      exact pvalue_inc _ (tagNoCaseP_pref hlow hpre hne)

theorem nobyeT_inv (s r : List Char) (v : OkNoBye) (h : P.nobyeT s = .ok r v) :
    ∃ text, NobyeTP text v ∧ s = text ++ r := by
  rcases palt_inv h with hno | ⟨-, hbye⟩
  · obtain ⟨⟨m', hp⟩, hv⟩ := pvalue_inv hno
    obtain ⟨m, hlow, hs, -⟩ := tagNoCaseP_inv hp
    exact ⟨m, .inl ⟨hlow, hv⟩, hs⟩
  · obtain ⟨⟨m', hp⟩, hv⟩ := pvalue_inv hbye
    obtain ⟨m, hlow, hs, -⟩ := tagNoCaseP_inv hp
    exact ⟨m, .inr ⟨hlow, hv⟩, hs⟩

theorem opt1_inv {s r : List Char} {o} (h : opt1P s = .ok r o) :
    (o = none ∧ r = s) ∨
      ∃ sp cw, SpOk sp ∧ CodeOk cw ∧ s = sp ++ (CodeW.render cw ++ r) ∧
        o = some (CodeW.val cw) := by
  rcases popt_inv h with ⟨ho, hr, -⟩ | ⟨a, ho, hp⟩
  · exact .inl ⟨ho, hr⟩
  · unfold ppreceded at hp
    obtain ⟨p1, hp1, hv1⟩ := pmap_inv hp
    obtain ⟨m, h1, h2⟩ := ppair_inv' hp1
    obtain ⟨run, c, t2, hs, hm, hvsp, hrunne, hrun, hc⟩ := runP_inv h1
    obtain ⟨cw, hcw, hmr, hvc⟩ := code_inv h2
    refine .inr ⟨run, cw, ⟨hrunne, hrun⟩, hcw, ?_, ?_⟩
    · rw [hs, ← hm, hmr]
    · rw [ho, hv1, hvc]

theorem opt2_inv {s r : List Char} {o} (h : opt2P s = .ok r o) :
    (o = none ∧ r = s) ∨
      ∃ sp items, SpOk sp ∧ QsOk items ∧ s = sp ++ (qsRender items ++ r) ∧
        o = some (qVal items) := by
  rcases popt_inv h with ⟨ho, hr, -⟩ | ⟨a, ho, hp⟩
  · exact .inl ⟨ho, hr⟩
  · unfold ppreceded at hp
    obtain ⟨p1, hp1, hv1⟩ := pmap_inv hp
    obtain ⟨m, h1, h2⟩ := ppair_inv' hp1
    obtain ⟨run, c, t2, hs, hm, hvsp, hrunne, hrun, hc⟩ := runP_inv h1
    obtain ⟨items, hok, hmr, hv⟩ := quoted_string_inv h2
    refine .inr ⟨run, items, ⟨hrunne, hrun⟩, hok, ?_, ?_⟩
    · rw [hs, ← hm, hmr]
    · rw [ho, hv1, hv]

theorem tagLine_ext {tp : Parser OkNoBye} {TP : List Char → OkNoBye → Prop}
    (hext : ∀ text v, TP text v → ∀ t, tp (text ++ t) = .ok t v)
    {lw : LineW} {tg : OkNoBye} (hok : LineOk lw) (htp : TP lw.text tg)
    (t : List Char) :
    P.tagLine tp (LineW.render lw ++ t) = .ok t (LineW.val lw tg) := by
  obtain ⟨hcode, hhuman⟩ := hok
  rcases lw with ⟨text, _ | ⟨sp, cw⟩, _ | ⟨sp2, its⟩⟩
  · have h1 := hext text tg htp ('\r' :: '\n' :: t)
    rw [show LineW.render ⟨text, none, none⟩ ++ t = text ++ ('\r' :: '\n' :: t)
      from by simp [LineW.render, optPart]]
    exact tagLine_ok_parts h1 (opt1_cr _) (opt2_cr _) (tagP_exact ['\r', '\n'] t)
  · obtain ⟨hsp2ok, hits⟩ := hhuman
    have h1 := hext text tg htp (sp2 ++ (qsRender its ++ ('\r' :: '\n' :: t)))
    rw [show LineW.render ⟨text, none, some (sp2, its)⟩ ++ t
        = text ++ (sp2 ++ (qsRender its ++ ('\r' :: '\n' :: t)))
      from by simp [LineW.render, optPart]]
    have h2 : opt1P (sp2 ++ (qsRender its ++ ('\r' :: '\n' :: t)))
        = .ok (sp2 ++ (qsRender its ++ ('\r' :: '\n' :: t))) none := by
      rw [show qsRender its ++ ('\r' :: '\n' :: t)
          = '"' :: ((qRender its ++ ['"']) ++ ('\r' :: '\n' :: t))
        from by simp [qsRender]]
      exact opt1_quote hsp2ok.1 hsp2ok.2
    exact tagLine_ok_parts h1 h2 (opt2_human hsp2ok.1 hsp2ok.2 hits _)
      (tagP_exact ['\r', '\n'] t)
  · obtain ⟨hspok, hcw⟩ := hcode
    have h1 := hext text tg htp (sp ++ (CodeW.render cw ++ ('\r' :: '\n' :: t)))
    rw [show LineW.render ⟨text, some (sp, cw), none⟩ ++ t
        = text ++ (sp ++ (CodeW.render cw ++ ('\r' :: '\n' :: t)))
      from by simp [LineW.render, optPart]]
    exact tagLine_ok_parts h1 (opt1_code hspok.1 hspok.2 hcw _) (opt2_cr _)
      (tagP_exact ['\r', '\n'] t)
  · obtain ⟨hspok, hcw⟩ := hcode
    obtain ⟨hsp2ok, hits⟩ := hhuman
    have h1 := hext text tg htp
      (sp ++ (CodeW.render cw ++ (sp2 ++ (qsRender its ++ ('\r' :: '\n' :: t)))))
    rw [show LineW.render ⟨text, some (sp, cw), some (sp2, its)⟩ ++ t
        = text ++ (sp ++ (CodeW.render cw ++ (sp2 ++ (qsRender its ++ ('\r' :: '\n' :: t)))))
      from by simp [LineW.render, optPart]]
    exact tagLine_ok_parts h1 (opt1_code hspok.1 hspok.2 hcw _)
      (opt2_human hsp2ok.1 hsp2ok.2 hits _) (tagP_exact ['\r', '\n'] t)


theorem tagLine_pref {tp : Parser OkNoBye} {TP : List Char → OkNoBye → Prop}
    (hext : ∀ text v, TP text v → ∀ t, tp (text ++ t) = .ok t v)
    (hpref : ∀ text v q, TP text v → q <+: text → q ≠ text → tp q = .incomplete)
    {lw : LineW} {tg : OkNoBye} (hok : LineOk lw) (htp : TP lw.text tg)
    {q : List Char} (hpre : q <+: LineW.render lw) (hne : q ≠ LineW.render lw) :
    P.tagLine tp q = .incomplete := by
  obtain ⟨hcode, hhuman⟩ := hok
  rcases lw with ⟨text, codeArg, humanArg⟩
  rw [show LineW.render ⟨text, codeArg, humanArg⟩
      = text ++ (optPart codeArg CodeW.render ++ (optPart humanArg qsRender ++ ['\r', '\n']))
    from rfl] at hpre hne
  rcases prefix_split hpre with hqt | ⟨q1, rfl, hq1⟩
  · by_cases hfull : q = text
    · subst hfull
      have h1 : tp q = .ok [] tg := by
        have := hext q tg htp []
        rwa [List.append_nil] at this
      exact tagLine_inc_opt1 h1 opt1_nil
    · exact tagLine_inc_tp (hpref text tg q htp hqt hfull)
  · have h1 : tp (text ++ q1) = .ok q1 tg := hext text tg htp q1
    rcases codeArg with _ | ⟨sp, cw⟩
    · -- no response code
      rw [show optPart (none : Option (List Char × CodeW)) CodeW.render
          ++ (optPart humanArg qsRender ++ ['\r', '\n'])
          = optPart humanArg qsRender ++ ['\r', '\n'] from by simp [optPart]]
        at hq1 hne
      rcases humanArg with _ | ⟨sp2, its⟩
      · -- neither part: q1 a strict prefix of CRLF
        rw [show optPart (none : Option (List Char × List QI)) qsRender ++ ['\r', '\n']
            = ['\r', '\n'] from by simp [optPart]] at hq1 hne
        have hq1ne : q1 ≠ ['\r', '\n'] := by
          rintro rfl
          exact hne rfl
        rcases prefix_cases2 hq1 hq1ne with rfl | rfl
        · rw [List.append_nil] at h1 ⊢
          exact tagLine_inc_opt1 h1 opt1_nil
        · exact tagLine_inc_crlf h1 (opt1_cr []) (opt2_cr []) (by decide)
      · -- human string only
        obtain ⟨⟨hspne2, hsp2⟩, hits⟩ := hhuman
        rw [show optPart (some (sp2, its)) qsRender ++ ['\r', '\n']
            = sp2 ++ (qsRender its ++ ['\r', '\n']) from by simp [optPart]]
          at hq1 hne
        rcases prefix_split hq1 with hq1s | ⟨q2, rfl, hq2⟩
        · have hall : ∀ x ∈ q1, isSpc x := by
            intro x hx
            obtain ⟨u, hu⟩ := hq1s
            exact hsp2 x (by rw [← hu]; exact List.mem_append_left u hx)
          exact tagLine_inc_opt1 h1 (opt1_spaces_inc hall)
        · rcases prefix_split hq2 with hq2s | ⟨q3, rfl, hq3⟩
          · by_cases hfull2 : q2 = qsRender its
            · subst hfull2
              have h2 : opt1P (sp2 ++ qsRender its)
                  = .ok (sp2 ++ qsRender its) none := by
                rw [show qsRender its = '"' :: (qRender its ++ ['"'])
                  from by simp [qsRender]]
                exact opt1_quote hspne2 hsp2
              have h3 : opt2P (sp2 ++ qsRender its) = .ok [] (some (qVal its)) := by
                have := opt2_human hspne2 hsp2 hits []
                rwa [List.append_nil] at this
              exact tagLine_inc_crlf h1 h2 h3 (by decide)
            · by_cases hq20 : q2 = []
              · subst hq20
                refine tagLine_inc_opt1 h1 (opt1_spaces_inc ?_)
                intro x hx
                rw [List.append_nil] at hx
                exact hsp2 x hx
              · rcases q2 with _ | ⟨c2, q2t⟩
                · exact absurd rfl hq20
                have hc2 : c2 = '"' := by
                  obtain ⟨u, hu⟩ := hq2s
                  rw [show qsRender its = '"' :: (qRender its ++ ['"'])
                    from by simp [qsRender], List.cons_append] at hu
                  exact (List.cons_eq_cons.mp hu).1
                subst hc2
                have h2 : opt1P (sp2 ++ '"' :: q2t)
                    = .ok (sp2 ++ '"' :: q2t) none := opt1_quote hspne2 hsp2
                exact tagLine_inc_opt2 h1 h2
                  (opt2_quote_pref hspne2 hsp2 hits hq2s hfull2 hq20)
          · -- quoted string complete, inside CRLF
            have hq3ne : q3 ≠ ['\r', '\n'] := by
              rintro rfl
              exact hne rfl
            rcases prefix_cases2 hq3 hq3ne with rfl | rfl
            · rw [List.append_nil] at h1 ⊢
              have h2 : opt1P (sp2 ++ qsRender its)
                  = .ok (sp2 ++ qsRender its) none := by
                rw [show qsRender its = '"' :: (qRender its ++ ['"'])
                  from by simp [qsRender]]
                exact opt1_quote hspne2 hsp2
              have h3 : opt2P (sp2 ++ qsRender its) = .ok [] (some (qVal its)) := by
                have := opt2_human hspne2 hsp2 hits []
                rwa [List.append_nil] at this
              exact tagLine_inc_crlf h1 h2 h3 (by decide)
            · have h2 : opt1P (sp2 ++ (qsRender its ++ ['\r']))
                  = .ok (sp2 ++ (qsRender its ++ ['\r'])) none := by
                rw [show qsRender its ++ ['\r']
                    = '"' :: ((qRender its ++ ['"']) ++ ['\r'])
                  from by simp [qsRender]]
                exact opt1_quote hspne2 hsp2
              exact tagLine_inc_crlf h1 h2
                (opt2_human hspne2 hsp2 hits ['\r']) (by decide)
    · -- response code present
      obtain ⟨⟨hspne, hsp⟩, hcw⟩ := hcode
      rw [show optPart (some (sp, cw)) CodeW.render
          ++ (optPart humanArg qsRender ++ ['\r', '\n'])
          = sp ++ (CodeW.render cw ++ (optPart humanArg qsRender ++ ['\r', '\n']))
        from by simp [optPart]] at hq1 hne
      rcases prefix_split hq1 with hq1s | ⟨q2, rfl, hq2⟩
      · have hall : ∀ x ∈ q1, isSpc x := by
          intro x hx
          obtain ⟨u, hu⟩ := hq1s
          exact hsp x (by rw [← hu]; exact List.mem_append_left u hx)
        exact tagLine_inc_opt1 h1 (opt1_spaces_inc hall)
      · rcases prefix_split hq2 with hq2s | ⟨q3, rfl, hq3⟩
        · by_cases hfull2 : q2 = CodeW.render cw
          · subst hfull2
            have h2 : opt1P (sp ++ CodeW.render cw)
                = .ok [] (some (CodeW.val cw)) := by
              have := opt1_code hspne hsp hcw []
              rwa [List.append_nil] at this
            exact tagLine_inc_opt2 h1 h2 opt2_nil
          · by_cases hq20 : q2 = []
            · subst hq20
              refine tagLine_inc_opt1 h1 (opt1_spaces_inc ?_)
              intro x hx
              rw [List.append_nil] at hx
              exact hsp x hx
            · exact tagLine_inc_opt1 h1
                (opt1_code_pref hspne hsp hcw hq2s hfull2 hq20)
        · -- code complete, q3 in the remaining parts
          have h2 := opt1_code hspne hsp hcw q3
          rcases humanArg with _ | ⟨sp2, its⟩
          · rw [show optPart (none : Option (List Char × List QI)) qsRender ++ ['\r', '\n']
                = ['\r', '\n'] from by simp [optPart]] at hq3 hne
            have hq3ne : q3 ≠ ['\r', '\n'] := by
              rintro rfl
              exact hne rfl
            rcases prefix_cases2 hq3 hq3ne with rfl | rfl
            · rw [List.append_nil] at h1 h2 ⊢
              exact tagLine_inc_opt2 h1 h2 opt2_nil
            · exact tagLine_inc_crlf h1 h2 (opt2_cr []) (by decide)
          · obtain ⟨⟨hspne2, hsp2⟩, hits⟩ := hhuman
            rw [show optPart (some (sp2, its)) qsRender ++ ['\r', '\n']
                = sp2 ++ (qsRender its ++ ['\r', '\n']) from by simp [optPart]]
              at hq3 hne
            rcases prefix_split hq3 with hq3s | ⟨q4, rfl, hq4⟩
            · have hall : ∀ x ∈ q3, isSpc x := by
                intro x hx
                obtain ⟨u, hu⟩ := hq3s
                exact hsp2 x (by rw [← hu]; exact List.mem_append_left u hx)
              exact tagLine_inc_opt2 h1 h2 (opt2_spaces_inc hall)
            · rcases prefix_split hq4 with hq4s | ⟨q5, rfl, hq5⟩
              · by_cases hfull4 : q4 = qsRender its
                · subst hfull4
                  have h3 : opt2P (sp2 ++ qsRender its)
                      = .ok [] (some (qVal its)) := by
                    have := opt2_human hspne2 hsp2 hits []
                    rwa [List.append_nil] at this
                  exact tagLine_inc_crlf h1 h2 h3 (by decide)
                · by_cases hq40 : q4 = []
                  · subst hq40
                    refine tagLine_inc_opt2 h1 h2 (opt2_spaces_inc ?_)
                    intro x hx
                    rw [List.append_nil] at hx
                    exact hsp2 x hx
                  · exact tagLine_inc_opt2 h1 h2
                      (opt2_quote_pref hspne2 hsp2 hits hq4s hfull4 hq40)
              · have hq5ne : q5 ≠ ['\r', '\n'] := by
                  rintro rfl
                  exact hne rfl
                rcases prefix_cases2 hq5 hq5ne with rfl | rfl
                · rw [List.append_nil] at h1 h2 ⊢
                  have h3 : opt2P (sp2 ++ qsRender its)
                      = .ok [] (some (qVal its)) := by
                    have := opt2_human hspne2 hsp2 hits []
                    rwa [List.append_nil] at this
                  exact tagLine_inc_crlf h1 h2 h3 (by decide)
                · exact tagLine_inc_crlf h1 h2
                    (opt2_human hspne2 hsp2 hits ['\r']) (by decide)

theorem tagLine_inv {tp : Parser OkNoBye} {TP : List Char → OkNoBye → Prop}
    (hinv : ∀ s r v, tp s = .ok r v → ∃ text, TP text v ∧ s = text ++ r)
    {s r : List Char} {v : Response} (h : P.tagLine tp s = .ok r v) :
    ∃ lw tg, LineOk lw ∧ TP lw.text tg ∧ s = LineW.render lw ++ r ∧
      v = LineW.val lw tg := by
  rw [tagLine_eq] at h
  unfold pterminated at h
  obtain ⟨p1, hp1, hv1⟩ := pmap_inv h
  obtain ⟨m1, ha, hb⟩ := ppair_inv' hp1
  obtain ⟨p2, hp2, hv2⟩ := pmap_inv ha
  obtain ⟨m2, hc, hd⟩ := ppair_inv' hp2
  obtain ⟨m3, he, hf⟩ := ppair_inv' hc
  obtain ⟨text, htp, hs⟩ := hinv _ _ _ he
  obtain ⟨hm1, -⟩ := tagP_inv hb
  rcases opt1_inv hf with ⟨ho1, hmeq1⟩ | ⟨sp, cw, hspok, hcw, hm3, ho1⟩ <;>
    rcases opt2_inv hd with ⟨ho2, hmeq2⟩ | ⟨sp2, its, hsp2ok, hits, hm2, ho2⟩
  · refine ⟨⟨text, none, none⟩, p2.1.1, ⟨trivial, trivial⟩, htp, ?_, ?_⟩
    · rw [hs, ← hmeq1, ← hmeq2, hm1]
      simp [LineW.render, optPart]
    · rw [hv1, hv2]
      simp [LineW.val, ho1, ho2]
  · refine ⟨⟨text, none, some (sp2, its)⟩, p2.1.1, ⟨trivial, hsp2ok, hits⟩, htp,
      ?_, ?_⟩
    · rw [hs, ← hmeq1, hm2, hm1]
      simp [LineW.render, optPart]
    · rw [hv1, hv2]
      simp [LineW.val, ho1, ho2]
  · refine ⟨⟨text, some (sp, cw), none⟩, p2.1.1, ⟨⟨hspok, hcw⟩, trivial⟩, htp,
      ?_, ?_⟩
    · rw [hs, hm3, ← hmeq2, hm1]
      simp [LineW.render, optPart]
    · rw [hv1, hv2]
      simp [LineW.val, ho1, ho2]
  · refine ⟨⟨text, some (sp, cw), some (sp2, its)⟩, p2.1.1,
      ⟨⟨hspok, hcw⟩, hsp2ok, hits⟩, htp, ?_, ?_⟩
    · rw [hs, hm3, hm2, hm1]
      simp [LineW.render, optPart]
    · rw [hv1, hv2]
      simp [LineW.val, ho1, ho2]


/-! ### Response (tag-line alternation) characterization -/

theorem okT_err_of_head {c0 : Char} {s : List Char} (h : c0.toLower ≠ 'o') :
    P.okT (c0 :: s) = .err := by
  refine pvalue_err _ ?_
  rw [show ("OK".toList : List Char) = 'O' :: "K".toList from rfl]
  exact tagNoCaseP_err_head (fun hc => h (hc.trans (by decide)))

theorem resp_ext {w : RespW} (h : RespOk w) (t : List Char) :
    P.response (RespW.render w ++ t) = .ok t (RespW.val w) := by
  obtain ⟨hlok, hlow⟩ := h
  rcases w with ⟨lw, tg⟩
  rw [show RespW.render ⟨lw, tg⟩ = LineW.render lw from rfl,
    show RespW.val ⟨lw, tg⟩ = LineW.val lw tg from rfl]
  rcases tg with _ | _ | _
  · exact palt_ok_l (tagLine_ext okT_ext hlok ⟨hlow, rfl⟩ t)
  · rcases lw with ⟨text, ca, hu⟩
    have hlow2 : lowStr text = lowStr ['N', 'O'] := by
      rw [hlow]
      rfl
    obtain ⟨c0, c1, htext, h0, h1⟩ := text_of_low2 hlow2
    subst htext
    have hok_err : P.response_ok (LineW.render ⟨[c0, c1], ca, hu⟩ ++ t) = .err := by
      rw [show LineW.render ⟨[c0, c1], ca, hu⟩ ++ t
          = c0 :: (([c1] ++ (optPart ca CodeW.render
              ++ (optPart hu qsRender ++ ['\r', '\n']))) ++ t)
        from by simp [LineW.render]]
      exact tagLine_err_tp (okT_err_of_head (by rw [h0]; decide))
    show palt P.response_ok P.response_nobye _ = _
    rw [palt_err_l hok_err]
    exact tagLine_ext nobyeT_ext hlok (.inl ⟨hlow, rfl⟩) t
  · rcases lw with ⟨text, ca, hu⟩
    have hlow2 : lowStr text = lowStr ['B', 'Y', 'E'] := by
      rw [hlow]
      rfl
    obtain ⟨c0, c1, c2, htext, h0, h1, h2⟩ := text_of_low3 hlow2
    subst htext
    have hok_err : P.response_ok (LineW.render ⟨[c0, c1, c2], ca, hu⟩ ++ t) = .err := by
      rw [show LineW.render ⟨[c0, c1, c2], ca, hu⟩ ++ t
          = c0 :: (([c1, c2] ++ (optPart ca CodeW.render
              ++ (optPart hu qsRender ++ ['\r', '\n']))) ++ t)
        from by simp [LineW.render]]
      exact tagLine_err_tp (okT_err_of_head (by rw [h0]; decide))
    show palt P.response_ok P.response_nobye _ = _
    rw [palt_err_l hok_err]
    exact tagLine_ext nobyeT_ext hlok (.inr ⟨hlow, rfl⟩) t

theorem resp_pref {w : RespW} (h : RespOk w) {q : List Char}
    (hpre : q <+: RespW.render w) (hne : q ≠ RespW.render w) :
    P.response q = .incomplete := by
  obtain ⟨hlok, hlow⟩ := h
  rcases w with ⟨lw, tg⟩
  rw [show RespW.render ⟨lw, tg⟩ = LineW.render lw from rfl] at hpre hne
  rcases tg with _ | _ | _
  · exact palt_inc_l (tagLine_pref okT_ext okT_pref hlok ⟨hlow, rfl⟩ hpre hne)
  · rcases lw with ⟨text, ca, hu⟩
    have hlow2 : lowStr text = lowStr ['N', 'O'] := by
      rw [hlow]
      rfl
    obtain ⟨c0, c1, htext, h0, h1⟩ := text_of_low2 hlow2
    subst htext
    rcases q with _ | ⟨q0, qt⟩
    · exact palt_inc_l (tagLine_inc_tp (by decide))
    · have hq0 : q0 = c0 := by
        obtain ⟨u, hvu⟩ := hpre
        rw [show LineW.render ⟨[c0, c1], ca, hu⟩
            = c0 :: ([c1] ++ (optPart ca CodeW.render
                ++ (optPart hu qsRender ++ ['\r', '\n'])))
          from by simp [LineW.render], List.cons_append] at hvu
        exact (List.cons_eq_cons.mp hvu).1
      subst hq0
      have hok_err : P.response_ok (q0 :: qt) = .err :=
        tagLine_err_tp (okT_err_of_head (by rw [h0]; decide))
      show palt P.response_ok P.response_nobye _ = _
      rw [palt_err_l hok_err]
      exact tagLine_pref nobyeT_ext nobyeT_pref hlok (.inl ⟨hlow, rfl⟩) hpre hne
  · rcases lw with ⟨text, ca, hu⟩
    have hlow2 : lowStr text = lowStr ['B', 'Y', 'E'] := by
      rw [hlow]
      rfl
    obtain ⟨c0, c1, c2, htext, h0, h1, h2⟩ := text_of_low3 hlow2
    subst htext
    rcases q with _ | ⟨q0, qt⟩
    · exact palt_inc_l (tagLine_inc_tp (by decide))
    · have hq0 : q0 = c0 := by
        obtain ⟨u, hvu⟩ := hpre
        rw [show LineW.render ⟨[c0, c1, c2], ca, hu⟩
            = c0 :: ([c1, c2] ++ (optPart ca CodeW.render
                ++ (optPart hu qsRender ++ ['\r', '\n'])))
          from by simp [LineW.render], List.cons_append] at hvu
        exact (List.cons_eq_cons.mp hvu).1
      subst hq0
      have hok_err : P.response_ok (q0 :: qt) = .err :=
        tagLine_err_tp (okT_err_of_head (by rw [h0]; decide))
      show palt P.response_ok P.response_nobye _ = _
      rw [palt_err_l hok_err]
      exact tagLine_pref nobyeT_ext nobyeT_pref hlok (.inr ⟨hlow, rfl⟩) hpre hne

theorem resp_inv {s r : List Char} {v : Response} (h : P.response s = .ok r v) :
    ∃ w, RespOk w ∧ s = RespW.render w ++ r ∧ v = RespW.val w := by
  rcases palt_inv h with hok | ⟨-, hnb⟩
  · obtain ⟨lw, tg, hlok, htp, hs, hv⟩ := tagLine_inv okT_inv hok
    obtain ⟨hlow, rfl⟩ := htp
    exact ⟨⟨lw, .Ok⟩, ⟨hlok, hlow⟩, hs, hv⟩
  · obtain ⟨lw, tg, hlok, htp, hs, hv⟩ := tagLine_inv nobyeT_inv hnb
    rcases htp with ⟨hlow, rfl⟩ | ⟨hlow, rfl⟩
    · exact ⟨⟨lw, .No⟩, ⟨hlok, hlow⟩, hs, hv⟩
    · exact ⟨⟨lw, .Bye⟩, ⟨hlok, hlow⟩, hs, hv⟩

/-- The first char of a rendered response has an alphabetic status-word
head: its lowercase image is `o`, `n` or `b`. -/
theorem respRender_head {w : RespW} (h : RespOk w) {c : Char} {t : List Char}
    (hr : RespW.render w = c :: t) :
    c.toLower = 'o' ∨ c.toLower = 'n' ∨ c.toLower = 'b' := by
  obtain ⟨hlok, hlow⟩ := h
  rcases w with ⟨lw, tg⟩
  rw [show RespW.render ⟨lw, tg⟩ = LineW.render lw from rfl] at hr
  rcases lw with ⟨text, ca, hu⟩
  rcases tg with _ | _ | _
  · have hlow2 : lowStr text = lowStr ['O', 'K'] := by
      rw [hlow]
      rfl
    obtain ⟨c0, c1, htext, h0, h1⟩ := text_of_low2 hlow2
    subst htext
    rw [show LineW.render ⟨[c0, c1], ca, hu⟩
        = c0 :: ([c1] ++ (optPart ca CodeW.render
            ++ (optPart hu qsRender ++ ['\r', '\n'])))
      from by simp [LineW.render]] at hr
    rw [← (List.cons_eq_cons.mp hr).1]
    exact .inl (h0.trans (by decide))
  · have hlow2 : lowStr text = lowStr ['N', 'O'] := by
      rw [hlow]
      rfl
    obtain ⟨c0, c1, htext, h0, h1⟩ := text_of_low2 hlow2
    subst htext
    rw [show LineW.render ⟨[c0, c1], ca, hu⟩
        = c0 :: ([c1] ++ (optPart ca CodeW.render
            ++ (optPart hu qsRender ++ ['\r', '\n'])))
      from by simp [LineW.render]] at hr
    rw [← (List.cons_eq_cons.mp hr).1]
    exact .inr (.inl (h0.trans (by decide)))
  · have hlow2 : lowStr text = lowStr ['B', 'Y', 'E'] := by
      rw [hlow]
      rfl
    obtain ⟨c0, c1, c2, htext, h0, h1, h2⟩ := text_of_low3 hlow2
    subst htext
    rw [show LineW.render ⟨[c0, c1, c2], ca, hu⟩
        = c0 :: ([c1, c2] ++ (optPart ca CodeW.render
            ++ (optPart hu qsRender ++ ['\r', '\n'])))
      from by simp [LineW.render]] at hr
    rw [← (List.cons_eq_cons.mp hr).1]
    exact .inr (.inr (h0.trans (by decide)))

theorem respRender_ne_nil {w : RespW} (h : RespOk w) : RespW.render w ≠ [] := by
  obtain ⟨hlok, hlow⟩ := h
  rcases w with ⟨lw, tg⟩
  intro hc
  rw [show RespW.render ⟨lw, tg⟩ = LineW.render lw from rfl] at hc
  rcases lw with ⟨text, ca, hu⟩
  have : text = [] := by
    have := congrArg (List.take text.length) hc
    rw [show LineW.render ⟨text, ca, hu⟩
        = text ++ (optPart ca CodeW.render ++ (optPart hu qsRender ++ ['\r', '\n']))
      from rfl, List.take_left] at this
    simpa using this
  subst this
  rcases tg with _ | _ | _ <;> simp [lowStr, canonTag] at hlow


/-! ### Generic `many0` (entry list) characterization -/

theorem many0F_succ (p : Parser α) (f : Nat) (s : List Char) :
    many0F p (f + 1) s =
      match p s with
      | .err => .ok s []
      | .incomplete => .incomplete
      | .crash => .crash
      | .ok r v =>
        if r.length = s.length then .err
        else
          match many0F p f r with
          | .ok r2 vs => .ok r2 (v :: vs)
          | .incomplete => .incomplete
          | .err => .err
          | .crash => .crash := rfl

theorem many0F_zero (p : Parser α) (s : List Char) : many0F p 0 s = .err := rfl

theorem many0F_stop {p : Parser α} {f : Nat} {s : List Char} (h : p s = .err) :
    many0F p (f + 1) s = .ok s [] := by
  rw [many0F_succ, h]

theorem many0F_inc {p : Parser α} {f : Nat} {s : List Char} (h : p s = .incomplete) :
    many0F p (f + 1) s = .incomplete := by
  rw [many0F_succ, h]

theorem many0F_step {p : Parser α} {f : Nat} {s r : List Char} {v : α}
    (hp : p s = .ok r v) (hne : ¬ r.length = s.length) :
    many0F p (f + 1) s =
      match many0F p f r with
      | .ok r2 vs => .ok r2 (v :: vs)
      | .incomplete => .incomplete
      | .err => .err
      | .crash => .crash := by
  rw [many0F_succ, hp]
  exact if_neg hne

theorem many0F_step_err {p : Parser α} {f : Nat} {s r : List Char} {v : α}
    (hp : p s = .ok r v) (heq : r.length = s.length) :
    many0F p (f + 1) s = .err := by
  rw [many0F_succ, hp]
  exact if_pos heq

theorem many0F_crash {p : Parser α} {f : Nat} {s : List Char} (h : p s = .crash) :
    many0F p (f + 1) s = .crash := by
  rw [many0F_succ, h]

theorem catRen_nil (ren : ε → List Char) : catRen ren [] = [] := by
  simp [catRen]

theorem catRen_cons (ren : ε → List Char) (e : ε) (ws : List ε) :
    catRen ren (e :: ws) = ren e ++ catRen ren ws := by
  simp [catRen]

theorem many0F_run {p : Parser α} {ren : ε → List Char} {ev : ε → α} {EOk : ε → Prop}
    (hext : ∀ e, EOk e → ∀ t, p (ren e ++ t) = .ok t (ev e))
    (hrenne : ∀ e, EOk e → ren e ≠ [])
    {ws : List ε} (hok : ∀ e ∈ ws, EOk e) {rest : List Char} (hstop : p rest = .err)
    {fuel : Nat} (hfuel : (catRen ren ws).length < fuel) :
    many0F p fuel (catRen ren ws ++ rest) = .ok rest (ws.map ev) := by
  induction ws generalizing fuel with
  | nil =>
    rcases fuel with _ | f
    · omega
    rw [catRen_nil, List.nil_append]
    exact many0F_stop hstop
  | cons e ws' ih =>
    rcases fuel with _ | f
    · omega
    rw [catRen_cons, List.append_assoc]
    have hpe : p (ren e ++ (catRen ren ws' ++ rest))
        = .ok (catRen ren ws' ++ rest) (ev e) := hext e (hok e (by simp)) _
    have h0 : 0 < (ren e).length := List.length_pos.mpr (hrenne e (hok e (by simp)))
    have hguard : ¬ ((catRen ren ws' ++ rest).length
        = (ren e ++ (catRen ren ws' ++ rest)).length) := by
      simp only [List.length_append]
      omega
    rw [many0F_step hpe hguard,
      ih (fun x hx => hok x (by simp [hx])) (by
        rw [catRen_cons] at hfuel
        simp only [List.length_append] at hfuel ⊢
        omega)]
    rfl

theorem many0F_pref_run {p : Parser α} {ren : ε → List Char} {ev : ε → α}
    {EOk : ε → Prop}
    (hext : ∀ e, EOk e → ∀ t, p (ren e ++ t) = .ok t (ev e))
    (hrenne : ∀ e, EOk e → ren e ≠ [])
    {ws : List ε} (hok : ∀ e ∈ ws, EOk e) {q2 : List Char} (hq2 : p q2 = .incomplete)
    {fuel : Nat} (hfuel : (catRen ren ws).length < fuel) :
    many0F p fuel (catRen ren ws ++ q2) = .incomplete := by
  induction ws generalizing fuel with
  | nil =>
    rcases fuel with _ | f
    · omega
    rw [catRen_nil, List.nil_append]
    exact many0F_inc hq2
  | cons e ws' ih =>
    rcases fuel with _ | f
    · omega
    rw [catRen_cons, List.append_assoc]
    have hpe : p (ren e ++ (catRen ren ws' ++ q2))
        = .ok (catRen ren ws' ++ q2) (ev e) := hext e (hok e (by simp)) _
    have h0 : 0 < (ren e).length := List.length_pos.mpr (hrenne e (hok e (by simp)))
    have hguard : ¬ ((catRen ren ws' ++ q2).length
        = (ren e ++ (catRen ren ws' ++ q2)).length) := by
      simp only [List.length_append]
      omega
    rw [many0F_step hpe hguard,
      ih (fun x hx => hok x (by simp [hx])) (by
        rw [catRen_cons] at hfuel
        simp only [List.length_append] at hfuel ⊢
        omega)]

theorem many0F_inv {p : Parser α} {ren : ε → List Char} {ev : ε → α} {EOk : ε → Prop}
    (hinv : ∀ s r v, p s = .ok r v → ∃ e, EOk e ∧ s = ren e ++ r ∧ v = ev e)
    {fuel : Nat} {s r : List Char} {vs : List α}
    (h : many0F p fuel s = .ok r vs) :
    ∃ ws, (∀ e ∈ ws, EOk e) ∧ s = catRen ren ws ++ r ∧ vs = ws.map ev := by
  induction fuel generalizing s r vs with
  | zero => rw [many0F_zero] at h; cases h
  | succ f ih =>
    rcases hps : p s with ⟨r1, v⟩ | _ | _ | _
    · by_cases hguard : r1.length = s.length
      · rw [many0F_step_err hps hguard] at h
        cases h
      · rw [many0F_step hps hguard] at h
        rcases hm : many0F p f r1 with ⟨r2, vs'⟩ | _ | _ | _ <;> rw [hm] at h
        · injection h with h1 h2
          obtain ⟨ws', hok', hs', hv'⟩ := ih hm
          obtain ⟨e, hoke, hse, hve⟩ := hinv _ _ _ hps
          refine ⟨e :: ws', ?_, ?_, ?_⟩
          · intro x hx
            rcases List.mem_cons.mp hx with rfl | hx'
            · exact hoke
            · exact hok' x hx'
          · rw [hse, hs', catRen_cons, List.append_assoc, h1]
          · rw [← h2, List.map_cons, hve, hv']
        · cases h
        · cases h
        · cases h
    · rw [many0F_inc hps] at h
      cases h
    · rw [many0F_stop hps] at h
      injection h with h1 h2
      refine ⟨[], by simp, ?_, ?_⟩
      · rw [catRen_nil, List.nil_append]
        exact h1
      · rw [← h2]
        simp
    · rw [many0F_crash hps] at h
      cases h

theorem cat_prefix_split {ren : ε → List Char} :
    ∀ (ws : List ε) (B q : List Char), q <+: catRen ren ws ++ B →
      (∃ ws1 e ws2 q', ws = ws1 ++ e :: ws2 ∧ q = catRen ren ws1 ++ q' ∧
        q' <+: ren e ∧ q' ≠ ren e) ∨
      (∃ q', q = catRen ren ws ++ q' ∧ q' <+: B) := by
  intro ws
  induction ws with
  | nil =>
    intro B q hq
    right
    refine ⟨q, by rw [catRen_nil, List.nil_append], ?_⟩
    rw [catRen_nil, List.nil_append] at hq
    exact hq
  | cons e ws' ih =>
    intro B q hq
    rw [catRen_cons, List.append_assoc] at hq
    rcases prefix_split hq with hq1 | ⟨q2, rfl, hq2⟩
    · by_cases hfull : q = ren e
      · subst hfull
        rcases ih B [] List.nil_prefix with
          ⟨ws1, e2, ws2, q', hws, hq', hpre', hne'⟩ | ⟨q', hq', hpre'⟩
        · left
          refine ⟨e :: ws1, e2, ws2, q', by rw [hws, List.cons_append], ?_, hpre', hne'⟩
          rw [catRen_cons, List.append_assoc, ← hq', List.append_nil]
        · right
          refine ⟨q', ?_, hpre'⟩
          rw [catRen_cons, List.append_assoc, ← hq', List.append_nil]
      · left
        exact ⟨[], e, ws', q, rfl, by rw [catRen_nil, List.nil_append], hq1, hfull⟩
    · rcases ih B q2 hq2 with
        ⟨ws1, e2, ws2, q', hws, hq', hpre', hne'⟩ | ⟨q', hq', hpre'⟩
      · left
        refine ⟨e :: ws1, e2, ws2, q', by rw [hws, List.cons_append], ?_, hpre', hne'⟩
        rw [hq', catRen_cons, List.append_assoc]
      · right
        refine ⟨q', ?_, hpre'⟩
        rw [hq', catRen_cons, List.append_assoc]

theorem ne_brace_quote_of_low {c : Char}
    (h : c.toLower = 'o' ∨ c.toLower = 'n' ∨ c.toLower = 'b') :
    c ≠ '{' ∧ c ≠ '"' := by
  constructor <;> rintro rfl <;> rcases h with h | h | h <;> revert h <;> decide

theorem low_cons {m : List Char} {c : Char} {cs : List Char}
    (h : lowStr m = lowStr (c :: cs)) :
    ∃ a as, m = a :: as ∧ a.toLower = c.toLower ∧ lowStr as = lowStr cs := by
  rcases m with _ | ⟨a, as⟩
  · simp [lowStr] at h
  · rw [show lowStr (a :: as) = a.toLower :: lowStr as from rfl,
      show lowStr (c :: cs) = c.toLower :: lowStr cs from rfl] at h
    obtain ⟨h1, h2⟩ := List.cons_eq_cons.mp h
    exact ⟨a, as, rfl, h1, h2⟩

/-- The whole `many0 entry` + final `response` shape: extension. -/
theorem listResp_ext {p : Parser α} {ren : ε → List Char} {ev : ε → α} {EOk : ε → Prop}
    (hext : ∀ e, EOk e → ∀ t, p (ren e ++ t) = .ok t (ev e))
    (hrenne : ∀ e, EOk e → ren e ≠ [])
    (herrhead : ∀ c t, c ≠ '{' → c ≠ '"' → p (c :: t) = .err)
    {ws : List ε} (hok : ∀ e ∈ ws, EOk e) {w : RespW} (hrok : RespOk w)
    (t : List Char) :
    ppair (many0P p) P.response ((catRen ren ws ++ RespW.render w) ++ t)
      = .ok t (ws.map ev, RespW.val w) := by
  have hstop : p (RespW.render w ++ t) = .err := by
    rcases hrr : RespW.render w with _ | ⟨c, rr⟩
    · exact absurd hrr (respRender_ne_nil hrok)
    · obtain ⟨hb, hq⟩ := ne_brace_quote_of_low (respRender_head hrok hrr)
      exact herrhead c (rr ++ t) hb hq
  have hm : many0P p ((catRen ren ws ++ RespW.render w) ++ t)
      = .ok (RespW.render w ++ t) (ws.map ev) := by
    rw [List.append_assoc]
    exact many0F_run hext hrenne hok hstop (by simp only [List.length_append]; omega)
  exact ppair_ok hm (resp_ext hrok t)

/-- The whole `many0 entry` + final `response` shape: every strict prefix
is `Incomplete`. -/
theorem listResp_pref {p : Parser α} {ren : ε → List Char} {ev : ε → α} {EOk : ε → Prop}
    (hext : ∀ e, EOk e → ∀ t, p (ren e ++ t) = .ok t (ev e))
    (hpref : ∀ e q, EOk e → q <+: ren e → q ≠ ren e → p q = .incomplete)
    (hrenne : ∀ e, EOk e → ren e ≠ [])
    (herrhead : ∀ c t, c ≠ '{' → c ≠ '"' → p (c :: t) = .err)
    (hnil : p [] = .incomplete)
    {ws : List ε} (hok : ∀ e ∈ ws, EOk e) {w : RespW} (hrok : RespOk w)
    {q : List Char} (hpre : q <+: catRen ren ws ++ RespW.render w)
    (hne : q ≠ catRen ren ws ++ RespW.render w) :
    ppair (many0P p) P.response q = .incomplete := by
  rcases cat_prefix_split ws (RespW.render w) q hpre with
    ⟨ws1, e, ws2, q', hws, rfl, hpre', hne'⟩ | ⟨q', rfl, hpre'⟩
  · have hoks : ∀ x ∈ ws1, EOk x := by
      intro x hx
      exact hok x (by rw [hws]; exact List.mem_append_left _ hx)
    have hoke : EOk e := hok e (by rw [hws]; simp)
    have hinc : p q' = .incomplete := hpref e q' hoke hpre' hne'
    exact ppair_inc_l
      (many0F_pref_run hext hrenne hoks hinc (by simp only [List.length_append]; omega))
  · have hq'ne : q' ≠ RespW.render w := by
      rintro rfl
      exact hne rfl
    rcases q' with _ | ⟨c, qt⟩
    · exact ppair_inc_l (many0F_pref_run hext hrenne hok hnil
        (by simp only [List.length_append]; omega))
    · have hpre2 : c :: qt <+: RespW.render w := hpre'
      obtain ⟨u, hu⟩ := hpre2
      have hhead : RespW.render w = c :: (qt ++ u) := by
        rw [← hu, List.cons_append]
      obtain ⟨hb, hq⟩ := ne_brace_quote_of_low (respRender_head hrok hhead)
      have hstop : p (c :: qt) = .err := herrhead c qt hb hq
      have hm : many0P p (catRen ren ws ++ (c :: qt)) = .ok (c :: qt) (ws.map ev) :=
        many0F_run hext hrenne hok hstop (by simp only [List.length_append]; omega)
      exact ppair_inc_r hm (resp_pref hrok hpre' hq'ne)

/-- The whole `many0 entry` + final `response` shape: completeness. -/
theorem listResp_inv {p : Parser α} {ren : ε → List Char} {ev : ε → α} {EOk : ε → Prop}
    (hinv : ∀ s r v, p s = .ok r v → ∃ e, EOk e ∧ s = ren e ++ r ∧ v = ev e)
    {s r : List Char} {v : List α × Response}
    (h : ppair (many0P p) P.response s = .ok r v) :
    ∃ ws w, (∀ e ∈ ws, EOk e) ∧ RespOk w ∧
      s = (catRen ren ws ++ RespW.render w) ++ r ∧
      v = (ws.map ev, RespW.val w) := by
  obtain ⟨m, h1, h2⟩ := ppair_inv' h
  obtain ⟨ws, hok, hs, hv1⟩ := many0F_inv hinv h1
  obtain ⟨w, hrok, hm, hv2⟩ := resp_inv h2
  refine ⟨ws, w, hok, hrok, ?_, ?_⟩
  · rw [hs, hm, List.append_assoc]
  · rw [show v = (v.1, v.2) from rfl, hv1, hv2]


/-! ### LISTSCRIPTS entry characterization -/

/-- The optional caseless ` ACTIVE` marker of a LISTSCRIPTS entry. -/
def actP : Parser Bool :=
  pmap Option.isSome (popt (ppair space1P (tagNoCaseP "ACTIVE".toList)))

theorem lsEntry_eq :
    P.lsEntry = pterminated (ppair P.sievestring_s2c actP) crlfP := rfl

theorem not_isSpc_of_low_a {a : Char} (h : a.toLower = 'a') : isSpc a = false := by
  by_cases h1 : a = ' '
  · subst h1
    exact absurd h (by decide)
  by_cases h2 : a = '\t'
  · subst h2
    exact absurd h (by decide)
  simp [isSpc, h1, h2]

theorem actP_cr (t : List Char) : actP ('\r' :: t) = .ok ('\r' :: t) false :=
  pmap_ok _ (popt_none (ppair_err_l (runP_err_head (by decide))))

theorem actP_spaces {q : List Char} (h : ∀ x ∈ q, isSpc x) : actP q = .incomplete :=
  pmap_inc _ (popt_inc (ppair_inc_l (runP_all h)))

theorem actP_nil : actP [] = .incomplete := actP_spaces (by simp)

theorem actP_act {sp act : List Char} (hspok : SpOk sp)
    (hlow : lowStr act = lowStr "ACTIVE".toList) (t : List Char) :
    actP (sp ++ (act ++ t)) = .ok t true := by
  obtain ⟨hspne, hsp⟩ := hspok
  rcases sp with _ | ⟨c0, sp1⟩
  · exact absurd rfl hspne
  rw [show ("ACTIVE".toList : List Char) = 'A' :: "CTIVE".toList from rfl] at hlow
  obtain ⟨a0, as, rfl, ha0, hlowas⟩ := low_cons hlow
  have hstop : isSpc a0 = false := not_isSpc_of_low_a (ha0.trans (by decide))
  have hspr : space1P ((c0 :: sp1) ++ ((a0 :: as) ++ t))
      = .ok ((a0 :: as) ++ t) (c0 :: sp1) :=
    runP_ext isSpc (c0 :: sp1) (as ++ t) (fun x hx => hsp x hx) (by simp) hstop
  exact pmap_ok _ (popt_ok (ppair_ok hspr (tagNoCaseP_ext hlow t)))

theorem actP_act_pref {sp act q2 : List Char} (hspok : SpOk sp)
    (hlow : lowStr act = lowStr "ACTIVE".toList)
    (hpre : q2 <+: act) (hne : q2 ≠ act) (hq2ne : q2 ≠ []) :
    actP (sp ++ q2) = .incomplete := by
  obtain ⟨hspne, hsp⟩ := hspok
  rcases sp with _ | ⟨c0, sp1⟩
  · exact absurd rfl hspne
  rcases q2 with _ | ⟨c2, q2t⟩
  · exact absurd rfl hq2ne
  rw [show ("ACTIVE".toList : List Char) = 'A' :: "CTIVE".toList from rfl] at hlow
  obtain ⟨a0, as, rfl, ha0, hlowas⟩ := low_cons hlow
  have hc2 : c2 = a0 := by
    obtain ⟨u, hu⟩ := hpre
    rw [List.cons_append] at hu
    exact (List.cons_eq_cons.mp hu).1
  subst hc2
  have hstop : isSpc c2 = false := not_isSpc_of_low_a (ha0.trans (by decide))
  have hspr : space1P ((c0 :: sp1) ++ c2 :: q2t) = .ok (c2 :: q2t) (c0 :: sp1) :=
    runP_ext isSpc (c0 :: sp1) q2t (fun x hx => hsp x hx) (by simp) hstop
  rw [show ('A' : Char) :: "CTIVE".toList = "ACTIVE".toList from rfl] at hlow
  exact pmap_inc _ (popt_inc (ppair_inc_r hspr (tagNoCaseP_pref hlow hpre hne)))

theorem actP_inv {s r : List Char} {b : Bool} (h : actP s = .ok r b) :
    (b = false ∧ r = s) ∨
      ∃ sp act, SpOk sp ∧ lowStr act = lowStr "ACTIVE".toList ∧
        s = sp ++ (act ++ r) ∧ b = true := by
  obtain ⟨o, hpo, hb⟩ := pmap_inv h
  rcases popt_inv hpo with ⟨ho, hr, -⟩ | ⟨a, ho, hp⟩
  · left
    exact ⟨by rw [hb, ho]; rfl, hr⟩
  · obtain ⟨m, h1, h2⟩ := ppair_inv' hp
    obtain ⟨run, c, t2, hs, hm, hvsp, hrunne, hrun, hc⟩ := runP_inv h1
    obtain ⟨act, hlow, hms, -⟩ := tagNoCaseP_inv h2
    right
    refine ⟨run, act, ⟨hrunne, hrun⟩, hlow, ?_, by rw [hb, ho]; rfl⟩
    rw [hs, ← hm, hms]

theorem lsEntry_ok_parts {s m1 m2 t sv : List Char} {b : Bool} {u : List Char}
    (h1 : P.sievestring_s2c s = .ok m1 sv) (h2 : actP m1 = .ok m2 b)
    (h3 : crlfP m2 = .ok t u) : P.lsEntry s = .ok t (sv, b) := by
  rw [lsEntry_eq]
  exact pterminated_ok (ppair_ok h1 h2) h3

theorem lsEntry_inc_sv {s : List Char} (h : P.sievestring_s2c s = .incomplete) :
    P.lsEntry s = .incomplete := by
  rw [lsEntry_eq]
  exact pmap_inc _ (ppair_inc_l (ppair_inc_l h))

theorem lsEntry_inc_act {s m1 sv : List Char} (h1 : P.sievestring_s2c s = .ok m1 sv)
    (h2 : actP m1 = .incomplete) : P.lsEntry s = .incomplete := by
  rw [lsEntry_eq]
  exact pmap_inc _ (ppair_inc_l (ppair_inc_r h1 h2))

theorem lsEntry_inc_crlf {s m1 m2 sv : List Char} {b : Bool}
    (h1 : P.sievestring_s2c s = .ok m1 sv) (h2 : actP m1 = .ok m2 b)
    (h3 : crlfP m2 = .incomplete) : P.lsEntry s = .incomplete := by
  rw [lsEntry_eq]
  exact pmap_inc _ (ppair_inc_r (ppair_ok h1 h2) h3)

theorem lsEntry_err_head {c : Char} {s : List Char} (h1 : c ≠ '{') (h2 : c ≠ '"') :
    P.lsEntry (c :: s) = .err := by
  rw [lsEntry_eq]
  exact pmap_err _ (ppair_err_l (ppair_err_l (sv_err_head h1 h2)))

theorem lsEntry_nil : P.lsEntry [] = .incomplete := by decide

theorem lsEntry_ext (e : LsEntryW) (h : LsEntryOk e) (t : List Char) :
    P.lsEntry (LsEntryW.render e ++ t) = .ok t (LsEntryW.val e) := by
  obtain ⟨hsv, hact⟩ := h
  rcases e with ⟨sv, _ | ⟨sp, act⟩⟩
  · rw [show LsEntryW.render ⟨sv, none⟩ ++ t = SvW.render sv ++ ('\r' :: '\n' :: t)
      from by simp [LsEntryW.render, optPart]]
    exact lsEntry_ok_parts (sv_ext hsv _) (actP_cr _) (tagP_exact ['\r', '\n'] t)
  · obtain ⟨hspok, hlow⟩ := hact
    rw [show LsEntryW.render ⟨sv, some (sp, act)⟩ ++ t
        = SvW.render sv ++ (sp ++ (act ++ ('\r' :: '\n' :: t)))
      from by simp [LsEntryW.render, optPart]]
    exact lsEntry_ok_parts (sv_ext hsv _) (actP_act hspok hlow _)
      (tagP_exact ['\r', '\n'] t)

theorem lsEntry_pref (e : LsEntryW) (q : List Char) (h : LsEntryOk e)
    (hpre : q <+: LsEntryW.render e) (hne : q ≠ LsEntryW.render e) :
    P.lsEntry q = .incomplete := by
  obtain ⟨hsv, hact⟩ := h
  rcases e with ⟨sv, act⟩
  rw [show LsEntryW.render ⟨sv, act⟩
      = SvW.render sv ++ (optPart act id ++ ['\r', '\n']) from rfl] at hpre hne
  have hsvok : P.sievestring_s2c (SvW.render sv) = .ok [] (SvW.val sv) := by
    have := sv_ext hsv []
    rwa [List.append_nil] at this
  rcases prefix_split hpre with hq1 | ⟨q1, rfl, hq1⟩
  · by_cases hfull : q = SvW.render sv
    · subst hfull
      exact lsEntry_inc_act hsvok actP_nil
    · exact lsEntry_inc_sv (sv_pref hsv hq1 hfull)
  · have h1 : P.sievestring_s2c (SvW.render sv ++ q1) = .ok q1 (SvW.val sv) :=
      sv_ext hsv q1
    rcases act with _ | ⟨sp, mk⟩
    · rw [show optPart (none : Option (List Char × List Char)) id ++ ['\r', '\n']
          = ['\r', '\n'] from by simp [optPart]] at hq1 hne
      have hq1ne : q1 ≠ ['\r', '\n'] := by
        rintro rfl
        exact hne rfl
      rcases prefix_cases2 hq1 hq1ne with rfl | rfl
      · rw [List.append_nil] at h1 ⊢
        exact lsEntry_inc_act h1 actP_nil
      · exact lsEntry_inc_crlf h1 (actP_cr []) (by decide)
    · obtain ⟨hspok, hlow⟩ := hact
      rw [show optPart (some (sp, mk)) id ++ ['\r', '\n']
          = sp ++ (mk ++ ['\r', '\n']) from by simp [optPart]] at hq1 hne
      rcases prefix_split hq1 with hq1s | ⟨q2, rfl, hq2⟩
      · have hall : ∀ x ∈ q1, isSpc x := by
          intro x hx
          obtain ⟨u, hu⟩ := hq1s
          exact hspok.2 x (by rw [← hu]; exact List.mem_append_left u hx)
        exact lsEntry_inc_act h1 (actP_spaces hall)
      · rcases prefix_split hq2 with hq2s | ⟨q3, rfl, hq3⟩
        · by_cases hfull2 : q2 = mk
          · subst hfull2
            have h2 : actP (sp ++ q2) = .ok [] true := by
              have := actP_act hspok hlow []
              rwa [List.append_nil] at this
            exact lsEntry_inc_crlf h1 h2 (by decide)
          · by_cases hq20 : q2 = []
            · subst hq20
              refine lsEntry_inc_act h1 (actP_spaces ?_)
              intro x hx
              rw [List.append_nil] at hx
              exact hspok.2 x hx
            · exact lsEntry_inc_act h1 (actP_act_pref hspok hlow hq2s hfull2 hq20)
        · have hq3ne : q3 ≠ ['\r', '\n'] := by
            rintro rfl
            exact hne rfl
          rcases prefix_cases2 hq3 hq3ne with rfl | rfl
          · rw [List.append_nil] at h1 ⊢
            have h2 : actP (sp ++ mk) = .ok [] true := by
              have := actP_act hspok hlow []
              rwa [List.append_nil] at this
            exact lsEntry_inc_crlf h1 h2 (by decide)
          · exact lsEntry_inc_crlf h1 (actP_act hspok hlow ['\r']) (by decide)

theorem lsEntry_inv (s r : List Char) (v : List Char × Bool)
    (h : P.lsEntry s = .ok r v) :
    ∃ e, LsEntryOk e ∧ s = LsEntryW.render e ++ r ∧ v = LsEntryW.val e := by
  rw [lsEntry_eq] at h
  unfold pterminated at h
  obtain ⟨p1, hp1, hv1⟩ := pmap_inv h
  obtain ⟨m1, ha, hb⟩ := ppair_inv' hp1
  obtain ⟨m2, hc, hd⟩ := ppair_inv' ha
  obtain ⟨svw, hsvok, hs, hvsv⟩ := sv_inv hc
  obtain ⟨hm1, -⟩ := tagP_inv hb
  rcases actP_inv hd with ⟨hbf, hmeq⟩ | ⟨sp, act, hspok, hlow, hm2, hbt⟩
  · refine ⟨⟨svw, none⟩, ⟨hsvok, trivial⟩, ?_, ?_⟩
    · rw [hs, ← hmeq, hm1]
      simp [LsEntryW.render, optPart]
    · rw [hv1, show p1.1 = (p1.1.1, p1.1.2) from rfl, hvsv, hbf]
      rfl
  · refine ⟨⟨svw, some (sp, act)⟩, ⟨hsvok, hspok, hlow⟩, ?_, ?_⟩
    · rw [hs, hm2, hm1]
      simp [LsEntryW.render, optPart]
    · rw [hv1, show p1.1 = (p1.1.1, p1.1.2) from rfl, hvsv, hbt]
      rfl

theorem lsEntryRender_ne_nil (e : LsEntryW) (h : LsEntryOk e) :
    LsEntryW.render e ≠ [] := by
  rcases e with ⟨sv, act⟩
  intro hc
  rw [show LsEntryW.render ⟨sv, act⟩
      = SvW.render sv ++ (optPart act id ++ ['\r', '\n']) from rfl] at hc
  exact svRender_ne_nil sv (List.append_eq_nil.mp hc).1

/-! ### CAPABILITY entry characterization -/

/-- The optional sieve-string argument of a capability entry. -/
def capArgP : Parser (Option (List Char)) := popt (ppreceded space1P P.sievestring_s2c)

theorem scap_eq :
    P.single_capability = pterminated (ppair P.sievestring_s2c capArgP) crlfP := rfl

theorem capArg_cr (t : List Char) : capArgP ('\r' :: t) = .ok ('\r' :: t) none :=
  popt_none (pmap_err _ (ppair_err_l (runP_err_head (by decide))))

theorem capArg_spaces {q : List Char} (h : ∀ x ∈ q, isSpc x) :
    capArgP q = .incomplete :=
  popt_inc (pmap_inc _ (ppair_inc_l (runP_all h)))

theorem capArg_nil : capArgP [] = .incomplete := capArg_spaces (by simp)

theorem capArg_sv {sp : List Char} {sv2 : SvW} (hspok : SpOk sp) (hsv : SvOk sv2)
    (t : List Char) :
    capArgP (sp ++ (SvW.render sv2 ++ t)) = .ok t (some (SvW.val sv2)) := by
  obtain ⟨hspne, hsp⟩ := hspok
  rcases sp with _ | ⟨c0, sp1⟩
  · exact absurd rfl hspne
  rcases hsvr : SvW.render sv2 with _ | ⟨ch, svrest⟩
  · exact absurd hsvr (svRender_ne_nil sv2)
  have hre := sv_ext hsv t
  rw [hsvr] at hre
  have hspr : space1P ((c0 :: sp1) ++ ((ch :: svrest) ++ t))
      = .ok ((ch :: svrest) ++ t) (c0 :: sp1) :=
    runP_ext isSpc (c0 :: sp1) (svrest ++ t) (fun x hx => hsp x hx) (by simp)
      (not_isSpc_of_svHead hsvr)
  exact popt_ok (ppreceded_ok hspr hre)

theorem capArg_sv_pref {sp q2 : List Char} {sv2 : SvW} (hspok : SpOk sp)
    (hsv : SvOk sv2) (hpre : q2 <+: SvW.render sv2) (hne : q2 ≠ SvW.render sv2)
    (hq2ne : q2 ≠ []) : capArgP (sp ++ q2) = .incomplete := by
  obtain ⟨hspne, hsp⟩ := hspok
  rcases sp with _ | ⟨c0, sp1⟩
  · exact absurd rfl hspne
  rcases q2 with _ | ⟨c2, q2t⟩
  · exact absurd rfl hq2ne
  rcases hsvr : SvW.render sv2 with _ | ⟨ch, svrest⟩
  · exact absurd hsvr (svRender_ne_nil sv2)
  have hc2 : c2 = ch := by
    obtain ⟨u, hu⟩ := hpre
    rw [hsvr, List.cons_append] at hu
    exact (List.cons_eq_cons.mp hu).1
  subst hc2
  have hspr : space1P ((c0 :: sp1) ++ c2 :: q2t) = .ok (c2 :: q2t) (c0 :: sp1) :=
    runP_ext isSpc (c0 :: sp1) q2t (fun x hx => hsp x hx) (by simp)
      (not_isSpc_of_svHead hsvr)
  exact popt_inc (pmap_inc _ (ppair_inc_r hspr (sv_pref hsv hpre hne)))

theorem capArg_inv {s r : List Char} {o : Option (List Char)}
    (h : capArgP s = .ok r o) :
    (o = none ∧ r = s) ∨
      ∃ sp sv2, SpOk sp ∧ SvOk sv2 ∧ s = sp ++ (SvW.render sv2 ++ r) ∧
        o = some (SvW.val sv2) := by
  rcases popt_inv h with ⟨ho, hr, -⟩ | ⟨a, ho, hp⟩
  · exact .inl ⟨ho, hr⟩
  · unfold ppreceded at hp
    obtain ⟨p1, hp1, hv1⟩ := pmap_inv hp
    obtain ⟨m, h1, h2⟩ := ppair_inv' hp1
    obtain ⟨run, c, t2, hs, hm, hvsp, hrunne, hrun, hc⟩ := runP_inv h1
    obtain ⟨sv2, hsvok, hmr, hv⟩ := sv_inv h2
    refine .inr ⟨run, sv2, ⟨hrunne, hrun⟩, hsvok, ?_, ?_⟩
    · rw [hs, ← hm, hmr]
    · rw [ho, hv1, hv]

theorem scap_ok_parts {s m1 m2 t sv : List Char} {o : Option (List Char)}
    {u : List Char}
    (h1 : P.sievestring_s2c s = .ok m1 sv) (h2 : capArgP m1 = .ok m2 o)
    (h3 : crlfP m2 = .ok t u) : P.single_capability s = .ok t (sv, o) := by
  rw [scap_eq]
  exact pterminated_ok (ppair_ok h1 h2) h3

theorem scap_inc_sv {s : List Char} (h : P.sievestring_s2c s = .incomplete) :
    P.single_capability s = .incomplete := by
  rw [scap_eq]
  exact pmap_inc _ (ppair_inc_l (ppair_inc_l h))

theorem scap_inc_arg {s m1 sv : List Char} (h1 : P.sievestring_s2c s = .ok m1 sv)
    (h2 : capArgP m1 = .incomplete) : P.single_capability s = .incomplete := by
  rw [scap_eq]
  exact pmap_inc _ (ppair_inc_l (ppair_inc_r h1 h2))

theorem scap_inc_crlf {s m1 m2 sv : List Char} {o : Option (List Char)}
    (h1 : P.sievestring_s2c s = .ok m1 sv) (h2 : capArgP m1 = .ok m2 o)
    (h3 : crlfP m2 = .incomplete) : P.single_capability s = .incomplete := by
  rw [scap_eq]
  exact pmap_inc _ (ppair_inc_r (ppair_ok h1 h2) h3)

theorem scap_err_head {c : Char} {s : List Char} (h1 : c ≠ '{') (h2 : c ≠ '"') :
    P.single_capability (c :: s) = .err := by
  rw [scap_eq]
  exact pmap_err _ (ppair_err_l (ppair_err_l (sv_err_head h1 h2)))

theorem scap_nil : P.single_capability [] = .incomplete := by decide

theorem cap_ext (e : CapEW) (h : CapEOk e) (t : List Char) :
    P.single_capability (CapEW.render e ++ t) = .ok t (CapEW.val e) := by
  obtain ⟨hsv, harg⟩ := h
  rcases e with ⟨sv, _ | ⟨sp, sv2⟩⟩
  · rw [show CapEW.render ⟨sv, none⟩ ++ t = SvW.render sv ++ ('\r' :: '\n' :: t)
      from by simp [CapEW.render, optPart]]
    exact scap_ok_parts (sv_ext hsv _) (capArg_cr _) (tagP_exact ['\r', '\n'] t)
  · obtain ⟨hspok, hsv2⟩ := harg
    rw [show CapEW.render ⟨sv, some (sp, sv2)⟩ ++ t
        = SvW.render sv ++ (sp ++ (SvW.render sv2 ++ ('\r' :: '\n' :: t)))
      from by simp [CapEW.render, optPart]]
    exact scap_ok_parts (sv_ext hsv _) (capArg_sv hspok hsv2 _)
      (tagP_exact ['\r', '\n'] t)

theorem cap_pref (e : CapEW) (q : List Char) (h : CapEOk e)
    (hpre : q <+: CapEW.render e) (hne : q ≠ CapEW.render e) :
    P.single_capability q = .incomplete := by
  obtain ⟨hsv, harg⟩ := h
  rcases e with ⟨sv, arg⟩
  rw [show CapEW.render ⟨sv, arg⟩
      = SvW.render sv ++ (optPart arg SvW.render ++ ['\r', '\n']) from rfl]
    at hpre hne
  have hsvok : P.sievestring_s2c (SvW.render sv) = .ok [] (SvW.val sv) := by
    have := sv_ext hsv []
    rwa [List.append_nil] at this
  rcases prefix_split hpre with hq1 | ⟨q1, rfl, hq1⟩
  · by_cases hfull : q = SvW.render sv
    · subst hfull
      exact scap_inc_arg hsvok capArg_nil
    · exact scap_inc_sv (sv_pref hsv hq1 hfull)
  · have h1 : P.sievestring_s2c (SvW.render sv ++ q1) = .ok q1 (SvW.val sv) :=
      sv_ext hsv q1
    rcases arg with _ | ⟨sp, sv2⟩
    · rw [show optPart (none : Option (List Char × SvW)) SvW.render ++ ['\r', '\n']
          = ['\r', '\n'] from by simp [optPart]] at hq1 hne
      have hq1ne : q1 ≠ ['\r', '\n'] := by
        rintro rfl
        exact hne rfl
      rcases prefix_cases2 hq1 hq1ne with rfl | rfl
      · rw [List.append_nil] at h1 ⊢
        exact scap_inc_arg h1 capArg_nil
      · exact scap_inc_crlf h1 (capArg_cr []) (by decide)
    · obtain ⟨hspok, hsv2⟩ := harg
      rw [show optPart (some (sp, sv2)) SvW.render ++ ['\r', '\n']
          = sp ++ (SvW.render sv2 ++ ['\r', '\n']) from by simp [optPart]]
        at hq1 hne
      rcases prefix_split hq1 with hq1s | ⟨q2, rfl, hq2⟩
      · have hall : ∀ x ∈ q1, isSpc x := by
          intro x hx
          obtain ⟨u, hu⟩ := hq1s
          exact hspok.2 x (by rw [← hu]; exact List.mem_append_left u hx)
        exact scap_inc_arg h1 (capArg_spaces hall)
      · rcases prefix_split hq2 with hq2s | ⟨q3, rfl, hq3⟩
        · by_cases hfull2 : q2 = SvW.render sv2
          · subst hfull2
            have h2 : capArgP (sp ++ SvW.render sv2) = .ok [] (some (SvW.val sv2)) := by
              have := capArg_sv hspok hsv2 []
              rwa [List.append_nil] at this
            exact scap_inc_crlf h1 h2 (by decide)
          · by_cases hq20 : q2 = []
            · subst hq20
              refine scap_inc_arg h1 (capArg_spaces ?_)
              intro x hx
              rw [List.append_nil] at hx
              exact hspok.2 x hx
            · exact scap_inc_arg h1 (capArg_sv_pref hspok hsv2 hq2s hfull2 hq20)
        · have hq3ne : q3 ≠ ['\r', '\n'] := by
            rintro rfl
            exact hne rfl
          rcases prefix_cases2 hq3 hq3ne with rfl | rfl
          · rw [List.append_nil] at h1 ⊢
            have h2 : capArgP (sp ++ SvW.render sv2) = .ok [] (some (SvW.val sv2)) := by
              have := capArg_sv hspok hsv2 []
              rwa [List.append_nil] at this
            exact scap_inc_crlf h1 h2 (by decide)
          · exact scap_inc_crlf h1 (capArg_sv hspok hsv2 ['\r']) (by decide)

theorem cap_inv (s r : List Char) (v : List Char × Option (List Char))
    (h : P.single_capability s = .ok r v) :
    ∃ e, CapEOk e ∧ s = CapEW.render e ++ r ∧ v = CapEW.val e := by
  rw [scap_eq] at h
  unfold pterminated at h
  obtain ⟨p1, hp1, hv1⟩ := pmap_inv h
  obtain ⟨m1, ha, hb⟩ := ppair_inv' hp1
  obtain ⟨m2, hc, hd⟩ := ppair_inv' ha
  obtain ⟨svw, hsvok, hs, hvsv⟩ := sv_inv hc
  obtain ⟨hm1, -⟩ := tagP_inv hb
  rcases capArg_inv hd with ⟨ho, hmeq⟩ | ⟨sp, sv2, hspok, hsv2, hm2, ho⟩
  · refine ⟨⟨svw, none⟩, ⟨hsvok, trivial⟩, ?_, ?_⟩
    · rw [hs, ← hmeq, hm1]
      simp [CapEW.render, optPart]
    · rw [hv1, show p1.1 = (p1.1.1, p1.1.2) from rfl, hvsv, ho]
      rfl
  · refine ⟨⟨svw, some (sp, sv2)⟩, ⟨hsvok, hspok, hsv2⟩, ?_, ?_⟩
    · rw [hs, hm2, hm1]
      simp [CapEW.render, optPart]
    · rw [hv1, show p1.1 = (p1.1.1, p1.1.2) from rfl, hvsv, ho]
      rfl

theorem capRender_ne_nil (e : CapEW) (h : CapEOk e) : CapEW.render e ≠ [] := by
  rcases e with ⟨sv, arg⟩
  intro hc
  rw [show CapEW.render ⟨sv, arg⟩
      = SvW.render sv ++ (optPart arg SvW.render ++ ['\r', '\n']) from rfl] at hc
  exact svRender_ne_nil sv (List.append_eq_nil.mp hc).1


/-! ### GETSCRIPT response characterization -/

/-- Witness for the two grammar shapes of `response_getscript`. -/
inductive GsW where
  | present (sv : SvW) (lw : LineW)
  | absent (lw : LineW) (tg : OkNoBye)
  deriving DecidableEq

/-- Wire text of a GETSCRIPT response. -/
def GsW.render : GsW → List Char
  | .present sv lw => SvW.render sv ++ ('\r' :: '\n' :: LineW.render lw)
  | .absent lw _ => LineW.render lw

/-- Decoded GETSCRIPT response value. -/
def GsW.val : GsW → Option (List Char) × Response
  | .present sv lw => (some (SvW.val sv), LineW.val lw .Ok)
  | .absent lw tg => (none, LineW.val lw tg)

/-- Well-formedness of a GETSCRIPT witness. -/
def GsOk : GsW → Prop
  | .present sv lw => SvOk sv ∧ LineOk lw ∧ lowStr lw.text = lowStr "OK".toList
  | .absent lw tg => LineOk lw ∧ NobyeTP lw.text tg

theorem gsFirst_err_head {c : Char} {s : List Char} (h1 : c ≠ '{') (h2 : c ≠ '"') :
    pmap (fun p => (some p.1, p.2))
      (psepPair P.sievestring_s2c crlfP P.response_ok) (c :: s) = .err :=
  pmap_err _ (ppair_err_l (pmap_err _ (ppair_err_l (sv_err_head h1 h2))))

theorem nobye_head {lw : LineW} {tg : OkNoBye} (htp : NobyeTP lw.text tg) :
    ∃ a as, lw.text = a :: as ∧ (a.toLower = 'n' ∨ a.toLower = 'b') := by
  rcases htp with ⟨hlow, -⟩ | ⟨hlow, -⟩
  · rw [show ("NO".toList : List Char) = 'N' :: "O".toList from rfl] at hlow
    obtain ⟨a, as, he, ha, -⟩ := low_cons hlow
    exact ⟨a, as, he, .inl (ha.trans (by decide))⟩
  · rw [show ("BYE".toList : List Char) = 'B' :: "YE".toList from rfl] at hlow
    obtain ⟨a, as, he, ha, -⟩ := low_cons hlow
    exact ⟨a, as, he, .inr (ha.trans (by decide))⟩

theorem lineRender_cons {text : List Char} {a : Char} {as : List Char}
    (ca : Option (List Char × CodeW)) (hu : Option (List Char × List QI))
    (he : text = a :: as) :
    LineW.render ⟨text, ca, hu⟩
      = a :: (as ++ (optPart ca CodeW.render ++ (optPart hu qsRender ++ ['\r', '\n']))) := by
  subst he
  rfl

theorem gs_ext (w : GsW) (h : GsOk w) (t : List Char) :
    P.response_getscript (GsW.render w ++ t) = .ok t (GsW.val w) := by
  rcases w with ⟨sv, lw⟩ | ⟨lw, tg⟩
  · obtain ⟨hsv, hlok, hlow⟩ := h
    rw [show GsW.render (.present sv lw) ++ t
        = SvW.render sv ++ ('\r' :: '\n' :: (LineW.render lw ++ t))
      from by simp [GsW.render]]
    refine palt_ok_l (pmap_ok _ (ppair_ok
      (pterminated_ok (sv_ext hsv _) (tagP_exact ['\r', '\n'] _)) ?_))
    exact tagLine_ext okT_ext hlok ⟨hlow, rfl⟩ t
  · obtain ⟨hlok, htp⟩ := h
    obtain ⟨a, as, he, hab⟩ := nobye_head htp
    obtain ⟨hbr, hqu⟩ := ne_brace_quote_of_low (.inr hab)
    rcases lw with ⟨text, ca, hu⟩
    have hsh : LineW.render ⟨text, ca, hu⟩ ++ t
        = a :: ((as ++ (optPart ca CodeW.render ++ (optPart hu qsRender ++ ['\r', '\n']))) ++ t) := by
      rw [lineRender_cons ca hu he, List.cons_append]
    show palt (pmap (fun p => (some p.1, p.2))
        (psepPair P.sievestring_s2c crlfP P.response_ok))
      (pmap (fun r => (none, r)) P.response_nobye) _ = _
    rw [show GsW.render (GsW.absent ⟨text, ca, hu⟩ tg) = LineW.render ⟨text, ca, hu⟩
      from rfl, hsh, palt_err_l (gsFirst_err_head hbr hqu), ← hsh]
    exact pmap_ok _ (tagLine_ext nobyeT_ext hlok htp t)

theorem gs_pref (w : GsW) (q : List Char) (h : GsOk w)
    (hpre : q <+: GsW.render w) (hne : q ≠ GsW.render w) :
    P.response_getscript q = .incomplete := by
  rcases w with ⟨sv, lw⟩ | ⟨lw, tg⟩
  · obtain ⟨hsv, hlok, hlow⟩ := h
    rw [show GsW.render (.present sv lw)
        = SvW.render sv ++ (['\r', '\n'] ++ LineW.render lw)
      from by simp [GsW.render]] at hpre hne
    have hsvok : P.sievestring_s2c (SvW.render sv) = .ok [] (SvW.val sv) := by
      have := sv_ext hsv []
      rwa [List.append_nil] at this
    rcases prefix_split hpre with hq1 | ⟨q1, rfl, hq1⟩
    · by_cases hfull : q = SvW.render sv
      · subst hfull
        exact palt_inc_l (pmap_inc _ (ppair_inc_l (pmap_inc _
          (ppair_inc_r hsvok (tagP_nil (by decide))))))
      · exact palt_inc_l (pmap_inc _ (ppair_inc_l (pmap_inc _
          (ppair_inc_l (sv_pref hsv hq1 hfull)))))
    · have h1 : P.sievestring_s2c (SvW.render sv ++ q1) = .ok q1 (SvW.val sv) :=
        sv_ext hsv q1
      rcases prefix_split hq1 with hq2 | ⟨q2, rfl, hq2⟩
      · by_cases hfull2 : q1 = ['\r', '\n']
        · subst hfull2
          exact palt_inc_l (pmap_inc _ (ppair_inc_r
            (pterminated_ok h1 (tagP_exact ['\r', '\n'] []))
            (tagLine_inc_tp (by decide))))
        · rcases prefix_cases2 hq2 hfull2 with rfl | rfl
          · rw [List.append_nil] at h1 ⊢
            exact palt_inc_l (pmap_inc _ (ppair_inc_l (pmap_inc _
              (ppair_inc_r h1 (tagP_nil (by decide))))))
          · exact palt_inc_l (pmap_inc _ (ppair_inc_l (pmap_inc _
              (ppair_inc_r h1 (by decide)))))
      · have hq2ne : q2 ≠ LineW.render lw := by
          rintro rfl
          exact hne rfl
        exact palt_inc_l (pmap_inc _ (ppair_inc_r
          (pterminated_ok h1 (tagP_exact ['\r', '\n'] q2))
          (tagLine_pref okT_ext okT_pref hlok ⟨hlow, rfl⟩ hq2 hq2ne)))
  · obtain ⟨hlok, htp⟩ := h
    obtain ⟨a, as, he, hab⟩ := nobye_head htp
    obtain ⟨hbr, hqu⟩ := ne_brace_quote_of_low (.inr hab)
    rcases lw with ⟨text, ca, hu⟩
    rw [show GsW.render (GsW.absent ⟨text, ca, hu⟩ tg) = LineW.render ⟨text, ca, hu⟩
      from rfl] at hpre hne
    rcases q with _ | ⟨q0, qt⟩
    · exact palt_inc_l (pmap_inc _ (ppair_inc_l (pmap_inc _ (ppair_inc_l sv_nil))))
    · have hq0 : q0 = a := by
        obtain ⟨u, hvu⟩ := hpre
        rw [lineRender_cons ca hu he, List.cons_append] at hvu
        exact (List.cons_eq_cons.mp hvu).1
      subst hq0
      show palt (pmap (fun p => (some p.1, p.2))
          (psepPair P.sievestring_s2c crlfP P.response_ok))
        (pmap (fun r => (none, r)) P.response_nobye) _ = _
      rw [palt_err_l (gsFirst_err_head hbr hqu)]
      exact pmap_inc _ (tagLine_pref nobyeT_ext nobyeT_pref hlok htp hpre hne)

theorem gs_inv (s r : List Char) (v : Option (List Char) × Response)
    (h : P.response_getscript s = .ok r v) :
    ∃ w, GsOk w ∧ s = GsW.render w ++ r ∧ v = GsW.val w := by
  rcases palt_inv h with h1 | ⟨-, h2⟩
  · obtain ⟨p1, hp1, hv1⟩ := pmap_inv h1
    rw [show psepPair P.sievestring_s2c crlfP P.response_ok
        = ppair (pterminated P.sievestring_s2c crlfP) P.response_ok from rfl] at hp1
    obtain ⟨m1, ha, hb⟩ := ppair_inv' hp1
    obtain ⟨p2, hp2, hv2⟩ := pmap_inv ha
    obtain ⟨m2, hc, hd⟩ := ppair_inv' hp2
    obtain ⟨svw, hsvok, hs, hvsv⟩ := sv_inv hc
    obtain ⟨hm2, -⟩ := tagP_inv hd
    obtain ⟨lw, tg, hlok, htp, hsr, hvr⟩ := tagLine_inv okT_inv hb
    obtain ⟨hlow, rfl⟩ := htp
    refine ⟨.present svw lw, ⟨hsvok, hlok, hlow⟩, ?_, ?_⟩
    · rw [hs, hm2, hsr]
      simp [GsW.render]
    · rw [hv1]
      show (some p1.1, p1.2) = _
      rw [hv2, hvsv, hvr]
      rfl
  · obtain ⟨p1, hp1, hv1⟩ := pmap_inv h2
    obtain ⟨lw, tg, hlok, htp, hsr, hvr⟩ := tagLine_inv nobyeT_inv hp1
    refine ⟨.absent lw tg, ⟨hlok, htp⟩, ?_, ?_⟩
    · rw [hsr]
      rfl
    · rw [hv1]
      show (none, p1) = _
      rw [hvr]
      rfl

/-! ### STARTTLS response characterization -/

/-- Witness for the two grammar shapes of `response_starttls`. -/
inductive StW where
  | viaOk (lw : LineW) (caps : List CapEW) (w2 : RespW)
  | viaNobye (lw : LineW) (tg : OkNoBye)
  deriving DecidableEq

/-- Wire text of a STARTTLS response. -/
def StW.render : StW → List Char
  | .viaOk lw caps w2 => LineW.render lw ++ (catRen CapEW.render caps ++ RespW.render w2)
  | .viaNobye lw _ => LineW.render lw

/-- Decoded STARTTLS response value. -/
def StW.val : StW → List (List Char × Option (List Char)) × Response
  | .viaOk _ caps w2 => (caps.map CapEW.val, RespW.val w2)
  | .viaNobye lw tg => ([], LineW.val lw tg)

/-- Well-formedness of a STARTTLS witness. -/
def StOk : StW → Prop
  | .viaOk lw caps w2 => LineOk lw ∧ lowStr lw.text = lowStr "OK".toList ∧
      (∀ e ∈ caps, CapEOk e) ∧ RespOk w2
  | .viaNobye lw tg => LineOk lw ∧ NobyeTP lw.text tg

theorem stFirst_err_head {c : Char} {s : List Char} (h : c.toLower ≠ 'o') :
    ppreceded P.response_ok P.response_capability (c :: s) = .err :=
  pmap_err _ (ppair_err_l (tagLine_err_tp (okT_err_of_head h)))

theorem st_ext (w : StW) (h : StOk w) (t : List Char) :
    P.response_starttls (StW.render w ++ t) = .ok t (StW.val w) := by
  rcases w with ⟨lw, caps, w2⟩ | ⟨lw, tg⟩
  · obtain ⟨hlok, hlow, hcaps, hrok⟩ := h
    rw [show StW.render (.viaOk lw caps w2) ++ t
        = LineW.render lw ++ ((catRen CapEW.render caps ++ RespW.render w2) ++ t)
      from by simp [StW.render]]
    refine palt_ok_l (ppreceded_ok (tagLine_ext okT_ext hlok ⟨hlow, rfl⟩ _) ?_)
    exact listResp_ext cap_ext capRender_ne_nil
      (fun c t h1 h2 => scap_err_head h1 h2) hcaps hrok t
  · obtain ⟨hlok, htp⟩ := h
    obtain ⟨a, as, he, hab⟩ := nobye_head htp
    have hano : a.toLower ≠ 'o' := by
      rcases hab with h' | h' <;> rw [h'] <;> decide
    rcases lw with ⟨text, ca, hu⟩
    have hsh : LineW.render ⟨text, ca, hu⟩ ++ t
        = a :: ((as ++ (optPart ca CodeW.render ++ (optPart hu qsRender ++ ['\r', '\n']))) ++ t) := by
      rw [lineRender_cons ca hu he, List.cons_append]
    show palt (ppreceded P.response_ok P.response_capability)
      (pmap (fun r => ([], r)) P.response_nobye) _ = _
    rw [show StW.render (StW.viaNobye ⟨text, ca, hu⟩ tg) = LineW.render ⟨text, ca, hu⟩
      from rfl, hsh, palt_err_l (stFirst_err_head hano), ← hsh]
    exact pmap_ok _ (tagLine_ext nobyeT_ext hlok htp t)

theorem st_pref (w : StW) (q : List Char) (h : StOk w)
    (hpre : q <+: StW.render w) (hne : q ≠ StW.render w) :
    P.response_starttls q = .incomplete := by
  rcases w with ⟨lw, caps, w2⟩ | ⟨lw, tg⟩
  · obtain ⟨hlok, hlow, hcaps, hrok⟩ := h
    rw [show StW.render (.viaOk lw caps w2)
        = LineW.render lw ++ (catRen CapEW.render caps ++ RespW.render w2)
      from rfl] at hpre hne
    rcases prefix_split hpre with hq1 | ⟨q1, rfl, hq1⟩
    · by_cases hfull : q = LineW.render lw
      · subst hfull
        have h1 : P.response_ok (LineW.render lw) = .ok [] (LineW.val lw .Ok) := by
          have := tagLine_ext okT_ext hlok ⟨hlow, rfl⟩ []
          rwa [List.append_nil] at this
        exact palt_inc_l (pmap_inc _ (ppair_inc_r h1
          (ppair_inc_l (many0F_inc scap_nil))))
      · exact palt_inc_l (pmap_inc _ (ppair_inc_l
          (tagLine_pref okT_ext okT_pref hlok ⟨hlow, rfl⟩ hq1 hfull)))
    · have h1 : P.response_ok (LineW.render lw ++ q1) = .ok q1 (LineW.val lw .Ok) :=
        tagLine_ext okT_ext hlok ⟨hlow, rfl⟩ q1
      have hq1ne : q1 ≠ catRen CapEW.render caps ++ RespW.render w2 := by
        rintro rfl
        exact hne rfl
      exact palt_inc_l (pmap_inc _ (ppair_inc_r h1
        (listResp_pref cap_ext cap_pref capRender_ne_nil
          (fun c t h1 h2 => scap_err_head h1 h2) scap_nil hcaps hrok hq1 hq1ne)))
  · obtain ⟨hlok, htp⟩ := h
    obtain ⟨a, as, he, hab⟩ := nobye_head htp
    have hano : a.toLower ≠ 'o' := by
      rcases hab with h' | h' <;> rw [h'] <;> decide
    rcases lw with ⟨text, ca, hu⟩
    rw [show StW.render (StW.viaNobye ⟨text, ca, hu⟩ tg) = LineW.render ⟨text, ca, hu⟩
      from rfl] at hpre hne
    rcases q with _ | ⟨q0, qt⟩
    · exact palt_inc_l (pmap_inc _ (ppair_inc_l (tagLine_inc_tp (by decide))))
    · have hq0 : q0 = a := by
        obtain ⟨u, hvu⟩ := hpre
        rw [lineRender_cons ca hu he, List.cons_append] at hvu
        exact (List.cons_eq_cons.mp hvu).1
      subst hq0
      show palt (ppreceded P.response_ok P.response_capability)
        (pmap (fun r => ([], r)) P.response_nobye) _ = _
      rw [palt_err_l (stFirst_err_head hano)]
      exact pmap_inc _ (tagLine_pref nobyeT_ext nobyeT_pref hlok htp hpre hne)

theorem st_inv (s r : List Char) (v : List (List Char × Option (List Char)) × Response)
    (h : P.response_starttls s = .ok r v) :
    ∃ w, StOk w ∧ s = StW.render w ++ r ∧ v = StW.val w := by
  rcases palt_inv h with h1 | ⟨-, h2⟩
  · unfold ppreceded at h1
    obtain ⟨p1, hp1, hv1⟩ := pmap_inv h1
    obtain ⟨m1, ha, hb⟩ := ppair_inv' hp1
    obtain ⟨lw, tg, hlok, htp, hsr, hvr⟩ := tagLine_inv okT_inv ha
    obtain ⟨hlow, rfl⟩ := htp
    obtain ⟨caps, w2, hcaps, hrok, hm1, hv2⟩ := listResp_inv cap_inv hb
    refine ⟨.viaOk lw caps w2, ⟨hlok, hlow, hcaps, hrok⟩, ?_, ?_⟩
    · rw [hsr, hm1]
      simp [StW.render]
    · rw [hv1, hv2]
      rfl
  · obtain ⟨p1, hp1, hv1⟩ := pmap_inv h2
    obtain ⟨lw, tg, hlok, htp, hsr, hvr⟩ := tagLine_inv nobyeT_inv hp1
    refine ⟨.viaNobye lw tg, ⟨hlok, htp⟩, ?_, ?_⟩
    · rw [hsr]
      rfl
    · rw [hv1]
      show ([], p1) = _
      rw [hvr]
      rfl


/-! ### Typed-layer inversion helpers -/

theorem oknobye_full_inv {B : List Char} {v : Response}
    (h : response_oknobye B = some (.ok ([], v))) :
    ∃ w, RespOk w ∧ B = RespW.render w ∧ v = RespW.val w := by
  unfold response_oknobye at h
  rcases hP : P.response B with ⟨r1, v1⟩ | _ | _ | _ <;> rw [hP] at h
  · injection h with h1
    injection h1 with h2
    injection h2 with h3 h4
    subst h3
    subst h4
    obtain ⟨w, hrok, hB, hv⟩ := resp_inv hP
    rw [List.append_nil] at hB
    exact ⟨w, hrok, hB, hv⟩
  · cases h
  · cases h
  · cases h

theorem oknobye_pref_of {w : RespW} (hrok : RespOk w) {q : List Char}
    (hq : q <+: RespW.render w) (hne : q ≠ RespW.render w) :
    response_oknobye q = some (.error .incompleteResponse) := by
  unfold response_oknobye
  rw [resp_pref hrok hq hne]

theorem oknobye_ext_of {w : RespW} (hrok : RespOk w) (t : List Char) :
    response_oknobye (RespW.render w ++ t) = some (.ok (t, RespW.val w)) := by
  unfold response_oknobye
  rw [resp_ext hrok t]

theorem ls_parser_eq :
    P.response_listscripts = ppair (many0P P.lsEntry) P.response := rfl

theorem cap_parser_eq :
    P.response_capability = ppair (many0P P.single_capability) P.response := rfl


/-! ### Claim theorems: error taxonomy and typed-layer classification -/

/-- C2 counterexample: on the definite grammar mismatch `XX\r\n`, the
tag-line-only decode function `response_logout` returns
`Err(InvalidInput)` — a third error kind — not `Err(InvalidResponse)` as
the claim states. -/
theorem c2_counterexample :
    response_logout "XX\r\n".toList = some (.error .invalidInput) ∧
    Error.invalidInput ≠ Error.invalidResponse ∧
    Error.invalidInput ≠ Error.incompleteResponse := by
  refine ⟨by decide, by decide, by decide⟩

/-- Unfolding lemma: a grammar error at the shared tag-line entry point
becomes `InvalidInput`. -/
theorem response_oknobye_err {s : List Char} (h : P.response s = .err) :
    response_oknobye s = some (.error .invalidInput) := by
  unfold response_oknobye
  rw [h]

/-- C2 (amended): the decode error type has three kinds
(`IncompleteResponse`, `InvalidResponse`, `InvalidInput`).  On a definite
grammar mismatch the tag-line-only decode functions (logout, setactive,
putscript, deletescript, checkscript, havespace, renamescript,
unauthenticate, noop) return `Err(InvalidInput)` (via the
`From<nom::Err>` conversion), while the wrapped functions (getscript,
listscripts, capability, starttls) return `Err(InvalidResponse)`. -/
theorem c2_amended :
    (∀ e : Error, e = .incompleteResponse ∨ e = .invalidResponse ∨ e = .invalidInput) ∧
    (∀ s, P.response s = .err →
      response_logout s = some (.error .invalidInput) ∧
      response_setactive s = some (.error .invalidInput) ∧
      response_putscript s = some (.error .invalidInput) ∧
      response_deletescript s = some (.error .invalidInput) ∧
      response_checkscript s = some (.error .invalidInput) ∧
      response_havespace s = some (.error .invalidInput) ∧
      response_renamescript s = some (.error .invalidInput) ∧
      response_unauthenticate s = some (.error .invalidInput) ∧
      response_noop s = some (.error .invalidInput)) ∧
    (∀ s, P.response_getscript s = .err →
      response_getscript s = some (.error .invalidResponse)) ∧
    (∀ s, P.response_listscripts s = .err →
      response_listscripts s = some (.error .invalidResponse)) ∧
    (∀ s, P.response_capability s = .err →
      response_capability s = some (.error .invalidResponse)) ∧
    (∀ s, P.response_starttls s = .err →
      response_starttls s = some (.error .invalidResponse)) := by
  refine ⟨fun e => by cases e <;> simp, fun s h => ?_, fun s h => ?_, fun s h => ?_,
    fun s h => ?_, fun s h => ?_⟩
  · have hb := response_oknobye_err h
    refine ⟨hb, hb, hb, hb, hb, hb, hb, hb, ?_⟩
    unfold response_noop
    rw [hb]
  · unfold response_getscript
    rw [h]
  · unfold response_listscripts
    rw [h]
  · unfold response_capability
    rw [h]
  · unfold response_starttls
    rw [h]

/-- C2 witness: the amended classification evaluated on the concrete
mismatch `XX\r\n`. -/
theorem c2_amended_witness :
    response_logout "XX\r\n".toList = some (.error .invalidInput) ∧
    response_capability "XX\r\n".toList = some (.error .invalidResponse) :=
  ⟨(c2_amended.2.1 _ (by decide)).1, c2_amended.2.2.2.2.1 _ (by decide)⟩

/-- C3: on the grammar-valid CAPABILITY response
`"MAXREDIRECTS" "abc"\r\nOK\r\n` (non-numeric value) the typed
`response_capability` panics — `Capability::try_from` fails and the code
calls `.unwrap()` on it (`none` models the panic) — instead of returning
`Err(InvalidResponse)`.  Same for an absent value; a numeric value does
yield `Capability::MaxRedirects`. -/
theorem c3_maxredirects_panics :
    response_capability "\"MAXREDIRECTS\" \"abc\"\r\nOK\r\n".toList = none ∧
    response_capability "\"MAXREDIRECTS\"\r\nOK\r\n".toList = none ∧
    response_capability "\"MAXREDIRECTS\" \"10\"\r\nOK\r\n".toList
      = some (.ok ([], [.maxRedirects 10], ⟨.Ok, none, none⟩)) := by
  refine ⟨by decide, by decide, by decide⟩

/-- C5: nom's `length_data` over `&str` counts raw octets: after
`{N}\r\n` the decoder consumes exactly N bytes (UTF-8 code units),
copying them verbatim — including embedded CR and NUL — and reports
`Incomplete` while fewer than N bytes are buffered (so `{2}\r\né` with
the two-octet char `é` succeeds and `{4}\r\né` waits).  But when N falls
strictly inside a multi-byte char the code panics (`str::split_at` off a
char boundary, modelled `.crash`) instead of erroring: `{1}\r\né`.  On
char boundaries byte-exact consumption holds in general. -/
theorem c5_literal_octets_midchar_panic :
    P.literal_s2c "{3}\r\na\r\x00".toList = .ok [] ['a', '\r', '\x00'] ∧
    P.literal_s2c "{2}\r\nab".toList = .ok [] ['a', 'b'] ∧
    P.literal_s2c "{2}\r\na".toList = .incomplete ∧
    utf8Len "é".toList = 2 ∧
    P.literal_s2c "{2}\r\né".toList = .ok [] "é".toList ∧
    P.literal_s2c "{4}\r\né".toList = .incomplete ∧
    P.literal_s2c "{1}\r\né".toList = .crash ∧
    (∀ ds content t, DsOk ds → utf8Len content = P.natOfDs ds →
        P.literal_s2c ((litLenRender ds ++ content) ++ t) = .ok t content) := by
  refine ⟨by decide, by decide, by decide, by decide, by decide, by decide, by decide, ?_⟩
  intro ds content t hds hlen
  exact literal_s2c_ext hds hlen t

/-- C5 witness: the general byte-exact clause evaluated on the concrete
literal `{2}\r\nab` followed by a leftover byte. -/
theorem c5_witness :
    P.literal_s2c ((litLenRender ['2'] ++ "ab".toList) ++ "X".toList)
      = .ok "X".toList "ab".toList :=
  c5_literal_octets_midchar_panic.2.2.2.2.2.2.2 ['2'] "ab".toList "X".toList
    (by decide) (by decide)

/-- C6: `Capability::try_from` maps the name `LANGUAGE` to
`Capability::Owner`, not `Capability::Language` (the `Language` variant
is never produced); the other name mappings behave as claimed. -/
theorem c6_language_maps_to_owner :
    capabilityTryFrom "LANGUAGE".toList (some "fr".toList) = .ok (.owner "fr".toList) ∧
    Capability.owner "fr".toList ≠ Capability.language "fr".toList ∧
    capabilityTryFrom "SASL".toList (some "PLAIN LOGIN".toList)
      = .ok (.sasl ["PLAIN".toList, "LOGIN".toList]) ∧
    capabilityTryFrom "X-CUSTOM".toList (some "v".toList)
      = .ok (.unknown "X-CUSTOM".toList (some "v".toList)) := by
  refine ⟨by decide, by decide, by decide, by decide⟩

/-- C9: command encoding is total and deterministic, every encoded
command ends in CRLF, and each of the 13 variants produces exactly the
specified wire bytes; PUTSCRIPT always sends the script as a
client-to-server synchronizing literal whose length is the body's byte
length (`utf8Len`). -/
theorem c9_command_wire_forms :
    (∀ c : Command, ∃ t, c.to_string = t ++ ['\r', '\n']) ∧
    Command.Authenticate.to_string = "AUTHENTICATE\r\n".toList ∧
    Command.StartTls.to_string = "STARTTLS\r\n".toList ∧
    Command.Logout.to_string = "LOGOUT\r\n".toList ∧
    Command.Capability.to_string = "CAPABILITY\r\n".toList ∧
    Command.ListScripts.to_string = "LISTSCRIPTS\r\n".toList ∧
    Command.Noop.to_string = "NOOP\r\n".toList ∧
    Command.UnAuthenticate.to_string = "UNAUTHENTICATE\r\n".toList ∧
    (∀ name size, (Command.HaveSpace name size).to_string
      = "HAVESPACE ".toList ++ '"' :: name ++ '"' :: ' ' :: natStr size ++ "\r\n".toList) ∧
    (∀ name script, (Command.PutScript name script).to_string
      = "PUTSCRIPT ".toList ++ '"' :: name ++ '"' :: ' ' :: '{' :: natStr (utf8Len script)
          ++ '+' :: '}' :: '\r' :: '\n' :: script ++ "\r\n".toList) ∧
    (∀ name, (Command.SetActive name).to_string
      = "SETACTIVE ".toList ++ '"' :: name ++ '"' :: "\r\n".toList) ∧
    (∀ name, (Command.DeleteScript name).to_string
      = "DELETESCRIPT ".toList ++ '"' :: name ++ '"' :: "\r\n".toList) ∧
    (∀ name, (Command.RenameScript name).to_string
      = "RENAMESCRIPT ".toList ++ '"' :: name ++ '"' :: "\r\n".toList) ∧
    (∀ name, (Command.CheckScript name).to_string
      = "CHECKSCRIPT ".toList ++ '"' :: name ++ '"' :: "\r\n".toList) := by
  constructor
  · intro c
    cases c
    case Authenticate => exact ⟨"AUTHENTICATE".toList, by decide⟩
    case StartTls => exact ⟨"STARTTLS".toList, by decide⟩
    case Logout => exact ⟨"LOGOUT".toList, by decide⟩
    case Capability => exact ⟨"CAPABILITY".toList, by decide⟩
    case ListScripts => exact ⟨"LISTSCRIPTS".toList, by decide⟩
    case Noop => exact ⟨"NOOP".toList, by decide⟩
    case UnAuthenticate => exact ⟨"UNAUTHENTICATE".toList, by decide⟩
    case HaveSpace name size =>
      exact ⟨"HAVESPACE ".toList ++ '"' :: name ++ '"' :: ' ' :: natStr size,
        by simp [Command.to_string, to_qs]⟩
    case PutScript name script =>
      exact ⟨"PUTSCRIPT ".toList ++ '"' :: name ++ '"' :: ' ' :: '{'
        :: natStr (utf8Len script) ++ '+' :: '}' :: '\r' :: '\n' :: script,
        by simp [Command.to_string, to_qs, to_lit_c2s]⟩
    case SetActive name =>
      exact ⟨"SETACTIVE ".toList ++ '"' :: name ++ ['"'],
        by simp [Command.to_string, to_qs]⟩
    case DeleteScript name =>
      exact ⟨"DELETESCRIPT ".toList ++ '"' :: name ++ ['"'],
        by simp [Command.to_string, to_qs]⟩
    case RenameScript name =>
      exact ⟨"RENAMESCRIPT ".toList ++ '"' :: name ++ ['"'],
        by simp [Command.to_string, to_qs]⟩
    case CheckScript name =>
      exact ⟨"CHECKSCRIPT ".toList ++ '"' :: name ++ ['"'],
        by simp [Command.to_string, to_qs]⟩
  refine ⟨rfl, rfl, rfl, rfl, rfl, rfl, rfl, fun name size => ?_, fun name script => ?_,
    fun name => ?_, fun name => ?_, fun name => ?_, fun name => ?_⟩ <;>
    simp [Command.to_string, to_qs, to_lit_c2s]

/-- C10: the public `response_authenticate` is `unimplemented!()` — it
panics (modelled as `none`) on every input, never returning a value or an
`Error` — while AUTHENTICATE response shapes exist only at the parser
level (`response_authenticate_initial` accepts a challenge string or a
NO/BYE tag line). -/
theorem c10_response_authenticate_panics :
    (∀ s : List Char, response_authenticate s = none) ∧
    P.response_authenticate_initial "{4}\r\nabcd\r\n".toList
      = .ok [] (.inl "abcd".toList) ∧
    P.response_authenticate_initial "BYE\r\n".toList
      = .ok [] (.inr ⟨.Bye, none, none⟩) := by
  refine ⟨fun _ => rfl, by decide, by decide⟩

/-- C1: for every complete response accepted by a typed decode function
(logout, noop, listscripts, capability, getscript, starttls), every
strict prefix of that buffer decodes to `Err(IncompleteResponse)` (never
an invalid-classification error), and appending further bytes yields the
same decoded value with the extra bytes as leftover (pipelining). -/
theorem c1_prefix_incomplete_and_pipelining :
    (∀ B v, response_logout B = some (.ok ([], v)) →
       (∀ q, q <+: B → q ≠ B →
          response_logout q = some (.error .incompleteResponse)) ∧
       (∀ t, response_logout (B ++ t) = some (.ok (t, v)))) ∧
    (∀ B v, response_noop B = some (.ok ([], v)) →
       (∀ q, q <+: B → q ≠ B →
          response_noop q = some (.error .incompleteResponse)) ∧
       (∀ t, response_noop (B ++ t) = some (.ok (t, v)))) ∧
    (∀ B sc resp, response_listscripts B = some (.ok ([], sc, resp)) →
       (∀ q, q <+: B → q ≠ B →
          response_listscripts q = some (.error .incompleteResponse)) ∧
       (∀ t, response_listscripts (B ++ t) = some (.ok (t, sc, resp)))) ∧
    (∀ B caps resp, response_capability B = some (.ok ([], caps, resp)) →
       (∀ q, q <+: B → q ≠ B →
          response_capability q = some (.error .incompleteResponse)) ∧
       (∀ t, response_capability (B ++ t) = some (.ok (t, caps, resp)))) ∧
    (∀ B str resp, response_getscript B = some (.ok ([], str, resp)) →
       (∀ q, q <+: B → q ≠ B →
          response_getscript q = some (.error .incompleteResponse)) ∧
       (∀ t, response_getscript (B ++ t) = some (.ok (t, str, resp)))) ∧
    (∀ B caps resp, response_starttls B = some (.ok ([], caps, resp)) →
       (∀ q, q <+: B → q ≠ B →
          response_starttls q = some (.error .incompleteResponse)) ∧
       (∀ t, response_starttls (B ++ t) = some (.ok (t, caps, resp)))) := by
  refine ⟨?_, ?_, ?_, ?_, ?_, ?_⟩
  · -- response_logout
    intro B v h
    obtain ⟨w, hrok, rfl, hv⟩ := oknobye_full_inv h
    refine ⟨fun q hq hne => ?_, fun t => ?_⟩
    · show response_oknobye q = _
      exact oknobye_pref_of hrok hq hne
    · show response_oknobye (RespW.render w ++ t) = _
      rw [oknobye_ext_of hrok t, hv]
  · -- response_noop
    intro B v h
    unfold response_noop at h
    rcases hO : response_oknobye B with _ | e | ⟨left, r1⟩ <;> rw [hO] at h
    · cases h
    · cases h
    · change (if r1.tag = OkNoBye.Ok then some (Except.ok (left, r1))
          else some (Except.error Error.invalidResponse)) = some (Except.ok ([], v)) at h
      by_cases htag : r1.tag = .Ok
      · rw [if_pos htag] at h
        injection h with h1
        injection h1 with h2
        injection h2 with h3 h4
        subst h3
        subst h4
        obtain ⟨w, hrok, rfl, hv⟩ := oknobye_full_inv hO
        refine ⟨fun q hq hne => ?_, fun t => ?_⟩
        · unfold response_noop
          rw [oknobye_pref_of hrok hq hne]
        · unfold response_noop
          rw [oknobye_ext_of hrok t]
          show (if (RespW.val w).tag = OkNoBye.Ok then some (Except.ok (t, RespW.val w))
              else some (Except.error Error.invalidResponse)) = some (Except.ok (t, r1))
          rw [← hv, if_pos htag]
      · rw [if_neg htag] at h
        cases h
  · -- response_listscripts
    intro B sc resp h
    unfold response_listscripts at h
    rcases hP : P.response_listscripts B with ⟨r1, sc1, resp1⟩ | _ | _ | _ <;>
      rw [hP] at h
    · change (if 1 < countActive sc1 then some (Except.error Error.invalidResponse)
          else some (Except.ok (r1, sc1, resp1))) = some (Except.ok ([], sc, resp)) at h
      by_cases hact : 1 < countActive sc1
      · rw [if_pos hact] at h
        cases h
      · rw [if_neg hact] at h
        injection h with h1
        injection h1 with h2
        injection h2 with h3 h4
        injection h4 with h5 h6
        subst h3
        subst h5
        subst h6
        obtain ⟨ws, w, hoks, hrok, hB, hv⟩ := listResp_inv lsEntry_inv hP
        rw [List.append_nil] at hB
        subst hB
        injection hv with hvs hvr
        refine ⟨fun q hq hne => ?_, fun t => ?_⟩
        · unfold response_listscripts
          rw [ls_parser_eq, listResp_pref lsEntry_ext lsEntry_pref
            lsEntryRender_ne_nil (fun c t h1 h2 => lsEntry_err_head h1 h2)
            lsEntry_nil hoks hrok hq hne]
        · unfold response_listscripts
          rw [ls_parser_eq, listResp_ext lsEntry_ext lsEntryRender_ne_nil
            (fun c t h1 h2 => lsEntry_err_head h1 h2) hoks hrok t]
          show (if 1 < countActive (List.map LsEntryW.val ws)
              then some (Except.error Error.invalidResponse)
              else some (Except.ok (t, List.map LsEntryW.val ws, RespW.val w)))
            = some (Except.ok (t, sc1, resp1))
          rw [← hvs, ← hvr, if_neg hact]
    · cases h
    · cases h
    · cases h
  · -- response_capability
    intro B caps resp h
    unfold response_capability at h
    rcases hP : P.response_capability B with ⟨r1, raw1, resp1⟩ | _ | _ | _ <;>
      rw [hP] at h
    · change (match capsOfRaw raw1 with
          | some caps2 => some (Except.ok (r1, caps2, resp1))
          | none => none) = some (Except.ok ([], caps, resp)) at h
      rcases hc : capsOfRaw raw1 with _ | caps1 <;> rw [hc] at h
      · cases h
      · injection h with h1
        injection h1 with h2
        injection h2 with h3 h4
        injection h4 with h5 h6
        subst h3
        subst h5
        subst h6
        obtain ⟨ws, w, hoks, hrok, hB, hv⟩ := listResp_inv cap_inv hP
        rw [List.append_nil] at hB
        subst hB
        injection hv with hvraw hvresp
        refine ⟨fun q hq hne => ?_, fun t => ?_⟩
        · unfold response_capability
          rw [cap_parser_eq, listResp_pref cap_ext cap_pref capRender_ne_nil
            (fun c t h1 h2 => scap_err_head h1 h2) scap_nil hoks hrok hq hne]
        · unfold response_capability
          rw [cap_parser_eq, listResp_ext cap_ext capRender_ne_nil
            (fun c t h1 h2 => scap_err_head h1 h2) hoks hrok t]
          show (match capsOfRaw (List.map CapEW.val ws) with
            | some caps2 => some (Except.ok (t, caps2, RespW.val w))
            | none => none) = some (Except.ok (t, caps1, resp1))
          rw [← hvraw, ← hvresp, hc]
    · cases h
    · cases h
    · cases h
  · -- response_getscript
    intro B str resp h
    unfold response_getscript at h
    rcases hP : P.response_getscript B with ⟨r1, o, resp1⟩ | _ | _ | _ <;> rw [hP] at h
    · rcases o with _ | str1
      · cases h
      · injection h with h1
        injection h1 with h2
        injection h2 with h3 h4
        injection h4 with h5 h6
        subst h3
        subst h5
        subst h6
        obtain ⟨w, hgok, hB, hv⟩ := gs_inv _ _ _ hP
        rw [List.append_nil] at hB
        subst hB
        refine ⟨fun q hq hne => ?_, fun t => ?_⟩
        · unfold response_getscript
          rw [gs_pref w q hgok hq hne]
        · unfold response_getscript
          rw [gs_ext w hgok t, ← hv]
    · cases h
    · cases h
    · cases h
  · -- response_starttls
    intro B caps resp h
    unfold response_starttls at h
    rcases hP : P.response_starttls B with ⟨r1, raw1, resp1⟩ | _ | _ | _ <;>
      rw [hP] at h
    · change (match capsOfRaw raw1 with
          | some caps2 => some (Except.ok (r1, caps2, resp1))
          | none => none) = some (Except.ok ([], caps, resp)) at h
      rcases hc : capsOfRaw raw1 with _ | caps1 <;> rw [hc] at h
      · cases h
      · injection h with h1
        injection h1 with h2
        injection h2 with h3 h4
        injection h4 with h5 h6
        subst h3
        subst h5
        subst h6
        obtain ⟨w, hstok, hB, hv⟩ := st_inv _ _ _ hP
        rw [List.append_nil] at hB
        subst hB
        refine ⟨fun q hq hne => ?_, fun t => ?_⟩
        · unfold response_starttls
          rw [st_pref w q hstok hq hne]
        · unfold response_starttls
          rw [st_ext w hstok t, ← hv]
          show (match capsOfRaw raw1 with
            | some caps2 => some (Except.ok (t, caps2, resp1))
            | none => none) = some (Except.ok (t, caps1, resp1))
          rw [hc]
    · cases h
    · cases h
    · cases h

/-- C1 witness: concrete prefix/extension instances for each of the six
decode functions. -/
theorem c1_witness :
    response_logout "OK\r".toList = some (.error .incompleteResponse) ∧
    response_logout ("OK\r\n".toList ++ "NO\r\n".toList)
      = some (.ok ("NO\r\n".toList, ⟨.Ok, none, none⟩)) ∧
    response_noop "OK".toList = some (.error .incompleteResponse) ∧
    response_listscripts "\"a\"\r".toList = some (.error .incompleteResponse) ∧
    response_capability "\"SASL\" \"PLAIN\"\r\nOK\r".toList
      = some (.error .incompleteResponse) ∧
    response_getscript "\"h\"\r\nOK".toList = some (.error .incompleteResponse) ∧
    response_starttls "OK\r\nO".toList = some (.error .incompleteResponse) :=
  ⟨(c1_prefix_incomplete_and_pipelining.1 "OK\r\n".toList ⟨.Ok, none, none⟩
      (by decide)).1 "OK\r".toList (by decide) (by decide),
   (c1_prefix_incomplete_and_pipelining.1 "OK\r\n".toList ⟨.Ok, none, none⟩
      (by decide)).2 "NO\r\n".toList,
   (c1_prefix_incomplete_and_pipelining.2.1 "OK\r\n".toList ⟨.Ok, none, none⟩
      (by decide)).1 "OK".toList (by decide) (by decide),
   (c1_prefix_incomplete_and_pipelining.2.2.1 "\"a\"\r\nOK\r\n".toList
      [("a".toList, false)] ⟨.Ok, none, none⟩ (by decide)).1
      "\"a\"\r".toList (by decide) (by decide),
   (c1_prefix_incomplete_and_pipelining.2.2.2.1 "\"SASL\" \"PLAIN\"\r\nOK\r\n".toList
      [.sasl ["PLAIN".toList]] ⟨.Ok, none, none⟩ (by decide)).1
      "\"SASL\" \"PLAIN\"\r\nOK\r".toList (by decide) (by decide),
   (c1_prefix_incomplete_and_pipelining.2.2.2.2.1 "\"h\"\r\nOK\r\n".toList
      "h".toList ⟨.Ok, none, none⟩ (by decide)).1
      "\"h\"\r\nOK".toList (by decide) (by decide),
   (c1_prefix_incomplete_and_pipelining.2.2.2.2.2 "OK\r\nOK\r\n".toList
      [] ⟨.Ok, none, none⟩ (by decide)).1 "OK\r\nO".toList (by decide) (by decide)⟩

/-- C4: after grammar success `response_listscripts` returns
`Err(InvalidResponse)` exactly when two or more entries are flagged
active, and otherwise the script list with those flags; the ` ACTIVE`
marker is matched case-insensitively.  The spec's own worked example
(`"b" ACTIVE` plus `"c" active`) therefore fails Invalid, since both
markers count. -/
theorem c4_listscripts_at_most_one_active :
    (∀ s left scripts resp, P.response_listscripts s = .ok left (scripts, resp) →
        response_listscripts s =
          if 1 < countActive scripts then some (.error .invalidResponse)
          else some (.ok (left, scripts, resp))) ∧
    (∀ (sv : SvW) (sp act t : List Char), SvOk sv → SpOk sp →
        lowStr act = lowStr "ACTIVE".toList →
        P.lsEntry ((SvW.render sv ++ (sp ++ (act ++ ['\r', '\n']))) ++ t)
          = .ok t (SvW.val sv, true)) ∧
    response_listscripts "\"a\"\r\n\"b\" ACTIVE\r\n\"c\" active\r\nOK\r\n".toList
      = some (.error .invalidResponse) ∧
    response_listscripts "\"a\"\r\n\"b\" ACTIVE\r\n\"c\"\r\nOK\r\n".toList
      = some (.ok ([], [("a".toList, false), ("b".toList, true), ("c".toList, false)],
          ⟨.Ok, none, none⟩)) := by
  refine ⟨?_, ?_, by decide, by decide⟩
  · intro s left scripts resp h
    unfold response_listscripts
    rw [h]
  · intro sv sp act t hsv hsp hlow
    have h := lsEntry_ext ⟨sv, some (sp, act)⟩ ⟨hsv, hsp, hlow⟩ t
    rw [show LsEntryW.render ⟨sv, some (sp, act)⟩
        = SvW.render sv ++ (sp ++ (act ++ ['\r', '\n']))
      from by simp [LsEntryW.render, optPart]] at h
    exact h

/-- C4 witness: the classification and the caseless marker evaluated on
concrete inputs. -/
theorem c4_witness :
    response_listscripts "\"x\" ACTIVE\r\nOK\r\n".toList
      = (if 1 < countActive [("x".toList, true)] then some (.error .invalidResponse)
         else some (.ok ([], [("x".toList, true)], ⟨.Ok, none, none⟩))) ∧
    P.lsEntry ((SvW.render (.qs [QI.plain 's']) ++
        (" ".toList ++ ("aCtIvE".toList ++ ['\r', '\n']))) ++ [])
      = .ok [] (SvW.val (.qs [QI.plain 's']), true) :=
  ⟨c4_listscripts_at_most_one_active.1 "\"x\" ACTIVE\r\nOK\r\n".toList []
      [("x".toList, true)] ⟨.Ok, none, none⟩ (by decide),
   c4_listscripts_at_most_one_active.2.1 (.qs [QI.plain 's']) " ".toList
      "aCtIvE".toList [] (by decide) (by decide) (by decide)⟩

/-- C7 counterexample: the typed `response_getscript` maps the
grammar-accepted bare `NO\r\n` tag line (script absent) to
`Err(InvalidResponse)` instead of returning a script-absent success. -/
theorem c7_counterexample :
    P.response_getscript "NO\r\n".toList = .ok [] (none, ⟨.No, none, none⟩) ∧
    response_getscript "NO\r\n".toList = some (.error .invalidResponse) := by
  refine ⟨by decide, by decide⟩

/-- C7 (amended): the GETSCRIPT grammar accepts the two shapes
(sieve-string CRLF ok-line with the script, or a bare NO/BYE line with
none), and a bare OK line is `Err(InvalidResponse)`; but the typed
`response_getscript` also rejects the grammar-accepted bare NO/BYE shape
with `Err(InvalidResponse)` — it succeeds only on the script-present
shape. -/
theorem c7_getscript_shapes :
    (∀ s left str resp, P.response_getscript s = .ok left (some str, resp) →
        response_getscript s = some (.ok (left, str, resp))) ∧
    (∀ s left resp, P.response_getscript s = .ok left (none, resp) →
        response_getscript s = some (.error .invalidResponse)) ∧
    P.response_getscript "BYE\r\n".toList = .ok [] (none, ⟨.Bye, none, none⟩) ∧
    response_getscript "\"h\"\r\nOK\r\n".toList
      = some (.ok ([], "h".toList, ⟨.Ok, none, none⟩)) ∧
    response_getscript "OK\r\n".toList = some (.error .invalidResponse) ∧
    response_getscript "BYE\r\n".toList = some (.error .invalidResponse) := by
  refine ⟨?_, ?_, by decide, by decide, by decide, by decide⟩
  · intro s left str resp h
    unfold response_getscript
    rw [h]
  · intro s left resp h
    unfold response_getscript
    rw [h]

/-- C7 witness: the two typed-layer classification clauses evaluated on
concrete grammar outcomes. -/
theorem c7_witness :
    response_getscript "\"s\"\r\nOK\r\n".toList
      = some (.ok ([], "s".toList, ⟨.Ok, none, none⟩)) ∧
    response_getscript "NO\r\n".toList = some (.error .invalidResponse) :=
  ⟨c7_getscript_shapes.1 "\"s\"\r\nOK\r\n".toList [] "s".toList ⟨.Ok, none, none⟩
      (by decide),
   c7_getscript_shapes.2.1 "NO\r\n".toList [] ⟨.No, none, none⟩ (by decide)⟩

/-- C8: in a quoted string a backslash escapes exactly the following
char, which is emitted literally whatever it is; a missing closing quote
at end of input is `Incomplete`; the spec's concrete examples hold. -/
theorem c8_quoted_string_escapes :
    (∀ (pre post : List QI) (c : Char), QsOk pre → QsOk post →
        P.quoted_string (qsRender (pre ++ QI.esc c :: post))
          = .ok [] (qVal pre ++ c :: qVal post)) ∧
    (∀ items, QsOk items → P.quoted_string ('"' :: qRender items) = .incomplete) ∧
    P.quoted_string "\"a\\\"b\"".toList = .ok [] "a\"b".toList ∧
    P.quoted_string "\"\\\\\"".toList = .ok [] "\\".toList ∧
    P.quoted_string "\"abc".toList = .incomplete := by
  refine ⟨?_, ?_, by decide, by decide, by decide⟩
  · intro pre post c hpre hpost
    have hok : QsOk (pre ++ QI.esc c :: post) := by
      intro i hi
      rcases List.mem_append.mp hi with h1 | h2
      · exact hpre i h1
      · rcases List.mem_cons.mp h2 with rfl | h3
        · trivial
        · exact hpost i h3
    have h := quoted_string_ext (pre ++ QI.esc c :: post) hok []
    rw [List.append_nil] at h
    rw [h]
    simp [qVal, QI.val]
  · intro items hok
    refine quoted_string_pref items hok ⟨['"'], by simp [qsRender]⟩ ?_
    intro hc
    have hlen := congrArg List.length hc
    simp [qsRender] at hlen

/-- C8 witness: the escape clause and the missing-quote clause evaluated
on concrete item lists. -/
theorem c8_witness :
    P.quoted_string (qsRender ([QI.plain 'x'] ++ QI.esc 'q' :: []))
      = .ok [] (qVal [QI.plain 'x'] ++ 'q' :: qVal []) ∧
    P.quoted_string ('"' :: qRender [QI.plain 'a']) = .incomplete :=
  ⟨c8_quoted_string_escapes.1 [QI.plain 'x'] [] 'q' (by decide) (by decide),
   c8_quoted_string_escapes.2.1 [QI.plain 'a'] (by decide)⟩


end Managesieve

